import Mathlib

/-!
Verification development for the InnoDB-Internals-Visualizer core.

The definitions below are a shallow embedding of the program's core
(`src/types.ts`, engine section, and the pure state projection of
`src/services/gemini.ts`):

* `initializeEngine`, `insertIntoIndex`, `insertRecord`, `resetEngine` —
  the index engine (record insertion with page splitting over two
  doubly-linked page chains).
* `simulateSelectQuery` — the query simulator for the three query shapes.
* `simplePages` — the snapshot projection handed to the external
  summarization collaborator.

Modelling conventions:

* JavaScript numbers used as ids/keys/counters are modelled as `Int`
  (the program only ever works with integral values there).
* `localeCompare` is modelled as lexicographic `String` comparison.
* `Array.prototype.sort` with a consistent comparator is a stable sort;
  it is modelled by a stable insertion sort (`jsSort`), which is
  extensionally the unique stable sort for such comparators.
* Log entries drop the random `id` and wall-clock `timestamp` fields
  (nondeterministic, never read by the core logic).
* The source's `while` loops walk page links that, for arbitrary
  (unreachable) states, may cycle; they are embedded fuel-bounded with
  fuel `pages.length + 1`.  A terminating run of the source never revisits
  a page (revisiting repeats the loop state forever), so it performs at
  most `pages.length` iterations and the fuel is never exhausted on runs
  that terminate; exhaustion (`none`) models divergence of the source.
  Similarly, `none` models the crash on an impossible `findIndex` miss.
-/

namespace Innodb

/-- `IndexType` from `src/types.ts`. -/
inductive IndexType where
  | PRIMARY
  | SECONDARY
deriving DecidableEq, Repr

/-- `RecordData` from `src/types.ts` (optional display flags default to false,
matching JS `undefined` being falsy). -/
structure RecordData where
  id : Int
  value : String
  isNew : Bool := false
  isHighlighted : Bool := false
deriving DecidableEq, Repr

/-- `PageData` from `src/types.ts`. -/
structure PageData where
  id : Int
  indexType : IndexType
  records : List RecordData
  nextPageId : Option Int
  prevPageId : Option Int
  isDirty : Bool := false
  isSplitting : Bool := false
  isHighlighted : Bool := false
deriving DecidableEq, Repr

/-- Log severity from `src/types.ts` (`LogEntry.type`). -/
inductive LogType where
  | info
  | success
  | warning
  | error
deriving DecidableEq, Repr

/-- `LogEntry` from `src/types.ts`, without the nondeterministic random id and
timestamp. -/
structure LogEntry where
  message : String
  type : LogType
deriving DecidableEq, Repr

/-- `EngineState` from `src/types.ts`. -/
structure EngineState where
  pages : List PageData
  logs : List LogEntry
  pageCounter : Int
deriving DecidableEq, Repr

/-- `PAGE_CAPACITY` from `src/types.ts`. -/
def PAGE_CAPACITY : Nat := 4

/-- `createPage` helper from the engine source. -/
def createPage (id : Int) (t : IndexType) : PageData :=
  { id := id, indexType := t, records := [], nextPageId := none, prevPageId := none }

/-- `addLog` helper: prepend the new entry, keep at most the first 49 old ones. -/
def addLog (logs : List LogEntry) (message : String) (type : LogType) : List LogEntry :=
  { message := message, type := type } :: logs.take 49

/-- `initializeEngine` from the engine source. -/
def initializeEngine : EngineState :=
  { pages := [createPage 1 .PRIMARY, createPage 2 .SECONDARY],
    logs := addLog []
      "InnoDB Engine Initialized. Created Primary Clustered Index and Secondary Index (Name)."
      .success,
    pageCounter := 2 }

/-- Three-way character comparison by code point. -/
def charCmp (a b : Char) : Int :=
  if a.toNat < b.toNat then -1 else if b.toNat < a.toNat then 1 else 0

/-- Three-way lexicographic comparison of character lists. -/
def listCmp : List Char → List Char → Int
  | [], [] => 0
  | [], _ :: _ => -1
  | _ :: _, [] => 1
  | a :: as, b :: bs => if charCmp a b = 0 then listCmp as bs else charCmp a b

/-- `localeCompare`-style three-way string comparison, modelled as
lexicographic comparison by code point. -/
def strCmpInt (a b : String) : Int := listCmp a.toList b.toList

/-- Primary-index comparator `(a, b) => a.id - b.id`. -/
def cmpPrimary (a b : RecordData) : Int := a.id - b.id

/-- Secondary-index comparator
`(a, b) => a.value.localeCompare(b.value) || a.id - b.id`. -/
def cmpSecondary (a b : RecordData) : Int :=
  let c := strCmpInt a.value b.value
  if c = 0 then a.id - b.id else c

/-- Stable insertion of one element into a list wrt a Boolean "a before b" test. -/
def insertSorted (leB : RecordData → RecordData → Bool) (a : RecordData) :
    List RecordData → List RecordData
  | [] => [a]
  | b :: l => if leB a b then a :: b :: l else b :: insertSorted leB a l

/-- Model of `Array.prototype.sort(compareFn)`: a stable sort wrt the
comparator.  For consistent comparators (all comparators of this program)
the stable sort is extensionally unique, so this insertion sort matches
the JS engine's stable sort. -/
def jsSort (cmp : RecordData → RecordData → Int) : List RecordData → List RecordData
  | [] => []
  | a :: l => insertSorted (fun x y => decide (cmp x y ≤ 0)) a (jsSort cmp l)

/-- Head selection of one index chain: first page of the type with a null
`prevPageId`, with the source's fallback to the first page of the type. -/
def chainHead (pages : List PageData) (t : IndexType) : Option PageData :=
  let indexPages := pages.filter (fun p => p.indexType == t)
  match indexPages.find? (fun p => p.prevPageId == none) with
  | some h => some h
  | none => indexPages.head?

/-- The target-page location loop of `insertIntoIndex`.
`some (some pid)` : the loop broke with `targetPageId = pid`;
`some none` : the loop exited with `targetPageId = -1` (dangling link);
`none` : fuel exhausted, i.e. the source loop diverges. -/
def locateLoop (pages : List PageData) (cmp : RecordData → RecordData → Int)
    (record : RecordData) : PageData → Nat → Option (Option Int)
  | _, 0 => none
  | cur, fuel + 1 =>
    match cur.nextPageId with
    | none => some (some cur.id)
    | some nid =>
      match pages.find? (fun p => p.id == nid) with
      | none => some none
      | some nextPage =>
        match nextPage.records with
        | [] => locateLoop pages cmp record nextPage fuel
        | r0 :: _ =>
          if cmp r0 record > 0 then some (some cur.id)
          else locateLoop pages cmp record nextPage fuel

/-- Step 1 of `insertIntoIndex`: find the target page of the chain. -/
def locateTarget (pages : List PageData) (t : IndexType)
    (cmp : RecordData → RecordData → Int) (record : RecordData) : Option (Option Int) :=
  match chainHead pages t with
  | none => some none
  | some h => locateLoop pages cmp record h (pages.length + 1)

/-- `currentPages[findIndex(p => p.id === pid)] = f(...)`: replace the first
page with the given id (no-op when absent, matching the guarded source). -/
def updateFirstById (pid : Int) (f : PageData → PageData) : List PageData → List PageData
  | [] => []
  | p :: rest => if p.id == pid then f p :: rest else p :: updateFirstById pid f rest

/-- Result triple of `insertIntoIndex`. -/
structure InsertResult where
  pages : List PageData
  newPageCounter : Int
  logs : List LogEntry
deriving DecidableEq, Repr

/-- Printable name of an index type (template-literal interpolation). -/
def IndexType.str : IndexType → String
  | .PRIMARY => "PRIMARY"
  | .SECONDARY => "SECONDARY"

def dupMsg (rid : Int) : String :=
  "Duplicate Key Error: ID " ++ toString rid ++ " exists."

def splitStartMsg (t : IndexType) (pid : Int) : String :=
  "[" ++ t.str ++ "] Page " ++ toString pid ++ " full. Splitting..."

def splitDoneMsg (t : IndexType) (pid newId : Int) : String :=
  "[" ++ t.str ++ "] Split Complete. Page " ++ toString pid ++ " -> Page " ++ toString newId ++ "."

/-- `insertIntoIndex` from the engine source: locate the target page of the
chain, reject primary-key duplicates on it, insert + re-sort, and split when
the page exceeds `PAGE_CAPACITY`.  `none` models a non-returning source run
(divergent walk on a cyclic state / crash on an impossible index miss). -/
def insertIntoIndex (pages : List PageData) (indexType : IndexType) (record : RecordData)
    (cmp : RecordData → RecordData → Int) (pageCounter : Int) (logBuffer : List LogEntry) :
    Option InsertResult :=
  match locateTarget pages indexType cmp record with
  | none => none
  | some none => some ⟨pages, pageCounter, logBuffer⟩
  | some (some targetPageId) =>
    match pages.find? (fun p => p.id == targetPageId) with
    | none => none
    | some targetPage =>
      if indexType == .PRIMARY && targetPage.records.any (fun r => r.id == record.id) then
        some ⟨pages, pageCounter, addLog logBuffer (dupMsg record.id) .error⟩
      else
        let updatedRecords := jsSort cmp (targetPage.records ++ [record])
        if updatedRecords.length > PAGE_CAPACITY then
          let logs1 := addLog logBuffer (splitStartMsg indexType targetPageId) .warning
          let newPageId := pageCounter + 1
          let splitIndex := (updatedRecords.length + 1) / 2
          let keepRecords := updatedRecords.take splitIndex
          let moveRecords := updatedRecords.drop splitIndex
          let pages2 := updateFirstById targetPageId
            (fun _ => { targetPage with
                        records := keepRecords
                        isDirty := true
                        isSplitting := true
                        nextPageId := some newPageId }) pages
          let newPage : PageData :=
            { id := newPageId, indexType := indexType, records := moveRecords,
              nextPageId := targetPage.nextPageId, prevPageId := some targetPage.id,
              isDirty := true, isSplitting := false, isHighlighted := false }
          let pages3 :=
            match targetPage.nextPageId with
            | none => pages2
            | some nn => updateFirstById nn (fun q => { q with prevPageId := some newPageId }) pages2
          some ⟨pages3 ++ [newPage], newPageId, addLog logs1 (splitDoneMsg indexType targetPageId newPageId) .success⟩
        else
          let pages1 := updateFirstById targetPageId
            (fun _ => { targetPage with
                        records := updatedRecords
                        isDirty := true
                        isSplitting := false }) pages
          some ⟨pages1, pageCounter, logBuffer⟩

/-- Clearing of per-record display flags at the start of `insertRecord`. -/
def clearRecordFlags (r : RecordData) : RecordData :=
  { r with isNew := false, isHighlighted := false }

/-- Clearing of per-page display flags at the start of `insertRecord`. -/
def clearPageFlags (p : PageData) : PageData :=
  { p with
    isDirty := false
    isSplitting := false
    isHighlighted := false
    records := p.records.map clearRecordFlags }

def txMsg (id : Int) (value : String) : String :=
  "Transaction Committed: Inserted (" ++ toString id ++ ", \"" ++ value ++ "\")."

/-- `insertRecord` from the engine source: clear display flags, insert into
the PRIMARY chain, then into the SECONDARY chain, then log the commit. -/
def insertRecord (state : EngineState) (id : Int) (value : String) : Option EngineState :=
  let pages := state.pages.map clearPageFlags
  match insertIntoIndex pages .PRIMARY { id := id, value := value, isNew := true }
      cmpPrimary state.pageCounter state.logs with
  | none => none
  | some r1 =>
    match insertIntoIndex r1.pages .SECONDARY { id := id, value := value, isNew := true }
        cmpSecondary r1.newPageCounter r1.logs with
    | none => none
    | some r2 =>
      some { pages := r2.pages, logs := addLog r2.logs (txMsg id value) .info,
             pageCounter := r2.newPageCounter }

/-- `resetEngine` from the engine source: exactly `initializeEngine()`. -/
def resetEngine : EngineState := initializeEngine

/-- `SimulationStepType` from `src/types.ts`. -/
inductive SimulationStepType where
  | SCAN_PAGE
  | FOUND_INDEX_ENTRY
  | JUMP_TO_PK
  | FOUND_DATA
  | FINISHED
deriving DecidableEq, Repr

/-- `SimulationStep` from `src/types.ts`. -/
structure SimulationStep where
  stepId : Nat
  message : String
  targetPageId : Int
  targetRecordId : Option Int := none
  type : SimulationStepType
deriving DecidableEq, Repr

/-- The `addStep` closure of `simulateSelectQuery`: push a step whose
`stepId` is the running counter (= number of steps pushed so far). -/
def addStep (steps : List SimulationStep) (msg : String) (pageId : Int)
    (t : SimulationStepType) (recId : Option Int) : List SimulationStep :=
  steps ++ [{ stepId := steps.length, message := msg, targetPageId := pageId,
              targetRecordId := recId, type := t }]

/-- The query parameter `string | number`. -/
inductive QueryParam where
  | num (n : Int)
  | str (s : String)
deriving DecidableEq, Repr

/-- JS `Number(param)`; `none` models `NaN` for a non-numeric string. -/
def jsNumber : QueryParam → Option Int
  | .num n => some n
  | .str _ => none

/-- JS `String(param)`. -/
def jsString : QueryParam → String
  | .num n => toString n
  | .str s => s

/-- Printing of the (possibly `NaN`) numeric query key. -/
def numLabel : Option Int → String
  | some n => toString n
  | none => "NaN"

/-- `r.id === id` where `id` may be `NaN` (then always false). -/
def idMatches (q : Option Int) (r : RecordData) : Bool :=
  match q with
  | some n => r.id == n
  | none => false

/-- `current.records[current.records.length - 1]?.id < id`
(`undefined < id` and `maxId < NaN` are both false). -/
def maxIdLt (rs : List RecordData) (q : Option Int) : Bool :=
  match rs.getLast?, q with
  | some r, some n => r.id < n
  | _, _ => false

/-- How the BY_ID page walk ended. -/
inductive ByIdOutcome where
  | found
  | exitTail
  | exitRange
  | exitDangling
deriving DecidableEq, Repr

/-- The BY_ID primary-chain walk of `simulateSelectQuery`.
`exitTail`: broke with a falsy `nextPageId`; `exitRange`: broke because the
range check `maxId < id` failed; `exitDangling`: `current` became undefined.
`none` models a divergent source run. -/
def byIdWalk (pages : List PageData) (qid : Option Int) :
    Option PageData → List SimulationStep → Nat → Option (List SimulationStep × ByIdOutcome)
  | none, steps, _ => some (steps, .exitDangling)
  | some _, _, 0 => none
  | some cur, steps, fuel + 1 =>
    let steps1 := addStep steps ("Scanning Primary Page " ++ toString cur.id ++ "...")
      cur.id .SCAN_PAGE none
    match cur.records.find? (idMatches qid) with
    | some _ =>
      some (addStep steps1 ("Found Record " ++ numLabel qid ++ " in Page " ++ toString cur.id
        ++ ". Returning Data.") cur.id .FOUND_DATA qid, .found)
    | none =>
      match cur.nextPageId with
      | some nid =>
        if nid != 0 then
          if maxIdLt cur.records qid then
            byIdWalk pages qid (pages.find? (fun p => p.id == nid)) steps1 fuel
          else some (steps1, .exitRange)
        else some (steps1, .exitTail)
      | none => some (steps1, .exitTail)

def notFoundMsg (q : Option Int) : String :=
  "Record " ++ numLabel q ++ " not found in Primary Index."

/-- The `BY_ID` branch of `simulateSelectQuery`. -/
def simulateById (s : EngineState) (q : Option Int) : Option (List SimulationStep) :=
  let steps0 := addStep [] ("QUERY: SELECT * FROM table WHERE id = " ++ numLabel q)
    0 .FINISHED none
  let head := s.pages.find? (fun p => p.indexType == IndexType.PRIMARY && p.prevPageId == none)
  match byIdWalk s.pages q head steps0 (s.pages.length + 1) with
  | none => none
  | some (steps, .found) => some steps
  | some (steps, _) => some (addStep steps (notFoundMsg q) 0 .FINISHED none)

/-- The secondary-chain walk of the BY_NAME branches.  On a match the result
carries `(found primary key, id of the page the walk stopped on)`. -/
def secWalk (pages : List PageData) (name : String) :
    Option PageData → List SimulationStep → Nat →
    Option (List SimulationStep × Option (Int × Int))
  | none, steps, _ => some (steps, none)
  | some _, _, 0 => none
  | some cur, steps, fuel + 1 =>
    let steps1 := addStep steps ("Scanning Secondary Index Page " ++ toString cur.id ++ "...")
      cur.id .SCAN_PAGE none
    match cur.records.find? (fun r => r.value == name) with
    | some found =>
      some (addStep steps1 ("Found Index Entry ('" ++ name ++ "', PK: " ++ toString found.id
        ++ ") in Page " ++ toString cur.id ++ ".") cur.id .FOUND_INDEX_ENTRY (some found.id),
        some (found.id, cur.id))
    | none =>
      match cur.nextPageId with
      | some nid =>
        if nid != 0 then secWalk pages name (pages.find? (fun p => p.id == nid)) steps1 fuel
        else some (steps1, none)
      | none => some (steps1, none)

/-- The primary-chain lookup walk of the non-covering BY_NAME branch
(no range check; strictly forward). -/
def pkWalk (pages : List PageData) (pk : Int) :
    Option PageData → List SimulationStep → Nat → Option (List SimulationStep)
  | none, steps, _ => some steps
  | some _, _, 0 => none
  | some cur, steps, fuel + 1 =>
    let steps1 := addStep steps ("Scanning Primary Page " ++ toString cur.id ++ " for PK "
      ++ toString pk ++ "...") cur.id .SCAN_PAGE none
    match cur.records.find? (fun r => r.id == pk) with
    | some _ =>
      some (addStep steps1 ("Lookup Successful: Retrieved full row for " ++ toString pk
        ++ " from Clustered Index.") cur.id .FOUND_DATA (some pk))
    | none =>
      match cur.nextPageId with
      | some nid =>
        if nid != 0 then pkWalk pages pk (pages.find? (fun p => p.id == nid)) steps1 fuel
        else some steps1
      | none => some steps1

/-- The `BY_NAME` / `BY_NAME_COVERING` branch of `simulateSelectQuery`. -/
def simulateByName (s : EngineState) (name : String) (isCovering : Bool) :
    Option (List SimulationStep) :=
  let queryStr :=
    if isCovering then "SELECT id FROM table WHERE name = '" ++ name ++ "'"
    else "SELECT * FROM table WHERE name = '" ++ name ++ "'"
  let steps0 := addStep [] ("QUERY: " ++ queryStr) 0 .FINISHED none
  let head := s.pages.find? (fun p => p.indexType == IndexType.SECONDARY && p.prevPageId == none)
  match secWalk s.pages name head steps0 (s.pages.length + 1) with
  | none => none
  | some (steps, none) =>
    some (addStep steps ("Name '" ++ name ++ "' not found in Index.") 0 .FINISHED none)
  | some (steps, some (foundPk, curId)) =>
    if isCovering then
      some (addStep steps "Covering Index optimization! We only need ID. No table lookup required."
        curId .FINISHED (some foundPk))
    else
      let steps2 := addStep steps ("Need full row data. Performing Table Lookup (回表) for PK: "
        ++ toString foundPk ++ "...") curId .JUMP_TO_PK (some foundPk)
      let head2 := s.pages.find? (fun p => p.indexType == IndexType.PRIMARY && p.prevPageId == none)
      pkWalk s.pages foundPk head2 steps2 (s.pages.length + 1)

/-- The query kind argument of `simulateSelectQuery`. -/
inductive QueryType where
  | BY_ID
  | BY_NAME
  | BY_NAME_COVERING
deriving DecidableEq, Repr

/-- `simulateSelectQuery` from the engine source. -/
def simulateSelectQuery (s : EngineState) (t : QueryType) (param : QueryParam) :
    Option (List SimulationStep) :=
  match t with
  | .BY_ID => simulateById s (jsNumber param)
  | .BY_NAME => simulateByName s (jsString param) false
  | .BY_NAME_COVERING => simulateByName s (jsString param) true

/-- The shape of the snapshot projection in `src/services/gemini.ts`. -/
structure SimplePage where
  page_id : Int
  records : List Int
  next_page : Option Int
  prev_page : Option Int
  status : String
deriving DecidableEq, Repr

/-- The `simplePages` projection computed by `analyzeEngineState` in
`src/services/gemini.ts` (its only pure, state-dependent part). -/
def simplePages (state : EngineState) : List SimplePage :=
  state.pages.map fun p =>
    { page_id := p.id,
      records := p.records.map (fun r => r.id),
      next_page := p.nextPageId,
      prev_page := p.prevPageId,
      status := if p.records.length ≥ 4 then "FULL" else "HAS_SPACE" }

/-- Run a sequence of `insertRecord` calls. -/
def applyInserts (s : EngineState) : List (Int × String) → Option EngineState
  | [] => some s
  | (id, v) :: rest =>
    match insertRecord s id v with
    | none => none
    | some s' => applyInserts s' rest

/-- States reachable from `initializeEngine` by `insertRecord` calls. -/
inductive Reach : EngineState → Prop
  | init : Reach initializeEngine
  | step {s : EngineState} {id : Int} {v : String} {s' : EngineState} :
      Reach s → insertRecord s id v = some s' → Reach s'

/-! ## Derived notions used to state the claims -/

/-- Concatenation of the records of a list of pages. -/
def flatRecs : List PageData → List RecordData
  | [] => []
  | p :: rest => p.records ++ flatRecs rest

/-- Follow `nextPageId` links, collecting the visited pages (fuel-bounded). -/
def chainFrom (pages : List PageData) : Option Int → Nat → List PageData
  | _, 0 => []
  | none, _ => []
  | some i, fuel + 1 =>
    match pages.find? (fun p => p.id == i) with
    | none => []
    | some p => p :: chainFrom pages p.nextPageId fuel

/-- The pages of one index chain, read head-to-tail from the page of that
type whose `prevPageId` is null. -/
def chainPages (s : EngineState) (t : IndexType) : List PageData :=
  match (s.pages.filter (fun p => p.indexType == t)).find? (fun p => p.prevPageId == none) with
  | none => []
  | some h => chainFrom s.pages (some h.id) s.pages.length

/-- The record ids of the PRIMARY chain, read head-to-tail. -/
def primaryChainIds (s : EngineState) : List Int :=
  (flatRecs (chainPages s .PRIMARY)).map (fun r => r.id)

/-- Mutual consistency of all non-null forward links:
if page A's `nextPageId = B` then page B's `prevPageId = A`. -/
def LinksConsistent (pages : List PageData) : Prop :=
  ∀ a ∈ pages, ∀ b ∈ pages, a.nextPageId = some b.id → b.prevPageId = some a.id

/-- The semantic content of a page (everything except display-only flags). -/
def pageCore (p : PageData) : Int × IndexType × List (Int × String) × Option Int × Option Int :=
  (p.id, p.indexType, p.records.map (fun r => (r.id, r.value)), p.nextPageId, p.prevPageId)

/-- Semantic content of the pages of one index type, in page-list order. -/
def coresOf (pages : List PageData) (t : IndexType) :
    List (Int × IndexType × List (Int × String) × Option Int × Option Int) :=
  (pages.filter (fun p => p.indexType == t)).map pageCore

/-- `id` occurs in some PRIMARY page of the state. -/
def InPrimary (s : EngineState) (id : Int) : Prop :=
  ∃ p ∈ s.pages, p.indexType = .PRIMARY ∧ id ∈ p.records.map (fun r => r.id)

/-- The step ids of a step list are `0, 1, 2, …` in order. -/
def IdsSeq (steps : List SimulationStep) : Prop :=
  steps.map (fun st => st.stepId) = List.range steps.length

/-! ## Basic lemmas about step construction -/

theorem addStep_def (steps : List SimulationStep) (msg : String) (pageId : Int)
    (t : SimulationStepType) (recId : Option Int) :
    addStep steps msg pageId t recId =
      steps ++ [{ stepId := steps.length, message := msg, targetPageId := pageId,
                  targetRecordId := recId, type := t }] := rfl

theorem idsSeq_nil : IdsSeq [] := rfl

theorem idsSeq_addStep {steps : List SimulationStep} (h : IdsSeq steps) (msg : String)
    (pageId : Int) (t : SimulationStepType) (recId : Option Int) :
    IdsSeq (addStep steps msg pageId t recId) := by
  unfold IdsSeq at h ⊢
  simp [addStep, List.range_succ, h]

theorem addStep_eq_append (steps : List SimulationStep) (m : String) (p : Int)
    (t : SimulationStepType) (r : Option Int) :
    addStep steps m p t r = steps ++ [⟨steps.length, m, p, r, t⟩] := rfl

theorem addStep_addStep (steps : List SimulationStep) (m1 : String) (p1 : Int)
    (t1 : SimulationStepType) (r1 : Option Int) (m2 : String) (p2 : Int)
    (t2 : SimulationStepType) (r2 : Option Int) :
    addStep (addStep steps m1 p1 t1 r1) m2 p2 t2 r2 =
      steps ++ [⟨steps.length, m1, p1, r1, t1⟩, ⟨steps.length + 1, m2, p2, r2, t2⟩] := by
  simp [addStep]

/-- The BY_ID walk only appends steps, and only SCAN_PAGE / FOUND_DATA ones. -/
theorem byIdWalk_append (pages : List PageData) (qid : Option Int) :
    ∀ (fuel : Nat) (cur : Option PageData) (steps steps' : List SimulationStep)
      (o : ByIdOutcome),
      byIdWalk pages qid cur steps fuel = some (steps', o) →
      ∃ app, steps' = steps ++ app ∧
        ∀ st ∈ app, st.type = SimulationStepType.SCAN_PAGE ∨
          st.type = SimulationStepType.FOUND_DATA := by
  intro fuel
  induction fuel with
  | zero =>
    intro cur steps steps' o h
    cases cur with
    | none =>
      injection h with h
      injection h with h1 h2
      subst h1
      exact ⟨[], by simp, by simp⟩
    | some c => simp [byIdWalk] at h
  | succ n ih =>
    intro cur steps steps' o h
    cases cur with
    | none =>
      injection h with h
      injection h with h1 h2
      subst h1
      exact ⟨[], by simp, by simp⟩
    | some c =>
      simp only [byIdWalk] at h
      split at h
      · injection h with h
        injection h with h1 h2
        subst h1
        refine ⟨_, addStep_addStep _ _ _ _ _ _ _ _ _, ?_⟩
        intro st hst
        simp only [List.mem_cons, List.not_mem_nil, or_false] at hst
        rcases hst with rfl | rfl
        · exact Or.inl rfl
        · exact Or.inr rfl
      · split at h
        · split at h
          · split at h
            · obtain ⟨app, happ, hty⟩ := ih _ _ _ _ h
              rw [addStep_eq_append] at happ
              refine ⟨_, by rw [happ, List.append_assoc], ?_⟩
              intro st hst
              simp only [List.cons_append, List.nil_append, List.mem_cons] at hst
              rcases hst with rfl | hst
              · exact Or.inl rfl
              · exact hty st hst
            · injection h with h
              injection h with h1 h2
              subst h1
              refine ⟨_, addStep_eq_append _ _ _ _ _, ?_⟩
              intro st hst
              simp only [List.mem_cons, List.not_mem_nil, or_false] at hst
              subst hst
              exact Or.inl rfl
          · injection h with h
            injection h with h1 h2
            subst h1
            refine ⟨_, addStep_eq_append _ _ _ _ _, ?_⟩
            intro st hst
            simp only [List.mem_cons, List.not_mem_nil, or_false] at hst
            subst hst
            exact Or.inl rfl
        · injection h with h
          injection h with h1 h2
          subst h1
          refine ⟨_, addStep_eq_append _ _ _ _ _, ?_⟩
          intro st hst
          simp only [List.mem_cons, List.not_mem_nil, or_false] at hst
          subst hst
          exact Or.inl rfl

/-- When the BY_ID walk breaks on the range check, its last emitted step is the
scan of the page on which the check failed. -/
theorem byIdWalk_exitRange_last (pages : List PageData) (qid : Option Int) :
    ∀ (fuel : Nat) (cur : Option PageData) (steps steps' : List SimulationStep),
      byIdWalk pages qid cur steps fuel = some (steps', ByIdOutcome.exitRange) →
      ∃ st, steps'.getLast? = some st ∧ st.type = SimulationStepType.SCAN_PAGE := by
  intro fuel
  induction fuel with
  | zero =>
    intro cur steps steps' h
    cases cur with
    | none =>
      injection h with h
      injection h with h1 h2
      exact absurd h2 (by simp)
    | some c => simp [byIdWalk] at h
  | succ n ih =>
    intro cur steps steps' h
    cases cur with
    | none =>
      injection h with h
      injection h with h1 h2
      exact absurd h2 (by simp)
    | some c =>
      simp only [byIdWalk] at h
      split at h
      · injection h with h
        injection h with h1 h2
        exact absurd h2 (by simp)
      · split at h
        · split at h
          · split at h
            · exact ih _ _ _ h
            · injection h with h
              injection h with h1 h2
              subst h1
              rw [addStep_eq_append, List.getLast?_concat]
              exact ⟨_, rfl, rfl⟩
          · injection h with h
            injection h with h1 h2
            exact absurd h2 (by simp)
        · injection h with h
          injection h with h1 h2
          exact absurd h2 (by simp)

/-- The secondary-index walk only appends SCAN_PAGE / FOUND_INDEX_ENTRY steps. -/
theorem secWalk_append (pages : List PageData) (name : String) :
    ∀ (fuel : Nat) (cur : Option PageData) (steps steps' : List SimulationStep)
      (res : Option (Int × Int)),
      secWalk pages name cur steps fuel = some (steps', res) →
      ∃ app, steps' = steps ++ app ∧
        ∀ st ∈ app, st.type = SimulationStepType.SCAN_PAGE ∨
          st.type = SimulationStepType.FOUND_INDEX_ENTRY := by
  intro fuel
  induction fuel with
  | zero =>
    intro cur steps steps' res h
    cases cur with
    | none =>
      injection h with h
      injection h with h1 h2
      subst h1
      exact ⟨[], by simp, by simp⟩
    | some c => simp [secWalk] at h
  | succ n ih =>
    intro cur steps steps' res h
    cases cur with
    | none =>
      injection h with h
      injection h with h1 h2
      subst h1
      exact ⟨[], by simp, by simp⟩
    | some c =>
      simp only [secWalk] at h
      split at h
      · injection h with h
        injection h with h1 h2
        subst h1
        refine ⟨_, addStep_addStep _ _ _ _ _ _ _ _ _, ?_⟩
        intro st hst
        simp only [List.mem_cons, List.not_mem_nil, or_false] at hst
        rcases hst with rfl | rfl
        · exact Or.inl rfl
        · exact Or.inr rfl
      · split at h
        · split at h
          · obtain ⟨app, happ, hty⟩ := ih _ _ _ _ h
            rw [addStep_eq_append] at happ
            refine ⟨_, by rw [happ, List.append_assoc], ?_⟩
            intro st hst
            simp only [List.cons_append, List.nil_append, List.mem_cons] at hst
            rcases hst with rfl | hst
            · exact Or.inl rfl
            · exact hty st hst
          · injection h with h
            injection h with h1 h2
            subst h1
            refine ⟨_, addStep_eq_append _ _ _ _ _, ?_⟩
            intro st hst
            simp only [List.mem_cons, List.not_mem_nil, or_false] at hst
            subst hst
            exact Or.inl rfl
        · injection h with h
          injection h with h1 h2
          subst h1
          refine ⟨_, addStep_eq_append _ _ _ _ _, ?_⟩
          intro st hst
          simp only [List.mem_cons, List.not_mem_nil, or_false] at hst
          subst hst
          exact Or.inl rfl

/-- The table-lookup walk only appends SCAN_PAGE / FOUND_DATA steps. -/
theorem pkWalk_append (pages : List PageData) (pk : Int) :
    ∀ (fuel : Nat) (cur : Option PageData) (steps steps' : List SimulationStep),
      pkWalk pages pk cur steps fuel = some steps' →
      ∃ app, steps' = steps ++ app ∧
        ∀ st ∈ app, st.type = SimulationStepType.SCAN_PAGE ∨
          st.type = SimulationStepType.FOUND_DATA := by
  intro fuel
  induction fuel with
  | zero =>
    intro cur steps steps' h
    cases cur with
    | none =>
      injection h with h
      subst h
      exact ⟨[], by simp, by simp⟩
    | some c => simp [pkWalk] at h
  | succ n ih =>
    intro cur steps steps' h
    cases cur with
    | none =>
      injection h with h
      subst h
      exact ⟨[], by simp, by simp⟩
    | some c =>
      simp only [pkWalk] at h
      split at h
      · injection h with h
        subst h
        refine ⟨_, addStep_addStep _ _ _ _ _ _ _ _ _, ?_⟩
        intro st hst
        simp only [List.mem_cons, List.not_mem_nil, or_false] at hst
        rcases hst with rfl | rfl
        · exact Or.inl rfl
        · exact Or.inr rfl
      · split at h
        · split at h
          · obtain ⟨app, happ, hty⟩ := ih _ _ _ h
            rw [addStep_eq_append] at happ
            refine ⟨_, by rw [happ, List.append_assoc], ?_⟩
            intro st hst
            simp only [List.cons_append, List.nil_append, List.mem_cons] at hst
            rcases hst with rfl | hst
            · exact Or.inl rfl
            · exact hty st hst
          · injection h with h
            subst h
            refine ⟨_, addStep_eq_append _ _ _ _ _, ?_⟩
            intro st hst
            simp only [List.mem_cons, List.not_mem_nil, or_false] at hst
            subst hst
            exact Or.inl rfl
        · injection h with h
          subst h
          refine ⟨_, addStep_eq_append _ _ _ _ _, ?_⟩
          intro st hst
          simp only [List.mem_cons, List.not_mem_nil, or_false] at hst
          subst hst
          exact Or.inl rfl

theorem byIdWalk_idsSeq (pages : List PageData) (qid : Option Int) :
    ∀ (fuel : Nat) (cur : Option PageData) (steps steps' : List SimulationStep)
      (o : ByIdOutcome),
      byIdWalk pages qid cur steps fuel = some (steps', o) →
      IdsSeq steps → IdsSeq steps' := by
  intro fuel
  induction fuel with
  | zero =>
    intro cur steps steps' o h hs
    cases cur with
    | none =>
      injection h with h
      injection h with h1 h2
      subst h1
      exact hs
    | some c => simp [byIdWalk] at h
  | succ n ih =>
    intro cur steps steps' o h hs
    cases cur with
    | none =>
      injection h with h
      injection h with h1 h2
      subst h1
      exact hs
    | some c =>
      simp only [byIdWalk] at h
      split at h
      · injection h with h
        injection h with h1 h2
        subst h1
        exact idsSeq_addStep (idsSeq_addStep hs _ _ _ _) _ _ _ _
      · split at h
        · split at h
          · split at h
            · exact ih _ _ _ _ h (idsSeq_addStep hs _ _ _ _)
            · injection h with h
              injection h with h1 h2
              subst h1
              exact idsSeq_addStep hs _ _ _ _
          · injection h with h
            injection h with h1 h2
            subst h1
            exact idsSeq_addStep hs _ _ _ _
        · injection h with h
          injection h with h1 h2
          subst h1
          exact idsSeq_addStep hs _ _ _ _

theorem secWalk_idsSeq (pages : List PageData) (name : String) :
    ∀ (fuel : Nat) (cur : Option PageData) (steps steps' : List SimulationStep)
      (res : Option (Int × Int)),
      secWalk pages name cur steps fuel = some (steps', res) →
      IdsSeq steps → IdsSeq steps' := by
  intro fuel
  induction fuel with
  | zero =>
    intro cur steps steps' res h hs
    cases cur with
    | none =>
      injection h with h
      injection h with h1 h2
      subst h1
      exact hs
    | some c => simp [secWalk] at h
  | succ n ih =>
    intro cur steps steps' res h hs
    cases cur with
    | none =>
      injection h with h
      injection h with h1 h2
      subst h1
      exact hs
    | some c =>
      simp only [secWalk] at h
      split at h
      · injection h with h
        injection h with h1 h2
        subst h1
        exact idsSeq_addStep (idsSeq_addStep hs _ _ _ _) _ _ _ _
      · split at h
        · split at h
          · exact ih _ _ _ _ h (idsSeq_addStep hs _ _ _ _)
          · injection h with h
            injection h with h1 h2
            subst h1
            exact idsSeq_addStep hs _ _ _ _
        · injection h with h
          injection h with h1 h2
          subst h1
          exact idsSeq_addStep hs _ _ _ _

theorem pkWalk_idsSeq (pages : List PageData) (pk : Int) :
    ∀ (fuel : Nat) (cur : Option PageData) (steps steps' : List SimulationStep),
      pkWalk pages pk cur steps fuel = some steps' →
      IdsSeq steps → IdsSeq steps' := by
  intro fuel
  induction fuel with
  | zero =>
    intro cur steps steps' h hs
    cases cur with
    | none =>
      injection h with h
      subst h
      exact hs
    | some c => simp [pkWalk] at h
  | succ n ih =>
    intro cur steps steps' h hs
    cases cur with
    | none =>
      injection h with h
      subst h
      exact hs
    | some c =>
      simp only [pkWalk] at h
      split at h
      · injection h with h
        subst h
        exact idsSeq_addStep (idsSeq_addStep hs _ _ _ _) _ _ _ _
      · split at h
        · split at h
          · exact ih _ _ _ h (idsSeq_addStep hs _ _ _ _)
          · injection h with h
            subst h
            exact idsSeq_addStep hs _ _ _ _
        · injection h with h
          subst h
          exact idsSeq_addStep hs _ _ _ _

theorem idsSeq_banner (m : String) :
    IdsSeq (addStep [] m 0 SimulationStepType.FINISHED none) :=
  idsSeq_addStep idsSeq_nil _ _ _ _

/-- Any step list produced by `simulateSelectQuery` has step ids `0, 1, 2, …`. -/
theorem sim_idsSeq (s : EngineState) (t : QueryType) (param : QueryParam)
    (steps : List SimulationStep) (h : simulateSelectQuery s t param = some steps) :
    IdsSeq steps := by
  cases t with
  | BY_ID =>
    simp only [simulateSelectQuery, simulateById] at h
    split at h
    · exact absurd h (by simp)
    · injection h with h
      subst h
      exact byIdWalk_idsSeq _ _ _ _ _ _ _ ‹_› (idsSeq_banner _)
    · injection h with h
      subst h
      exact idsSeq_addStep (byIdWalk_idsSeq _ _ _ _ _ _ _ ‹_› (idsSeq_banner _)) _ _ _ _
  | BY_NAME =>
    simp only [simulateSelectQuery, simulateByName, Bool.false_eq_true, if_false] at h
    split at h
    · exact absurd h (by simp)
    · injection h with h
      subst h
      exact idsSeq_addStep (secWalk_idsSeq _ _ _ _ _ _ _ ‹_› (idsSeq_banner _)) _ _ _ _
    · exact pkWalk_idsSeq _ _ _ _ _ _ h
        (idsSeq_addStep (secWalk_idsSeq _ _ _ _ _ _ _ ‹_› (idsSeq_banner _)) _ _ _ _)
  | BY_NAME_COVERING =>
    simp only [simulateSelectQuery, simulateByName, if_true] at h
    split at h
    · exact absurd h (by simp)
    · injection h with h
      subst h
      exact idsSeq_addStep (secWalk_idsSeq _ _ _ _ _ _ _ ‹_› (idsSeq_banner _)) _ _ _ _
    · injection h with h
      subst h
      exact idsSeq_addStep (secWalk_idsSeq _ _ _ _ _ _ _ ‹_› (idsSeq_banner _)) _ _ _ _

theorem idsSeq_get {steps : List SimulationStep} (h : IdsSeq steps) (i : Nat)
    (hi : i < steps.length) : (steps.get ⟨i, hi⟩).stepId = i := by
  unfold IdsSeq at h
  have h1 : (steps.map (fun st => st.stepId))[i]? = (List.range steps.length)[i]? := by
    rw [h]
  rw [List.getElem?_map] at h1
  rw [List.getElem?_range hi] at h1
  rw [List.getElem?_eq_getElem hi] at h1
  simp at h1
  simpa using h1

/-- C10: For every engine state, query kind, and parameter, the step sequence
returned by `simulateSelectQuery` has consecutive sequence numbers starting at
zero: the i-th step (0-based) has `stepId = i`. -/
theorem C10_step_ids_consecutive (s : EngineState) (t : QueryType) (param : QueryParam)
    (steps : List SimulationStep) (h : simulateSelectQuery s t param = some steps) :
    ∀ (i : Nat) (hi : i < steps.length), (steps.get ⟨i, hi⟩).stepId = i := by
  intro i hi
  exact idsSeq_get (sim_idsSeq s t param steps h) i hi

/-- Concrete run for the C10 witness: `BY_ID 7` on the initial state. -/
def c10Steps : List SimulationStep :=
  (simulateSelectQuery initializeEngine .BY_ID (.num 7)).getD []

/-- Witness for C10 at a concrete state, query and index. -/
theorem C10_step_ids_consecutive_witness :
    simulateSelectQuery initializeEngine .BY_ID (.num 7) = some c10Steps ∧
    c10Steps.length = 3 ∧
    (c10Steps.get ⟨1, by decide⟩).stepId = 1 :=
  ⟨by decide, by decide,
    C10_step_ids_consecutive initializeEngine .BY_ID (.num 7) c10Steps (by decide) 1 (by decide)⟩

theorem banner_cons (m : String) (T : SimulationStepType) (app : List SimulationStep) :
    addStep [] m 0 T none ++ app = (⟨0, m, 0, none, T⟩ : SimulationStep) :: app := rfl

/-- In a list of the shape `banner :: (mid ++ rest)` where `mid` has no
FINISHED step and `rest` has at most one element, any FINISHED step at a
positive position is the last element. -/
theorem finished_last_aux (b : SimulationStep) (mid rest : List SimulationStep)
    (hmid : ∀ st ∈ mid, st.type ≠ SimulationStepType.FINISHED)
    (hrest : rest.length ≤ 1) :
    ∀ (i : Nat) (hi : i < (b :: (mid ++ rest)).length), 0 < i →
      ((b :: (mid ++ rest)).get ⟨i, hi⟩).type = SimulationStepType.FINISHED →
      i + 1 = (b :: (mid ++ rest)).length := by
  intro i hi hpos hfin
  obtain ⟨j, rfl⟩ : ∃ j, i = j + 1 := ⟨i - 1, by omega⟩
  have hlen : j < (mid ++ rest).length := by
    simp only [List.length_cons] at hi
    omega
  by_cases hj : j < mid.length
  · exfalso
    have hget : ((b :: (mid ++ rest)).get ⟨j + 1, hi⟩) = mid[j] := by
      simp only [List.get_eq_getElem, List.getElem_cons_succ]
      exact List.getElem_append_left hj
    exact hmid mid[j] (List.getElem_mem hj) (by rw [← hget]; exact hfin)
  · simp only [List.length_cons, List.length_append] at hi ⊢
    simp only [List.length_append] at hlen
    omega

/-- C5 (amended): every returned step sequence starts with the FINISHED
query-banner step, and any other FINISHED step is the final step of the
sequence. -/
theorem C5_finished_placement (s : EngineState) (t : QueryType) (param : QueryParam)
    (steps : List SimulationStep) (h : simulateSelectQuery s t param = some steps) :
    (∃ b rest, steps = b :: rest ∧ b.type = SimulationStepType.FINISHED) ∧
    (∀ (i : Nat) (hi : i < steps.length), 0 < i →
      (steps.get ⟨i, hi⟩).type = SimulationStepType.FINISHED → i + 1 = steps.length) := by
  cases t with
  | BY_ID =>
    simp only [simulateSelectQuery, simulateById] at h
    split at h
    · exact absurd h (by simp)
    · injection h with h
      subst h
      obtain ⟨app, happ, hty⟩ := byIdWalk_append _ _ _ _ _ _ _ ‹_›
      rw [banner_cons] at happ
      subst happ
      rw [show ∀ x : List SimulationStep, ∀ b : SimulationStep, b :: x = b :: (x ++ []) by
        simp]
      refine ⟨⟨_, _, rfl, rfl⟩, finished_last_aux _ _ _ ?_ (by simp)⟩
      intro st hst hfin
      rcases hty st hst with hty1 | hty1 <;> rw [hfin] at hty1 <;> exact absurd hty1 (by simp)
    · injection h with h
      subst h
      obtain ⟨app, happ, hty⟩ := byIdWalk_append _ _ _ _ _ _ _ ‹_›
      rw [addStep_eq_append, happ, banner_cons, List.cons_append]
      refine ⟨⟨_, _, rfl, rfl⟩, finished_last_aux _ _ _ ?_ (by simp)⟩
      intro st hst hfin
      rcases hty st hst with hty1 | hty1 <;> rw [hfin] at hty1 <;> exact absurd hty1 (by simp)
  | BY_NAME =>
    simp only [simulateSelectQuery, simulateByName, Bool.false_eq_true, if_false] at h
    split at h
    · exact absurd h (by simp)
    · injection h with h
      subst h
      obtain ⟨app, happ, hty⟩ := secWalk_append _ _ _ _ _ _ _ ‹_›
      rw [addStep_eq_append, happ, banner_cons, List.cons_append]
      refine ⟨⟨_, _, rfl, rfl⟩, finished_last_aux _ _ _ ?_ (by simp)⟩
      intro st hst hfin
      rcases hty st hst with hty1 | hty1 <;> rw [hfin] at hty1 <;> exact absurd hty1 (by simp)
    · obtain ⟨app2, happ2, hty2⟩ := pkWalk_append _ _ _ _ _ _ h
      obtain ⟨app1, happ1, hty1⟩ := secWalk_append _ _ _ _ _ _ _ ‹_›
      rw [addStep_eq_append, happ1, banner_cons, List.cons_append, List.cons_append] at happ2
      rw [happ2]
      rw [show ∀ x : List SimulationStep, ∀ b : SimulationStep, b :: x = b :: (x ++ []) by
        simp]
      refine ⟨⟨_, _, rfl, rfl⟩, finished_last_aux _ _ _ ?_ (by simp)⟩
      intro st hst hfin
      rcases List.mem_append.mp hst with hst1 | hst1
      · rcases List.mem_append.mp hst1 with hst2 | hst2
        · rcases hty1 st hst2 with hh | hh <;> rw [hfin] at hh <;> exact absurd hh (by simp)
        · simp only [List.mem_singleton] at hst2
          rw [hst2] at hfin
          exact absurd hfin (by simp)
      · rcases hty2 st hst1 with hh | hh <;> rw [hfin] at hh <;> exact absurd hh (by simp)
  | BY_NAME_COVERING =>
    simp only [simulateSelectQuery, simulateByName, if_true] at h
    split at h
    · exact absurd h (by simp)
    · injection h with h
      subst h
      obtain ⟨app, happ, hty⟩ := secWalk_append _ _ _ _ _ _ _ ‹_›
      rw [addStep_eq_append, happ, banner_cons, List.cons_append]
      refine ⟨⟨_, _, rfl, rfl⟩, finished_last_aux _ _ _ ?_ (by simp)⟩
      intro st hst hfin
      rcases hty st hst with hty1 | hty1 <;> rw [hfin] at hty1 <;> exact absurd hty1 (by simp)
    · injection h with h
      subst h
      obtain ⟨app, happ, hty⟩ := secWalk_append _ _ _ _ _ _ _ ‹_›
      rw [addStep_eq_append, happ, banner_cons, List.cons_append]
      refine ⟨⟨_, _, rfl, rfl⟩, finished_last_aux _ _ _ ?_ (by simp)⟩
      intro st hst hfin
      rcases hty st hst with hty1 | hty1 <;> rw [hfin] at hty1 <;> exact absurd hty1 (by simp)

/-- Concrete run refuting C5 as stated: `BY_ID 9` on the initial state. -/
def c5Steps : List SimulationStep :=
  (simulateSelectQuery initializeEngine .BY_ID (.num 9)).getD []

/-- Counterexample to C5 as stated: already on the initial state, a BY_ID query
returns a sequence with TWO steps of kind FINISHED (the query banner and the
not-found step), and the first FINISHED step is not the last step. -/
theorem C5_counterexample :
    simulateSelectQuery initializeEngine .BY_ID (.num 9) = some c5Steps ∧
    c5Steps.countP (fun st => st.type == SimulationStepType.FINISHED) = 2 ∧
    c5Steps.head?.map (fun st => st.type) = some SimulationStepType.FINISHED ∧
    c5Steps.length = 3 :=
  ⟨by decide, by decide, by decide, by decide⟩

/-- Concrete run for the C5 witness. -/
def c5wSteps : List SimulationStep :=
  (simulateSelectQuery initializeEngine .BY_NAME (.str "Zoe")).getD []

/-- Witness for the amended C5 at a concrete query. -/
theorem C5_finished_placement_witness :
    simulateSelectQuery initializeEngine .BY_NAME (.str "Zoe") = some c5wSteps ∧
    ((∃ b rest, c5wSteps = b :: rest ∧ b.type = SimulationStepType.FINISHED) ∧
      (∀ (i : Nat) (hi : i < c5wSteps.length), 0 < i →
        (c5wSteps.get ⟨i, hi⟩).type = SimulationStepType.FINISHED →
        i + 1 = c5wSteps.length)) :=
  ⟨by decide, C5_finished_placement initializeEngine .BY_NAME (.str "Zoe") c5wSteps (by decide)⟩

/-- C6 (amended): when a BY_ID walk exits via the range-boundary break, the
returned sequence does NOT stop silently: the FINISHED not-found step is
appended right after the last emitted step, which is the SCAN_PAGE step of
the page on which the range check failed. -/
theorem C6_rangebreak_emits_notfound (s : EngineState) (param : QueryParam)
    (steps1 : List SimulationStep)
    (h : byIdWalk s.pages (jsNumber param)
      (s.pages.find? (fun p => p.indexType == IndexType.PRIMARY && p.prevPageId == none))
      (addStep [] ("QUERY: SELECT * FROM table WHERE id = " ++ numLabel (jsNumber param)) 0
        SimulationStepType.FINISHED none)
      (s.pages.length + 1) = some (steps1, ByIdOutcome.exitRange)) :
    simulateSelectQuery s .BY_ID param =
      some (addStep steps1 (notFoundMsg (jsNumber param)) 0 SimulationStepType.FINISHED none) ∧
    ∃ st, steps1.getLast? = some st ∧ st.type = SimulationStepType.SCAN_PAGE := by
  refine ⟨?_, byIdWalk_exitRange_last _ _ _ _ _ _ h⟩
  simp only [simulateSelectQuery, simulateById]
  rw [h]

/-- The state used to refute C6 as stated: primary pages `1 → 2` holding
`{1, 3}` and `{4, 5}`; `BY_ID 2` exits via the range-boundary break. -/
def c6State : EngineState :=
  { pages :=
      [⟨1, .PRIMARY, [⟨1, "a", false, false⟩, ⟨3, "c", false, false⟩], some 2, none,
        false, false, false⟩,
       ⟨2, .PRIMARY, [⟨4, "d", false, false⟩, ⟨5, "e", false, false⟩], none, some 1,
        false, false, false⟩],
    logs := [], pageCounter := 2 }

/-- The walk prefix of the C6 counterexample run. -/
def c6Walk : List SimulationStep :=
  ((byIdWalk c6State.pages (some 2)
    (c6State.pages.find? (fun p => p.indexType == IndexType.PRIMARY && p.prevPageId == none))
    (addStep [] ("QUERY: SELECT * FROM table WHERE id = " ++ numLabel (some 2)) 0
      SimulationStepType.FINISHED none)
    (c6State.pages.length + 1)).getD ([], ByIdOutcome.found)).1

/-- The full step sequence of the C6 counterexample run. -/
def c6Steps : List SimulationStep :=
  (simulateSelectQuery c6State .BY_ID (.num 2)).getD []

/-- Counterexample to C6 as stated: on `c6State`, `BY_ID 2` exits via the
range-boundary break (the scanned page's maximum key 3 is not less than the
target 2, the target is absent from that page, and the tail was not reached),
yet the returned sequence DOES contain a not-found FINISHED step after the
last SCAN_PAGE step. -/
theorem C6_counterexample :
    byIdWalk c6State.pages (some 2)
      (c6State.pages.find? (fun p => p.indexType == IndexType.PRIMARY && p.prevPageId == none))
      (addStep [] ("QUERY: SELECT * FROM table WHERE id = " ++ numLabel (some 2)) 0
        SimulationStepType.FINISHED none)
      (c6State.pages.length + 1) = some (c6Walk, ByIdOutcome.exitRange) ∧
    simulateSelectQuery c6State .BY_ID (.num 2) = some c6Steps ∧
    c6Steps.length = 3 ∧
    (c6Steps.get ⟨1, by decide⟩).type = SimulationStepType.SCAN_PAGE ∧
    (c6Steps.get ⟨2, by decide⟩).type = SimulationStepType.FINISHED ∧
    (c6Steps.get ⟨2, by decide⟩).message = notFoundMsg (some 2) :=
  ⟨by decide, by decide, by decide, by decide, by decide, by decide⟩

/-- Witness for the amended C6 at the concrete range-break state. -/
theorem C6_rangebreak_emits_notfound_witness :
    byIdWalk c6State.pages (jsNumber (.num 2))
      (c6State.pages.find? (fun p => p.indexType == IndexType.PRIMARY && p.prevPageId == none))
      (addStep [] ("QUERY: SELECT * FROM table WHERE id = " ++ numLabel (jsNumber (.num 2))) 0
        SimulationStepType.FINISHED none)
      (c6State.pages.length + 1) = some (c6Walk, ByIdOutcome.exitRange) ∧
    (simulateSelectQuery c6State .BY_ID (.num 2) =
       some (addStep c6Walk (notFoundMsg (jsNumber (.num 2))) 0 SimulationStepType.FINISHED none) ∧
     ∃ st, c6Walk.getLast? = some st ∧ st.type = SimulationStepType.SCAN_PAGE) :=
  ⟨by decide, C6_rangebreak_emits_notfound c6State (.num 2) c6Walk (by decide)⟩

theorem mem_banner {st : SimulationStep} (m : String) (T : SimulationStepType)
    (h : st ∈ addStep [] m 0 T none) : st.type = T := by
  simp only [addStep, List.length_nil, List.nil_append, List.mem_singleton] at h
  rw [h]

theorem find?_head_secondary (pages : List PageData) (c : PageData)
    (hc : pages.find? (fun p => p.indexType == IndexType.SECONDARY && p.prevPageId == none)
      = some c) : c ∈ pages ∧ c.indexType = IndexType.SECONDARY := by
  refine ⟨List.mem_of_find?_eq_some hc, ?_⟩
  have hp := List.find?_some hc
  simp only [Bool.and_eq_true, beq_iff_eq] at hp
  exact hp.1

/-- When all secondary pages link only to secondary pages, the secondary-chain
walk scans only secondary pages, and a match is reported on a secondary page. -/
theorem secWalk_stays_secondary (pages : List PageData) (name : String)
    (hlink : ∀ p ∈ pages, p.indexType = IndexType.SECONDARY →
      ∀ nid, p.nextPageId = some nid → ∀ q ∈ pages, q.id = nid →
        q.indexType = IndexType.SECONDARY) :
    ∀ (fuel : Nat) (cur : Option PageData) (steps steps' : List SimulationStep)
      (res : Option (Int × Int)),
      secWalk pages name cur steps fuel = some (steps', res) →
      (∀ c, cur = some c → c ∈ pages ∧ c.indexType = IndexType.SECONDARY) →
      ((∀ st ∈ steps', st ∈ steps ∨
          ∃ c, c ∈ pages ∧ c.indexType = IndexType.SECONDARY ∧ st.targetPageId = c.id) ∧
        ∀ pk pgid, res = some (pk, pgid) →
          ∃ c, c ∈ pages ∧ c.indexType = IndexType.SECONDARY ∧ pgid = c.id) := by
  intro fuel
  induction fuel with
  | zero =>
    intro cur steps steps' res h hcur
    cases cur with
    | none =>
      injection h with h
      injection h with h1 h2
      subst h1
      subst h2
      exact ⟨fun st hst => Or.inl hst, fun pk pgid hres => absurd hres (by simp)⟩
    | some c => simp [secWalk] at h
  | succ n ih =>
    intro cur steps steps' res h hcur
    cases cur with
    | none =>
      injection h with h
      injection h with h1 h2
      subst h1
      subst h2
      exact ⟨fun st hst => Or.inl hst, fun pk pgid hres => absurd hres (by simp)⟩
    | some c =>
      obtain ⟨hcmem, hcsec⟩ := hcur c rfl
      simp only [secWalk] at h
      split at h
      · injection h with h
        injection h with h1 h2
        subst h1
        subst h2
        constructor
        · intro st hst
          rw [addStep_addStep] at hst
          rcases List.mem_append.mp hst with hst1 | hst1
          · exact Or.inl hst1
          · simp only [List.mem_cons, List.not_mem_nil, or_false] at hst1
            rcases hst1 with rfl | rfl
            · exact Or.inr ⟨c, hcmem, hcsec, rfl⟩
            · exact Or.inr ⟨c, hcmem, hcsec, rfl⟩
        · intro pk pgid hres
          injection hres with hres
          injection hres with hres1 hres2
          subst hres2
          exact ⟨c, hcmem, hcsec, rfl⟩
      · split at h
        · split at h
          · rename_i nid hnid hne
            have hinv : ∀ c2, pages.find? (fun p => p.id == nid) = some c2 →
                c2 ∈ pages ∧ c2.indexType = IndexType.SECONDARY := by
              intro c2 hc2
              have hmem2 := List.mem_of_find?_eq_some hc2
              have hp := List.find?_some hc2
              simp only [beq_iff_eq] at hp
              exact ⟨hmem2, hlink c hcmem hcsec nid hnid c2 hmem2 hp⟩
            obtain ⟨hmem, hres⟩ := ih _ _ _ _ h hinv
            constructor
            · intro st hst
              rcases hmem st hst with hst1 | hst1
              · rw [addStep_eq_append] at hst1
                rcases List.mem_append.mp hst1 with hst2 | hst2
                · exact Or.inl hst2
                · simp only [List.mem_cons, List.not_mem_nil, or_false] at hst2
                  subst hst2
                  exact Or.inr ⟨c, hcmem, hcsec, rfl⟩
              · exact Or.inr hst1
            · exact hres
          · injection h with h
            injection h with h1 h2
            subst h1
            subst h2
            constructor
            · intro st hst
              rw [addStep_eq_append] at hst
              rcases List.mem_append.mp hst with hst1 | hst1
              · exact Or.inl hst1
              · simp only [List.mem_cons, List.not_mem_nil, or_false] at hst1
                subst hst1
                exact Or.inr ⟨c, hcmem, hcsec, rfl⟩
            · intro pk pgid hres
              exact absurd hres (by simp)
        · injection h with h
          injection h with h1 h2
          subst h1
          subst h2
          constructor
          · intro st hst
            rw [addStep_eq_append] at hst
            rcases List.mem_append.mp hst with hst1 | hst1
            · exact Or.inl hst1
            · simp only [List.mem_cons, List.not_mem_nil, or_false] at hst1
              subst hst1
              exact Or.inr ⟨c, hcmem, hcsec, rfl⟩
          · intro pk pgid hres
            exact absurd hres (by simp)

/-- C7 (amended): on every state whose SECONDARY pages link only to SECONDARY
pages and whose PRIMARY page ids are disjoint from SECONDARY page ids — in
particular every reachable state — a BY_NAME_COVERING query emits no SCAN_PAGE
step targeting a PRIMARY page's id, and on a match it ends with the single
covering FINISHED step carrying the located primary key, never invoking the
primary-chain walk. -/
theorem C7_covering_never_scans_primary (s : EngineState) (param : QueryParam)
    (steps : List SimulationStep)
    (hlink : ∀ p ∈ s.pages, p.indexType = IndexType.SECONDARY →
      ∀ nid, p.nextPageId = some nid → ∀ q ∈ s.pages, q.id = nid →
        q.indexType = IndexType.SECONDARY)
    (hdisj : ∀ p ∈ s.pages, p.indexType = IndexType.PRIMARY →
      ∀ q ∈ s.pages, q.indexType = IndexType.SECONDARY → p.id ≠ q.id)
    (h : simulateSelectQuery s .BY_NAME_COVERING param = some steps) :
    (∀ st ∈ steps, st.type = SimulationStepType.SCAN_PAGE →
      ∀ p ∈ s.pages, p.indexType = IndexType.PRIMARY → st.targetPageId ≠ p.id) ∧
    (∀ (steps1 : List SimulationStep) (pk pgid : Int),
      secWalk s.pages (jsString param)
        (s.pages.find? (fun p => p.indexType == IndexType.SECONDARY && p.prevPageId == none))
        (addStep [] ("QUERY: " ++ ("SELECT id FROM table WHERE name = '" ++ jsString param ++ "'"))
          0 SimulationStepType.FINISHED none)
        (s.pages.length + 1) = some (steps1, some (pk, pgid)) →
      steps = addStep steps1
        "Covering Index optimization! We only need ID. No table lookup required."
        pgid SimulationStepType.FINISHED (some pk)) := by
  simp only [simulateSelectQuery, simulateByName, if_true] at h
  split at h
  · exact absurd h (by simp)
  · rename_i steps1 heq
    injection h with h
    subst h
    obtain ⟨hmem, _⟩ := secWalk_stays_secondary s.pages (jsString param) hlink _ _ _ _ _ heq
      (fun c hc => find?_head_secondary s.pages c hc)
    constructor
    · intro st hst hscan p hp hprim
      rw [addStep_eq_append] at hst
      rcases List.mem_append.mp hst with h1 | h1
      · rcases hmem st h1 with h2 | ⟨c, hcmem, hcsec, hcid⟩
        · rw [mem_banner _ _ h2] at hscan
          exact absurd hscan (by simp)
        · rw [hcid]
          exact fun hEq => hdisj p hp hprim c hcmem hcsec hEq.symm
      · rw [List.mem_singleton.mp h1] at hscan
        exact absurd hscan (by simp)
    · intro steps2 pk pgid heq2
      rw [heq] at heq2
      exact absurd heq2 (by simp)
  · rename_i steps1 pk pgid heq
    injection h with h
    subst h
    obtain ⟨hmem, hres⟩ := secWalk_stays_secondary s.pages (jsString param) hlink _ _ _ _ _ heq
      (fun c hc => find?_head_secondary s.pages c hc)
    constructor
    · intro st hst hscan p hp hprim
      rw [addStep_eq_append] at hst
      rcases List.mem_append.mp hst with h1 | h1
      · rcases hmem st h1 with h2 | ⟨c, hcmem, hcsec, hcid⟩
        · rw [mem_banner _ _ h2] at hscan
          exact absurd hscan (by simp)
        · rw [hcid]
          exact fun hEq => hdisj p hp hprim c hcmem hcsec hEq.symm
      · rw [List.mem_singleton.mp h1] at hscan
        exact absurd hscan (by simp)
    · intro steps2 pk2 pgid2 heq2
      rw [heq] at heq2
      injection heq2 with heq2
      injection heq2 with heq3 heq4
      injection heq4 with heq4
      injection heq4 with heq5 heq6
      subst heq3
      subst heq5
      subst heq6
      rfl

/-- The corrupted state used to refute C7 as stated: the SECONDARY page links
to a PRIMARY page, so the covering walk ends up scanning a PRIMARY page. -/
def c7State : EngineState :=
  { pages :=
      [⟨1, .PRIMARY, [], none, some 2, false, false, false⟩,
       ⟨2, .SECONDARY, [⟨5, "A", false, false⟩], some 1, none, false, false, false⟩],
    logs := [], pageCounter := 2 }

/-- The step sequence of the C7 counterexample run. -/
def c7Steps : List SimulationStep :=
  (simulateSelectQuery c7State .BY_NAME_COVERING (.str "B")).getD []

/-- Counterexample to C7 as stated (quantified over EVERY engine state): on a
state whose SECONDARY chain dangles into the PRIMARY chain, BY_NAME_COVERING
emits a SCAN_PAGE step whose `targetPageId` is the id of a PRIMARY page. -/
theorem C7_counterexample :
    simulateSelectQuery c7State .BY_NAME_COVERING (.str "B") = some c7Steps ∧
    c7Steps.length = 4 ∧
    (c7Steps.get ⟨2, by decide⟩).type = SimulationStepType.SCAN_PAGE ∧
    (c7Steps.get ⟨2, by decide⟩).targetPageId = 1 ∧
    (∃ p ∈ c7State.pages, p.indexType = IndexType.PRIMARY ∧ p.id = 1) :=
  ⟨by decide, by decide, by decide, by decide, by decide⟩

/-- Concrete run for the C7 witness. -/
def c7wSteps : List SimulationStep :=
  (simulateSelectQuery initializeEngine .BY_NAME_COVERING (.str "Eve")).getD []

/-- Witness for the amended C7 on the initial state. -/
theorem C7_covering_never_scans_primary_witness :
    simulateSelectQuery initializeEngine .BY_NAME_COVERING (.str "Eve") = some c7wSteps ∧
    (∀ st ∈ c7wSteps, st.type = SimulationStepType.SCAN_PAGE →
      ∀ p ∈ initializeEngine.pages, p.indexType = IndexType.PRIMARY →
        st.targetPageId ≠ p.id) :=
  ⟨by decide,
    (C7_covering_never_scans_primary initializeEngine (.str "Eve") c7wSteps
      (by
        intro p hp hsec nid hnid q hq hqid
        simp only [initializeEngine, createPage, addLog, List.mem_cons,
          List.not_mem_nil, or_false] at hp
        rcases hp with rfl | rfl <;> simp at hnid)
      (by decide) (by decide)).1⟩

/-! ## Sorting lemmas -/

theorem insertSorted_perm (leB : RecordData → RecordData → Bool) (a : RecordData) :
    ∀ l, List.Perm (insertSorted leB a l) (a :: l) := by
  intro l
  induction l with
  | nil => exact List.Perm.refl _
  | cons b t ih =>
    unfold insertSorted
    split
    · exact List.Perm.refl _
    · exact (List.Perm.cons b ih).trans (List.Perm.swap a b t)

theorem jsSort_perm (cmp : RecordData → RecordData → Int) :
    ∀ l, List.Perm (jsSort cmp l) l := by
  intro l
  induction l with
  | nil => exact List.Perm.refl _
  | cons a t ih => exact (insertSorted_perm _ a _).trans (List.Perm.cons a ih)

theorem insertSorted_pairwise (leB : RecordData → RecordData → Bool)
    (htrans : ∀ a b c, leB a b = true → leB b c = true → leB a c = true)
    (htotal : ∀ a b, leB a b = true ∨ leB b a = true) (a : RecordData) :
    ∀ l, l.Pairwise (fun x y => leB x y = true) →
      (insertSorted leB a l).Pairwise (fun x y => leB x y = true) := by
  intro l
  induction l with
  | nil => intro _; simp [insertSorted]
  | cons b t ih =>
    intro hp
    unfold insertSorted
    split
    · rename_i hab
      refine List.pairwise_cons.mpr ⟨?_, hp⟩
      intro x hx
      rcases List.mem_cons.mp hx with rfl | hx
      · exact hab
      · exact htrans a b x hab ((List.pairwise_cons.mp hp).1 x hx)
    · rename_i hab
      have hba : leB b a = true := by
        rcases htotal a b with hh | hh
        · exact absurd hh hab
        · exact hh
      obtain ⟨hbt, hpt⟩ := List.pairwise_cons.mp hp
      refine List.pairwise_cons.mpr ⟨?_, ih hpt⟩
      intro x hx
      have hx2 := (insertSorted_perm leB a t).mem_iff.mp hx
      rcases List.mem_cons.mp hx2 with rfl | hx3
      · exact hba
      · exact hbt x hx3

theorem jsSort_pairwise (cmp : RecordData → RecordData → Int)
    (htrans : ∀ a b c, cmp a b ≤ 0 → cmp b c ≤ 0 → cmp a c ≤ 0)
    (htotal : ∀ a b, cmp a b ≤ 0 ∨ cmp b a ≤ 0) :
    ∀ l, (jsSort cmp l).Pairwise (fun x y => cmp x y ≤ 0) := by
  have htransB : ∀ a b c, decide (cmp a b ≤ 0) = true → decide (cmp b c ≤ 0) = true →
      decide (cmp a c ≤ 0) = true := by
    intro a b c h1 h2
    simp only [decide_eq_true_eq] at *
    exact htrans a b c h1 h2
  have htotalB : ∀ a b, decide (cmp a b ≤ 0) = true ∨ decide (cmp b a ≤ 0) = true := by
    intro a b
    simpa using htotal a b
  intro l
  have hmain : ∀ l, (jsSort cmp l).Pairwise (fun x y => decide (cmp x y ≤ 0) = true) := by
    intro l
    induction l with
    | nil => simp [jsSort]
    | cons a t ih => exact insertSorted_pairwise _ htransB htotalB a _ ih
  refine (hmain l).imp ?_
  intro x y hxy
  simpa using hxy

theorem jsSort_length (cmp : RecordData → RecordData → Int) (l : List RecordData) :
    (jsSort cmp l).length = l.length :=
  (jsSort_perm cmp l).length_eq

/-! ## Lemmas about `find?` and `updateFirstById` -/

theorem find?_append_left {α : Type} (p : α → Bool) {l1 : List α} (l2 : List α) {a : α}
    (h : l1.find? p = some a) : (l1 ++ l2).find? p = some a := by
  induction l1 with
  | nil => simp [List.find?] at h
  | cons x t ih =>
    simp only [List.cons_append, List.find?]
    cases hx : p x with
    | true => simp only [List.find?, hx] at h; exact h
    | false =>
      simp only [List.find?, hx] at h
      exact ih h

theorem find?_updateFirstById_self {pages : List PageData} {pid : Int} {T : PageData}
    (h : pages.find? (fun p => p.id == pid) = some T) (f : PageData → PageData)
    (hid : (f T).id = T.id) :
    (updateFirstById pid f pages).find? (fun p => p.id == pid) = some (f T) := by
  induction pages with
  | nil => simp [List.find?] at h
  | cons x t ih =>
    simp only [updateFirstById]
    cases hx : (x.id == pid) with
    | true =>
      simp only [List.find?, hx] at h
      injection h with h
      subst h
      simp only [hx, if_true, List.find?]
      have : ((f x).id == pid) = true := by
        rw [hid]
        exact hx
      simp [this]
    | false =>
      simp only [List.find?, hx] at h
      simp only [hx, Bool.false_eq_true, if_false, List.find?]
      exact ih h

theorem find?_updateFirstById_other {pages : List PageData} {pid pid2 : Int}
    (hne : pid2 ≠ pid) (f : PageData → PageData) (hid : ∀ q, q.id = pid → (f q).id = q.id) :
    (updateFirstById pid f pages).find? (fun p => p.id == pid2) =
      pages.find? (fun p => p.id == pid2) := by
  induction pages with
  | nil => simp [updateFirstById]
  | cons x t ih =>
    simp only [updateFirstById]
    cases hx : (x.id == pid) with
    | true =>
      simp only [hx, if_true]
      have hxid : x.id = pid := by simpa using hx
      have h2 : ((f x).id == pid2) = false := by
        simp only [hid x hxid, hxid]
        simpa using fun hEq => hne hEq.symm
      have h3 : (x.id == pid2) = false := by
        rw [hxid]
        simpa using fun hEq => hne hEq.symm
      simp only [List.find?, h2, h3]
    | false =>
      simp only [hx, Bool.false_eq_true, if_false, List.find?]
      cases hx2 : (x.id == pid2) with
      | true => simp
      | false => simpa using ih

/-! ## C2: split behaviour -/

/-- The record list of the target page after inserting and re-sorting. -/
def sortedAfter (cmp : RecordData → RecordData → Int) (T : PageData) (r : RecordData) :
    List RecordData :=
  jsSort cmp (T.records ++ [r])

/-- What the original page becomes after a capacity-4 split: it keeps the
first 3 of the sorted 5 records and points forward to the new page. -/
def splitKeepPage (cmp : RecordData → RecordData → Int) (T : PageData) (r : RecordData)
    (newId : Int) : PageData :=
  { T with
    records := (sortedAfter cmp T r).take 3
    isDirty := true
    isSplitting := true
    nextPageId := some newId }

/-- The newly allocated page of a capacity-4 split: it takes the last 2 of the
sorted 5 records, points back to the original page and forward to the original
page's former successor. -/
def splitNewPage (cmp : RecordData → RecordData → Int) (t : IndexType) (T : PageData)
    (r : RecordData) (newId : Int) : PageData :=
  { id := newId, indexType := t, records := (sortedAfter cmp T r).drop 3,
    nextPageId := T.nextPageId, prevPageId := some T.id,
    isDirty := true, isSplitting := false, isHighlighted := false }

/-- C2: for every state in which the located target page holds exactly
`PAGE_CAPACITY` (= 4) records, inserting one more record into that index splits
the page: the original page keeps the first 3 of the sorted 5 records and gets
`nextPageId` = the new page's id; the new page (id = incremented counter) holds
the last 2, has `prevPageId` = the original page's id and `nextPageId` = the
original page's former `nextPageId`; and the former next page (if any) has its
`prevPageId` updated to the new page's id. -/
theorem C2_split_behavior (pages : List PageData) (t : IndexType) (r : RecordData)
    (cmp : RecordData → RecordData → Int) (counter : Int) (logs : List LogEntry)
    (tid : Int) (T : PageData)
    (hloc : locateTarget pages t cmp r = some (some tid))
    (hfind : pages.find? (fun p => p.id == tid) = some T)
    (hcap : T.records.length = PAGE_CAPACITY)
    (hdup : (t == IndexType.PRIMARY && T.records.any (fun x => x.id == r.id)) = false)
    (hsep : T.nextPageId ≠ some tid) :
    ∃ res, insertIntoIndex pages t r cmp counter logs = some res ∧
      res.newPageCounter = counter + 1 ∧
      ((sortedAfter cmp T r).take 3).length = 3 ∧
      ((sortedAfter cmp T r).drop 3).length = 2 ∧
      res.pages.getLast? = some (splitNewPage cmp t T r (counter + 1)) ∧
      res.pages.find? (fun p => p.id == tid) = some (splitKeepPage cmp T r (counter + 1)) ∧
      ∀ nn N, T.nextPageId = some nn → pages.find? (fun p => p.id == nn) = some N →
        res.pages.find? (fun p => p.id == nn) = some { N with prevPageId := some (counter + 1) } := by
  have hTid : T.id = tid := by simpa using List.find?_some hfind
  have hlen : (jsSort cmp (T.records ++ [r])).length = 5 := by
    rw [jsSort_length, List.length_append, hcap]
    rfl
  have hrun : insertIntoIndex pages t r cmp counter logs = some
      ⟨(match T.nextPageId with
        | none => updateFirstById tid (fun _ => splitKeepPage cmp T r (counter + 1)) pages
        | some nn => updateFirstById nn (fun q => { q with prevPageId := some (counter + 1) })
            (updateFirstById tid (fun _ => splitKeepPage cmp T r (counter + 1)) pages))
        ++ [splitNewPage cmp t T r (counter + 1)],
       counter + 1,
       addLog (addLog logs (splitStartMsg t tid) .warning)
         (splitDoneMsg t tid (counter + 1)) .success⟩ := by
    simp only [insertIntoIndex, hloc, hfind, hdup, Bool.false_eq_true, if_false, hlen,
      PAGE_CAPACITY, splitKeepPage, splitNewPage, sortedAfter]
    norm_num
  refine ⟨_, hrun, rfl, ?_, ?_, ?_, ?_, ?_⟩
  · simp [sortedAfter, List.length_take, jsSort_length, List.length_append, hcap, PAGE_CAPACITY]
  · simp [sortedAfter, List.length_drop, jsSort_length, List.length_append, hcap, PAGE_CAPACITY]
  · exact List.getLast?_concat _
  · cases hnext : T.nextPageId with
    | none =>
      simp only [hnext]
      exact find?_append_left _ _
        (find?_updateFirstById_self hfind _ (by simp [splitKeepPage]))
    | some nn =>
      simp only [hnext]
      have hnn : tid ≠ nn := by
        intro hEq
        rw [hnext, hEq] at hsep
        exact hsep rfl
      refine find?_append_left _ _ ?_
      rw [find?_updateFirstById_other hnn
        (fun q => { q with prevPageId := some (counter + 1) }) (fun q _ => rfl)]
      exact find?_updateFirstById_self hfind _ (by simp [splitKeepPage])
  · intro nn N hnext hfindN
    simp only [hnext]
    have hnn : nn ≠ tid := by
      intro hEq
      rw [hEq] at hnext
      exact hsep hnext
    refine find?_append_left _ _ ?_
    have h2 : (updateFirstById tid (fun _ => splitKeepPage cmp T r (counter + 1)) pages).find?
        (fun p => p.id == nn) = some N := by
      rw [find?_updateFirstById_other hnn _ (by intro q hq; simp [splitKeepPage, hTid, hq])]
      exact hfindN
    exact find?_updateFirstById_self h2 _ rfl

/-- The full page used for the C2 witness. -/
def c2Page : PageData :=
  ⟨1, .PRIMARY,
    [⟨1, "a", false, false⟩, ⟨2, "b", false, false⟩, ⟨3, "c", false, false⟩,
     ⟨4, "d", false, false⟩], none, none, false, false, false⟩

def c2Pages : List PageData := [c2Page]

def c2Rec : RecordData := ⟨5, "e", true, false⟩

/-- Witness for C2: inserting a 5th record into a full 4-record page. -/
theorem C2_split_behavior_witness :
    locateTarget c2Pages .PRIMARY cmpPrimary c2Rec = some (some 1) ∧
    c2Pages.find? (fun p => p.id == 1) = some c2Page ∧
    c2Page.records.length = PAGE_CAPACITY ∧
    ((IndexType.PRIMARY == IndexType.PRIMARY) &&
      c2Page.records.any (fun x => x.id == c2Rec.id)) = false ∧
    c2Page.nextPageId ≠ some 1 ∧
    (∃ res, insertIntoIndex c2Pages .PRIMARY c2Rec cmpPrimary 2 [] = some res ∧
      res.newPageCounter = 2 + 1 ∧
      ((sortedAfter cmpPrimary c2Page c2Rec).take 3).length = 3 ∧
      ((sortedAfter cmpPrimary c2Page c2Rec).drop 3).length = 2 ∧
      res.pages.getLast? = some (splitNewPage cmpPrimary .PRIMARY c2Page c2Rec (2 + 1)) ∧
      res.pages.find? (fun p => p.id == 1) = some (splitKeepPage cmpPrimary c2Page c2Rec (2 + 1)) ∧
      ∀ nn N, c2Page.nextPageId = some nn → c2Pages.find? (fun p => p.id == nn) = some N →
        res.pages.find? (fun p => p.id == nn) = some { N with prevPageId := some (2 + 1) }) :=
  ⟨by decide, by decide, by decide, by decide, by decide,
    C2_split_behavior c2Pages .PRIMARY c2Rec cmpPrimary 2 [] 1 c2Page
      (by decide) (by decide) (by decide) (by decide) (by decide)⟩

/-! ## C8: page-id allocation -/

theorem mem_updateFirstById {p2 : PageData} {pid : Int} {f : PageData → PageData} :
    ∀ {l : List PageData}, p2 ∈ updateFirstById pid f l → p2 ∈ l ∨ ∃ q ∈ l, p2 = f q := by
  intro l
  induction l with
  | nil => intro h; simp [updateFirstById] at h
  | cons x t ih =>
    intro h
    simp only [updateFirstById] at h
    split at h
    · rcases List.mem_cons.mp h with rfl | h2
      · exact Or.inr ⟨x, List.mem_cons_self x t, rfl⟩
      · exact Or.inl (List.mem_cons_of_mem _ h2)
    · rcases List.mem_cons.mp h with rfl | h2
      · exact Or.inl (List.mem_cons_self p2 t)
      · rcases ih h2 with h3 | ⟨q, hq, h4⟩
        · exact Or.inl (List.mem_cons_of_mem _ h3)
        · exact Or.inr ⟨q, List.mem_cons_of_mem _ hq, h4⟩

/-- Page ids in the result of an `insertIntoIndex` call: every page keeps an
id that already existed, except the split's new page whose id is in the
range `(counter, newPageCounter]`; the counter never decreases. -/
theorem insertIntoIndex_ids (pages : List PageData) (t : IndexType) (r : RecordData)
    (cmp : RecordData → RecordData → Int) (counter : Int) (logs : List LogEntry)
    (res : InsertResult) (h : insertIntoIndex pages t r cmp counter logs = some res) :
    counter ≤ res.newPageCounter ∧
    ∀ p2 ∈ res.pages, (∃ p ∈ pages, p2.id = p.id) ∨
      (counter < p2.id ∧ p2.id ≤ res.newPageCounter) := by
  unfold insertIntoIndex at h
  split at h
  · exact absurd h (by simp)
  · injection h with h
    subst h
    exact ⟨le_refl _, fun p2 hp2 => Or.inl ⟨p2, hp2, rfl⟩⟩
  · split at h
    · exact absurd h (by simp)
    · rename_i tid T hfind
      have hTmem : T ∈ pages := List.mem_of_find?_eq_some hfind
      have hsub : ∀ g : PageData → PageData, (∀ q, (g q).id = q.id ∨ (g q).id = T.id) →
          ∀ pid : Int, ∀ p3 ∈ updateFirstById pid g pages, ∃ p ∈ pages, p3.id = p.id := by
        intro g hg pid p3 hp3
        rcases mem_updateFirstById hp3 with h3 | ⟨q, hq, rfl⟩
        · exact ⟨p3, h3, rfl⟩
        · rcases hg q with h4 | h4
          · exact ⟨q, hq, h4⟩
          · exact ⟨T, hTmem, h4⟩
      split at h
      · injection h with h
        subst h
        exact ⟨le_refl _, fun p2 hp2 => Or.inl ⟨p2, hp2, rfl⟩⟩
      · split at h
        all_goals simp only [PAGE_CAPACITY] at h
        all_goals split at h
        all_goals injection h with h
        all_goals subst h
        · refine ⟨by simp, ?_⟩
          intro p2 hp2
          simp only [List.mem_append, List.mem_singleton] at hp2
          rcases hp2 with hp2 | rfl
          · refine Or.inl (hsub _ ?_ _ p2 hp2)
            intro q
            exact Or.inr rfl
          · exact Or.inr ⟨by simp, by simp⟩
        · refine ⟨le_refl _, ?_⟩
          intro p2 hp2
          refine Or.inl (hsub _ ?_ _ p2 hp2)
          intro q
          exact Or.inr rfl
        · refine ⟨by simp, ?_⟩
          intro p2 hp2
          simp only [List.mem_append, List.mem_singleton] at hp2
          rcases hp2 with hp2 | rfl
          · rcases mem_updateFirstById hp2 with h3 | ⟨q, hq, rfl⟩
            · refine Or.inl (hsub _ ?_ _ p2 h3)
              intro q
              exact Or.inr rfl
            · refine Or.inl ?_
              have h5 : ∃ p ∈ pages, q.id = p.id := by
                refine hsub _ ?_ _ q hq
                intro q2
                exact Or.inr rfl
              obtain ⟨p, hp, hid⟩ := h5
              exact ⟨p, hp, hid⟩
          · exact Or.inr ⟨by simp, by simp⟩
        · refine ⟨le_refl _, ?_⟩
          intro p2 hp2
          refine Or.inl (hsub _ ?_ _ p2 hp2)
          intro q
          exact Or.inr rfl

/-- Page ids across one `insertRecord` call: the counter never decreases, and
every page of the new state either reuses a live id or is freshly allocated
strictly above the old counter. -/
theorem insertRecord_ids (s : EngineState) (id : Int) (v : String) (s' : EngineState)
    (h : insertRecord s id v = some s') :
    s.pageCounter ≤ s'.pageCounter ∧
    ∀ p2 ∈ s'.pages, (∃ p ∈ s.pages, p2.id = p.id) ∨
      (s.pageCounter < p2.id ∧ p2.id ≤ s'.pageCounter) := by
  simp only [insertRecord] at h
  split at h
  · exact absurd h (by simp)
  · rename_i r1 h1
    split at h
    · exact absurd h (by simp)
    · rename_i r2 h2
      injection h with h
      subst h
      obtain ⟨hc1, hids1⟩ := insertIntoIndex_ids _ _ _ _ _ _ _ h1
      obtain ⟨hc2, hids2⟩ := insertIntoIndex_ids _ _ _ _ _ _ _ h2
      refine ⟨le_trans hc1 hc2, ?_⟩
      intro p2 hp2
      rcases hids2 p2 hp2 with ⟨p1, hp1, hid1⟩ | ⟨hlt, hle⟩
      · rcases hids1 p1 hp1 with ⟨p0, hp0, hid0⟩ | ⟨hlt, hle⟩
        · simp only [List.mem_map] at hp0
          obtain ⟨p, hp, rfl⟩ := hp0
          refine Or.inl ⟨p, hp, ?_⟩
          rw [hid1, hid0]
          rfl
        · refine Or.inr ⟨by omega, ?_⟩
          show p2.id ≤ r2.newPageCounter
          omega
      · refine Or.inr ⟨by omega, ?_⟩
        show p2.id ≤ r2.newPageCounter
        omega

/-- Within a run of inserts, every live page id is bounded by the counter. -/
theorem reach_ids_le_counter (s : EngineState) (hs : Reach s) :
    ∀ p ∈ s.pages, p.id ≤ s.pageCounter := by
  induction hs with
  | init =>
    intro p hp
    simp only [initializeEngine, createPage, addLog, List.mem_cons, List.not_mem_nil,
      or_false] at hp
    rcases hp with rfl | rfl <;> simp [initializeEngine]
  | step hsr hins ih =>
    intro p hp
    obtain ⟨hc, hids⟩ := insertRecord_ids _ _ _ _ hins
    rcases hids p hp with ⟨p0, hp0, hid⟩ | ⟨hlt, hle⟩
    · have := ih p0 hp0
      omega
    · exact hle

/-- C8 (amended): within a single lifetime WITHOUT reset, the page-id counter
is monotonically non-decreasing, every live page id is bounded by the counter,
and every insert allocates new pages only with ids strictly above the previous
counter — so within a run no allocated id is ever allocated a second time.
(Across `resetEngine` this fails, see the counterexample: reset restores the
initial counter and pages, so ids and counter values ARE reused.) -/
theorem C8_no_reuse_within_run (s : EngineState) (hs : Reach s) (id : Int) (v : String)
    (s' : EngineState) (h : insertRecord s id v = some s') :
    (∀ p ∈ s.pages, p.id ≤ s.pageCounter) ∧
    s.pageCounter ≤ s'.pageCounter ∧
    ∀ p2 ∈ s'.pages, (∃ p ∈ s.pages, p2.id = p.id) ∨ s.pageCounter < p2.id := by
  obtain ⟨hc, hids⟩ := insertRecord_ids _ _ _ _ h
  refine ⟨reach_ids_le_counter s hs, hc, ?_⟩
  intro p2 hp2
  rcases hids p2 hp2 with h2 | ⟨hlt, _⟩
  · exact Or.inl h2
  · exact Or.inr hlt

/-- Concrete insert for the C8 witness. -/
def c8wState : EngineState :=
  (insertRecord initializeEngine 1 "Alice").getD initializeEngine

/-- Witness for the amended C8 on the initial state. -/
theorem C8_no_reuse_within_run_witness :
    insertRecord initializeEngine 1 "Alice" = some c8wState ∧
    ((∀ p ∈ initializeEngine.pages, p.id ≤ initializeEngine.pageCounter) ∧
      initializeEngine.pageCounter ≤ c8wState.pageCounter ∧
      ∀ p2 ∈ c8wState.pages, (∃ p ∈ initializeEngine.pages, p2.id = p.id) ∨
        initializeEngine.pageCounter < p2.id) :=
  ⟨by decide, C8_no_reuse_within_run initializeEngine Reach.init 1 "Alice" c8wState (by decide)⟩

/-- The insert sequence of the C8 counterexample. -/
def c8Ops : List (Int × String) :=
  [(1, "Alice"), (2, "Bob"), (3, "Charlie"), (4, "Dave"), (5, "Eve")]

/-- The state after running `c8Ops` from the initial state. -/
def c8State : EngineState := (applyInserts initializeEngine c8Ops).getD initializeEngine

/-- Counterexample to C8 as stated: the runs before and after a reset allocate
the same page id 3, and the page-id counter drops from 4 back to 2 at the
reset — ids ARE reused across resets because `resetEngine` rebuilds the
initial state, counter included. -/
theorem C8_counterexample :
    applyInserts initializeEngine c8Ops = some c8State ∧
    c8State.pageCounter = 4 ∧
    (∃ p ∈ c8State.pages, p.id = 3) ∧
    resetEngine = initializeEngine ∧
    resetEngine.pageCounter = 2 ∧
    applyInserts resetEngine c8Ops = some c8State ∧
    ¬ c8State.pageCounter ≤ resetEngine.pageCounter :=
  ⟨by decide, by decide, by decide, rfl, by decide, by decide, by decide⟩

/-! ## C9: the snapshot projection -/

/-- The reachable state of the C9 counterexample: after inserting `(1, "B")`
then `(2, "A")`, the SECONDARY page stores records in value order, so its
projected primary keys are `[2, 1]` — not ascending. -/
def c9State : EngineState :=
  (applyInserts initializeEngine [(1, "B"), (2, "A")]).getD initializeEngine

/-- Counterexample to C9 as stated: the projection contains an entry (for the
SECONDARY page) whose `records` are NOT in ascending order. -/
theorem C9_counterexample :
    applyInserts initializeEngine [(1, "B"), (2, "A")] = some c9State ∧
    (∃ e ∈ simplePages c9State, e.records = [2, 1]) ∧
    ¬ ∀ e ∈ simplePages c9State, e.records.Pairwise (fun a b => a ≤ b) :=
  ⟨by decide, by decide, by decide⟩

/-! ## Order properties of the comparators -/

theorem charCmp_zero_iff (a b : Char) : charCmp a b = 0 ↔ a = b := by
  unfold charCmp
  constructor
  · intro h
    split at h
    · exact absurd h (by decide)
    · split at h
      · exact absurd h (by decide)
      · rename_i h1 h2
        have h3 : a.toNat = b.toNat := by omega
        exact Char.ext (UInt32.toNat.inj h3)
  · intro h
    subst h
    simp

theorem charCmp_cases (a b : Char) : charCmp a b = -1 ∨ charCmp a b = 0 ∨ charCmp a b = 1 := by
  unfold charCmp
  split
  · exact Or.inl rfl
  · split
    · exact Or.inr (Or.inr rfl)
    · exact Or.inr (Or.inl rfl)

theorem charCmp_neg_iff (a b : Char) : charCmp a b = -1 ↔ a.toNat < b.toNat := by
  unfold charCmp
  constructor
  · intro h
    split at h
    · assumption
    · split at h <;> exact absurd h (by decide)
  · intro h
    simp [h]

theorem charCmp_pos_iff (a b : Char) : charCmp a b = 1 ↔ b.toNat < a.toNat := by
  unfold charCmp
  constructor
  · intro h
    split at h
    · exact absurd h (by decide)
    · split at h
      · assumption
      · exact absurd h (by decide)
  · intro h
    have h2 : ¬ a.toNat < b.toNat := by omega
    simp [h2, h]

theorem listCmp_zero_iff : ∀ as bs : List Char, listCmp as bs = 0 ↔ as = bs := by
  intro as
  induction as with
  | nil =>
    intro bs
    cases bs with
    | nil => simp [listCmp]
    | cons b bs => simp [listCmp]
  | cons a as ih =>
    intro bs
    cases bs with
    | nil => simp [listCmp]
    | cons b bs =>
      simp only [listCmp]
      split
      · rename_i h0
        rw [charCmp_zero_iff] at h0
        subst h0
        rw [ih bs]
        simp
      · rename_i h0
        constructor
        · intro h
          exact absurd h h0
        · intro h
          injection h with h1 h2
          exact absurd ((charCmp_zero_iff a b).mpr h1) h0

theorem listCmp_nil_le (bs : List Char) : listCmp [] bs ≤ 0 := by
  cases bs <;> simp [listCmp]

theorem listCmp_le_total : ∀ as bs : List Char, listCmp as bs ≤ 0 ∨ listCmp bs as ≤ 0 := by
  intro as
  induction as with
  | nil => intro bs; exact Or.inl (listCmp_nil_le bs)
  | cons a as ih =>
    intro bs
    cases bs with
    | nil => exact Or.inr (listCmp_nil_le _)
    | cons b bs =>
      rcases charCmp_cases a b with hc | hc | hc
      · refine Or.inl ?_
        simp only [listCmp]
        rw [hc]
        norm_num
      · have hab : a = b := (charCmp_zero_iff a b).mp hc
        subst hab
        have hc2 : charCmp a a = 0 := (charCmp_zero_iff a a).mpr rfl
        rcases ih bs with h | h
        · refine Or.inl ?_
          simp only [listCmp, hc2, if_pos]
          exact h
        · refine Or.inr ?_
          simp only [listCmp, hc2, if_pos]
          exact h
      · refine Or.inr ?_
        have hba : charCmp b a = -1 := by
          rw [charCmp_neg_iff]
          exact (charCmp_pos_iff a b).mp hc
        simp only [listCmp]
        rw [hba]
        norm_num

theorem listCmp_antisymm : ∀ as bs : List Char,
    listCmp as bs ≤ 0 → listCmp bs as ≤ 0 → as = bs := by
  intro as
  induction as with
  | nil =>
    intro bs h1 h2
    cases bs with
    | nil => rfl
    | cons b bs => simp [listCmp] at h2
  | cons a as ih =>
    intro bs h1 h2
    cases bs with
    | nil => simp [listCmp] at h1
    | cons b bs =>
      rcases charCmp_cases a b with hc | hc | hc
      · have hba : charCmp b a = 1 := by
          rw [charCmp_pos_iff]
          exact (charCmp_neg_iff a b).mp hc
        have : ¬ charCmp b a = 0 := by rw [hba]; decide
        simp only [listCmp, this, if_neg, hba] at h2
        omega
      · have hab : a = b := (charCmp_zero_iff a b).mp hc
        subst hab
        have hc2 : charCmp a a = 0 := (charCmp_zero_iff a a).mpr rfl
        simp only [listCmp, hc2, if_pos] at h1 h2
        rw [ih bs h1 h2]
      · have : ¬ charCmp a b = 0 := by rw [hc]; decide
        simp only [listCmp, this, if_neg, hc] at h1
        omega

theorem listCmp_le_trans : ∀ as bs cs : List Char,
    listCmp as bs ≤ 0 → listCmp bs cs ≤ 0 → listCmp as cs ≤ 0 := by
  intro as
  induction as with
  | nil => intro bs cs h1 h2; exact listCmp_nil_le cs
  | cons a as ih =>
    intro bs cs h1 h2
    cases bs with
    | nil => simp [listCmp] at h1
    | cons b bs =>
      cases cs with
      | nil => simp [listCmp] at h2
      | cons c cs =>
        rcases charCmp_cases a b with hab | hab | hab
        · -- a < b
          have hanat : a.toNat < b.toNat := (charCmp_neg_iff a b).mp hab
          rcases charCmp_cases b c with hbc | hbc | hbc
          · have hbnat : b.toNat < c.toNat := (charCmp_neg_iff b c).mp hbc
            have hac : charCmp a c = -1 := by
              rw [charCmp_neg_iff]
              omega
            have : ¬ charCmp a c = 0 := by rw [hac]; decide
            simp only [listCmp, this, if_neg, hac]
            norm_num
          · have hbceq : b = c := (charCmp_zero_iff b c).mp hbc
            subst hbceq
            have hac : ¬ charCmp a b = 0 := by rw [hab]; decide
            simp only [listCmp, hac, if_neg, hab]
            norm_num
          · have hcnat : c.toNat < b.toNat := (charCmp_pos_iff b c).mp hbc
            have : ¬ charCmp b c = 0 := by rw [hbc]; decide
            simp only [listCmp, this, if_neg, hbc] at h2
            omega
        · -- a = b
          have habeq : a = b := (charCmp_zero_iff a b).mp hab
          subst habeq
          have hc2 : charCmp a a = 0 := (charCmp_zero_iff a a).mpr rfl
          simp only [listCmp, hc2, if_pos] at h1
          rcases charCmp_cases a c with hac | hac | hac
          · have : ¬ charCmp a c = 0 := by rw [hac]; decide
            simp only [listCmp, this, if_neg, hac]
            norm_num
          · have haceq : a = c := (charCmp_zero_iff a c).mp hac
            subst haceq
            simp only [listCmp, hc2, if_pos] at h2 ⊢
            exact ih bs cs h1 h2
          · have : ¬ charCmp a c = 0 := by rw [hac]; decide
            simp only [listCmp, this, if_neg, hac] at h2 ⊢
            omega
        · -- b < a
          have : ¬ charCmp a b = 0 := by rw [hab]; decide
          simp only [listCmp, this, if_neg, hab] at h1
          omega

theorem cmpPrimary_le_trans (a b c : RecordData) :
    cmpPrimary a b ≤ 0 → cmpPrimary b c ≤ 0 → cmpPrimary a c ≤ 0 := by
  unfold cmpPrimary
  omega

theorem cmpPrimary_le_total (a b : RecordData) : cmpPrimary a b ≤ 0 ∨ cmpPrimary b a ≤ 0 := by
  unfold cmpPrimary
  omega

theorem cmpSecondary_le_trans (a b c : RecordData) :
    cmpSecondary a b ≤ 0 → cmpSecondary b c ≤ 0 → cmpSecondary a c ≤ 0 := by
  unfold cmpSecondary strCmpInt
  intro h1 h2
  by_cases hab : listCmp a.value.toList b.value.toList = 0
  · have habeq : a.value.toList = b.value.toList := (listCmp_zero_iff _ _).mp hab
    simp only [hab, if_pos] at h1
    by_cases hbc : listCmp b.value.toList c.value.toList = 0
    · have hbceq : b.value.toList = c.value.toList := (listCmp_zero_iff _ _).mp hbc
      simp only [hbc, if_pos] at h2
      have hac : listCmp a.value.toList c.value.toList = 0 := by
        rw [habeq, hbceq]
        exact (listCmp_zero_iff _ _).mpr rfl
      simp only [hac, if_pos]
      omega
    · simp only [hbc, if_neg] at h2
      have hac : listCmp a.value.toList c.value.toList =
          listCmp b.value.toList c.value.toList := by rw [habeq]
      rw [hac]
      simp only [hbc, if_neg]
      exact h2
  · simp only [hab, if_neg] at h1
    by_cases hbc : listCmp b.value.toList c.value.toList = 0
    · have hbceq : b.value.toList = c.value.toList := (listCmp_zero_iff _ _).mp hbc
      have hac : listCmp a.value.toList c.value.toList =
          listCmp a.value.toList b.value.toList := by rw [hbceq]
      have hac0 : ¬ listCmp a.value.toList c.value.toList = 0 := by
        rw [hac]
        exact hab
      simp only [hac0, if_neg]
      rw [hac]
      exact h1
    · simp only [hbc, if_neg] at h2
      have hle : listCmp a.value.toList c.value.toList ≤ 0 :=
        listCmp_le_trans _ _ _ h1 h2
      by_cases hac : listCmp a.value.toList c.value.toList = 0
      · exfalso
        have haceq : a.value.toList = c.value.toList := (listCmp_zero_iff _ _).mp hac
        rw [← haceq] at h2
        have : a.value.toList = b.value.toList := listCmp_antisymm _ _ h1 h2
        exact hab ((listCmp_zero_iff _ _).mpr this)
      · simp only [hac, if_neg]
        exact hle

theorem cmpSecondary_le_total (a b : RecordData) :
    cmpSecondary a b ≤ 0 ∨ cmpSecondary b a ≤ 0 := by
  unfold cmpSecondary strCmpInt
  by_cases hab : listCmp a.value.toList b.value.toList = 0
  · have habeq : a.value.toList = b.value.toList := (listCmp_zero_iff _ _).mp hab
    have hba : listCmp b.value.toList a.value.toList = 0 := by
      rw [habeq]
      exact (listCmp_zero_iff _ _).mpr rfl
    simp only [hab, hba, if_pos]
    omega
  · have hba : ¬ listCmp b.value.toList a.value.toList = 0 := by
      intro h
      have := (listCmp_zero_iff _ _).mp h
      exact hab ((listCmp_zero_iff _ _).mpr this.symm)
    simp only [hab, hba, if_neg]
    rcases listCmp_le_total a.value.toList b.value.toList with h | h
    · exact Or.inl h
    · exact Or.inr h

/-! ## The chain invariant -/

/-- Forward/backward link agreement between adjacent pages. -/
def PageLink (p q : PageData) : Prop :=
  p.nextPageId = some q.id ∧ q.prevPageId = some p.id

/-- The invariant of one index chain: `L` lists the chain's pages
head-to-tail. -/
structure ChainInv (pages : List PageData) (t : IndexType)
    (cmp : RecordData → RecordData → Int) (L : List PageData) : Prop where
  perm : (pages.filter (fun p => p.indexType == t)).Perm L
  ne : L ≠ []
  headPrev : ∀ h, L.head? = some h → h.prevPageId = none
  links : List.Chain' PageLink L
  lastNext : ∀ p, L.getLast? = some p → p.nextPageId = none
  sorted : (flatRecs L).Pairwise (fun a b => cmp a b ≤ 0)
  pagesNE : 1 < L.length → ∀ p ∈ L, p.records ≠ []
  cap : ∀ p ∈ L, p.records.length ≤ PAGE_CAPACITY

/-- The inductive invariant of the page collection and counter. -/
structure PInv (pages : List PageData) (counter : Int) : Prop where
  idsNodup : (pages.map (fun p => p.id)).Nodup
  idsLe : ∀ p ∈ pages, p.id ≤ counter
  prim : ∃ L, ChainInv pages .PRIMARY cmpPrimary L ∧
    ((flatRecs L).map (fun r => r.id)).Nodup
  sec : ∃ L, ChainInv pages .SECONDARY cmpSecondary L

/-- The inductive invariant of an engine state. -/
def Inv (s : EngineState) : Prop := PInv s.pages s.pageCounter

theorem flatRecs_append : ∀ A B : List PageData,
    flatRecs (A ++ B) = flatRecs A ++ flatRecs B := by
  intro A B
  induction A with
  | nil => rfl
  | cons p t ih => simp [flatRecs, ih]

theorem ChainInv.mem_pages {pages : List PageData} {t : IndexType}
    {cmp : RecordData → RecordData → Int} {L : List PageData}
    (hchain : ChainInv pages t cmp L) {p : PageData} (hp : p ∈ L) :
    p ∈ pages ∧ p.indexType = t := by
  have h1 : p ∈ pages.filter (fun q => q.indexType == t) := hchain.perm.mem_iff.mpr hp
  have h2 := List.of_mem_filter h1
  simp only [beq_iff_eq] at h2
  exact ⟨List.mem_of_mem_filter h1, h2⟩

theorem ChainInv.ids_nodup {pages : List PageData} {t : IndexType}
    {cmp : RecordData → RecordData → Int} {L : List PageData}
    (hchain : ChainInv pages t cmp L) (hnd : (pages.map (fun p => p.id)).Nodup) :
    (L.map (fun p => p.id)).Nodup := by
  have h1 : ((pages.filter (fun p => p.indexType == t)).map (fun p => p.id)).Sublist
      (pages.map (fun p => p.id)) := (List.filter_sublist pages).map _
  exact ((hchain.perm.map (fun p => p.id)).nodup_iff).mp (h1.nodup hnd)

/-- With globally distinct page ids, `find?` by a member's id returns it. -/
theorem find?_eq_of_nodup {pages : List PageData}
    (hnd : (pages.map (fun p => p.id)).Nodup) {p : PageData} (hp : p ∈ pages) :
    pages.find? (fun q => q.id == p.id) = some p := by
  induction pages with
  | nil => simp at hp
  | cons x t ih =>
    simp only [List.map_cons, List.nodup_cons] at hnd
    rcases List.mem_cons.mp hp with rfl | hp2
    · simp [List.find?]
    · have hxp : (x.id == p.id) = false := by
        have : p.id ∈ t.map (fun q => q.id) := List.mem_map_of_mem _ hp2
        simp only [beq_eq_false_iff_ne, ne_eq]
        intro hEq
        rw [hEq] at hnd
        exact hnd.1 this
      simp only [List.find?, hxp]
      exact ih hnd.2 hp2

/-- Distinct ids make pages with equal ids equal. -/
theorem eq_of_id_eq {pages : List PageData}
    (hnd : (pages.map (fun p => p.id)).Nodup) {p q : PageData}
    (hp : p ∈ pages) (hq : q ∈ pages) (hid : p.id = q.id) : p = q :=
  List.inj_on_of_nodup_map hnd hp hq hid

/-! ## The location walk on an abstract chain -/

/-- The pure content of the target-page location loop, computed on the chain
read head-to-tail: returns `(A, T, B)` where `T` is the target page, `A` the
pages walked past and `B` the pages after the target. -/
def chainLocateSplit (cmp : RecordData → RecordData → Int) (r : RecordData) :
    List PageData → Option (List PageData × PageData × List PageData)
  | [] => none
  | [p] => some ([], p, [])
  | p :: q :: rest =>
    match q.records with
    | [] => (chainLocateSplit cmp r (q :: rest)).map (fun x => (p :: x.1, x.2.1, x.2.2))
    | r0 :: _ =>
      if cmp r0 r > 0 then some ([], p, q :: rest)
      else (chainLocateSplit cmp r (q :: rest)).map (fun x => (p :: x.1, x.2.1, x.2.2))

theorem chainLocateSplit_isSome (cmp : RecordData → RecordData → Int) (r : RecordData) :
    ∀ L : List PageData, L ≠ [] → ∃ x, chainLocateSplit cmp r L = some x := by
  intro L
  induction L with
  | nil => intro h; exact absurd rfl h
  | cons p rest ih =>
    intro _
    cases rest with
    | nil => exact ⟨_, rfl⟩
    | cons q rest2 =>
      obtain ⟨x, hx⟩ := ih (by simp)
      simp only [chainLocateSplit]
      split
      · exact ⟨_, by rw [hx]; rfl⟩
      · split
        · exact ⟨_, rfl⟩
        · exact ⟨_, by rw [hx]; rfl⟩

theorem chainLocateSplit_decomp (cmp : RecordData → RecordData → Int) (r : RecordData) :
    ∀ (L A : List PageData) (T : PageData) (B : List PageData),
      chainLocateSplit cmp r L = some (A, T, B) → L = A ++ T :: B := by
  intro L
  induction L with
  | nil => intro A T B h; simp [chainLocateSplit] at h
  | cons p rest ih =>
    intro A T B h
    cases rest with
    | nil =>
      simp only [chainLocateSplit, Option.some.injEq, Prod.mk.injEq] at h
      obtain ⟨h1, h2, h3⟩ := h
      subst h1; subst h2; subst h3
      rfl
    | cons q rest2 =>
      simp only [chainLocateSplit] at h
      split at h
      · rw [Option.map_eq_some'] at h
        obtain ⟨⟨A2, T2, B2⟩, hx, h2⟩ := h
        injection h2 with h2a h2b
        injection h2b with h2b h2c
        subst h2b; subst h2c
        rw [← h2a]
        simpa using ih A2 T2 B2 hx
      · split at h
        · simp only [Option.some.injEq, Prod.mk.injEq] at h
          obtain ⟨h1, h2, h3⟩ := h
          subst h1; subst h2; subst h3
          rfl
        · rw [Option.map_eq_some'] at h
          obtain ⟨⟨A2, T2, B2⟩, hx, h2⟩ := h
          injection h2 with h2a h2b
          injection h2b with h2b h2c
          subst h2b; subst h2c
          rw [← h2a]
          simpa using ih A2 T2 B2 hx

/-- Boundary facts of the located split: if pages were walked past, the
target's first record compares `≤ r`; if pages remain after the target, the
first record of the next page compares `> r`. -/
theorem chainLocateSplit_bounds (cmp : RecordData → RecordData → Int) (r : RecordData) :
    ∀ (L A : List PageData) (T : PageData) (B : List PageData),
      chainLocateSplit cmp r L = some (A, T, B) →
      (∀ p ∈ L, p.records ≠ []) →
      (A ≠ [] → ∃ rT rs, T.records = rT :: rs ∧ cmp rT r ≤ 0) ∧
      (B ≠ [] → ∃ q B2 r0 rs, B = q :: B2 ∧ q.records = r0 :: rs ∧ cmp r0 r > 0) := by
  intro L
  induction L with
  | nil => intro A T B h; simp [chainLocateSplit] at h
  | cons p rest ih =>
    intro A T B h hne
    cases rest with
    | nil =>
      simp only [chainLocateSplit, Option.some.injEq, Prod.mk.injEq] at h
      obtain ⟨h1, h2, h3⟩ := h
      subst h1; subst h3
      exact ⟨fun hc => absurd rfl hc, fun hc => absurd rfl hc⟩
    | cons q rest2 =>
      have hne2 : ∀ p2 ∈ q :: rest2, p2.records ≠ [] := by
        intro p2 hp2
        exact hne p2 (List.mem_cons_of_mem _ hp2)
      simp only [chainLocateSplit] at h
      split at h
      · rename_i hq
        exact absurd hq (hne q (by simp))
      · rename_i r0 rs hq
        split at h
        · rename_i hgt
          simp only [Option.some.injEq, Prod.mk.injEq] at h
          obtain ⟨h1, h2, h3⟩ := h
          subst h1; subst h2; subst h3
          refine ⟨fun hc => absurd rfl hc, fun _ => ⟨q, rest2, r0, rs, rfl, hq, hgt⟩⟩
        · rename_i hle
          rw [Option.map_eq_some'] at h
          obtain ⟨⟨A2, T2, B2⟩, hx, h2⟩ := h
          injection h2 with h2a h2b
          injection h2b with h2b h2c
          subst h2b; subst h2c
          obtain ⟨hS1, hS2⟩ := ih A2 T2 B2 hx hne2
          constructor
          · intro _
            by_cases hA2 : A2 = []
            · subst hA2
              have hdec := chainLocateSplit_decomp cmp r (q :: rest2) [] T2 B2 hx
              simp only [List.nil_append] at hdec
              injection hdec with hd1 hd2
              subst hd1
              exact ⟨r0, rs, hq, by omega⟩
            · exact hS1 hA2
          · exact hS2

/-- In a linked chain, every page after the head has a non-null back link. -/
theorem mem_tail_prev : ∀ (rest : List PageData) (x : PageData),
    List.Chain' PageLink (x :: rest) → ∀ p ∈ rest, ∃ i : Int, p.prevPageId = some i := by
  intro rest
  induction rest with
  | nil => intro x _ p hp; simp at hp
  | cons y rest2 ih =>
    intro x hchain p hp
    rw [List.chain'_cons] at hchain
    rcases List.mem_cons.mp hp with rfl | hp2
    · exact ⟨x.id, hchain.1.2⟩
    · exact ih y hchain.2 p hp2

/-- In a linked chain, a page with a null back link is the head. -/
theorem prev_none_eq_head {L : List PageData} (hlinks : List.Chain' PageLink L)
    {p : PageData} (hp : p ∈ L) (hprev : p.prevPageId = none) : L.head? = some p := by
  cases L with
  | nil => simp at hp
  | cons x rest =>
    rcases List.mem_cons.mp hp with rfl | hp2
    · rfl
    · obtain ⟨i, hi⟩ := mem_tail_prev rest x hlinks p hp2
      rw [hi] at hprev
      exact absurd hprev (by simp)

/-- The source's head selection finds exactly the chain's head. -/
theorem chainHead_eq {pages : List PageData} {t : IndexType}
    {cmp : RecordData → RecordData → Int} {L : List PageData}
    (hchain : ChainInv pages t cmp L) :
    ∃ h rest, L = h :: rest ∧ chainHead pages t = some h := by
  obtain ⟨h, rest, hL⟩ : ∃ h rest, L = h :: rest := by
    cases L with
    | nil => exact absurd rfl hchain.ne
    | cons a b => exact ⟨a, b, rfl⟩
  refine ⟨h, rest, hL, ?_⟩
  unfold chainHead
  have hh : h ∈ pages.filter (fun p => p.indexType == t) := by
    refine hchain.perm.mem_iff.mpr ?_
    rw [hL]
    exact List.mem_cons_self h rest
  have hprev : h.prevPageId = none := hchain.headPrev h (by rw [hL]; rfl)
  cases hfind : (pages.filter (fun p => p.indexType == t)).find?
      (fun p => p.prevPageId == none) with
  | none =>
    exfalso
    have := List.find?_eq_none.mp hfind h hh
    simp [hprev] at this
  | some x =>
    have hxmem : x ∈ pages.filter (fun p => p.indexType == t) :=
      List.mem_of_find?_eq_some hfind
    have hxprev := List.find?_some hfind
    have hxL : x ∈ L := hchain.perm.mem_iff.mp hxmem
    have hx2 : L.head? = some x := prev_none_eq_head hchain.links hxL (by simpa using hxprev)
    rw [hL] at hx2
    injection hx2 with hx2
    subst hx2
    simp only [hfind]

/-- The fuel-bounded location loop computes the abstract `chainLocateSplit`
target when walking an actual chain. -/
theorem locateLoop_eq_chain (pages : List PageData) (cmp : RecordData → RecordData → Int)
    (r : RecordData) :
    ∀ (L : List PageData) (cur : PageData) (fuel : Nat) (A : List PageData) (T : PageData)
      (B : List PageData),
      chainLocateSplit cmp r (cur :: L) = some (A, T, B) →
      List.Chain' PageLink (cur :: L) →
      (∀ p, (cur :: L).getLast? = some p → p.nextPageId = none) →
      (∀ p ∈ cur :: L, pages.find? (fun q => q.id == p.id) = some p) →
      L.length < fuel →
      locateLoop pages cmp r cur fuel = some (some T.id) := by
  intro L
  induction L with
  | nil =>
    intro cur fuel A T B hsplit hlinks hlast hfind hfuel
    simp only [chainLocateSplit, Option.some.injEq, Prod.mk.injEq] at hsplit
    obtain ⟨h1, h2, h3⟩ := hsplit
    subst h2
    obtain ⟨f, rfl⟩ : ∃ f, fuel = f + 1 := ⟨fuel - 1, by omega⟩
    have hnext : cur.nextPageId = none := hlast cur rfl
    simp [locateLoop, hnext]
  | cons q rest ih =>
    intro cur fuel A T B hsplit hlinks hlast hfind hfuel
    obtain ⟨f, rfl⟩ : ∃ f, fuel = f + 1 := ⟨fuel - 1, by omega⟩
    rw [List.chain'_cons] at hlinks
    have hfq : pages.find? (fun p => p.id == q.id) = some q := hfind q (by simp)
    simp only [locateLoop, hlinks.1.1, hfq]
    have hlinks2 : List.Chain' PageLink (q :: rest) := hlinks.2
    have hlast2 : ∀ p, (q :: rest).getLast? = some p → p.nextPageId = none := by
      intro p hp
      exact hlast p (by rwa [List.getLast?_cons_cons])
    have hfind2 : ∀ p ∈ q :: rest, pages.find? (fun q2 => q2.id == p.id) = some p := by
      intro p hp
      exact hfind p (List.mem_cons_of_mem _ hp)
    have hfuel2 : rest.length < f := by
      simp only [List.length_cons] at hfuel
      omega
    simp only [chainLocateSplit] at hsplit
    split at hsplit
    · rename_i hq
      rw [Option.map_eq_some'] at hsplit
      obtain ⟨⟨A2, T2, B2⟩, hx, h2⟩ := hsplit
      injection h2 with h2a h2b
      injection h2b with h2b h2c
      subst h2b; subst h2c
      exact ih q f A2 T2 B2 hx hlinks2 hlast2 hfind2 hfuel2
    · rename_i r0 rs hq
      split at hsplit
      · rename_i hgt
        simp only [Option.some.injEq, Prod.mk.injEq] at hsplit
        obtain ⟨h1, h2, h3⟩ := hsplit
        subst h2
        rw [if_pos hgt]
      · rename_i hgt
        rw [if_neg hgt]
        rw [Option.map_eq_some'] at hsplit
        obtain ⟨⟨A2, T2, B2⟩, hx, h2⟩ := hsplit
        injection h2 with h2a h2b
        injection h2b with h2b h2c
        subst h2b; subst h2c
        exact ih q f A2 T2 B2 hx hlinks2 hlast2 hfind2 hfuel2

/-- On a state satisfying the chain invariant, `locateTarget` finds the target
described by `chainLocateSplit` on the abstract chain. -/
theorem locateTarget_of_chain {pages : List PageData} {t : IndexType}
    {cmp : RecordData → RecordData → Int} {L : List PageData} (r : RecordData)
    (hchain : ChainInv pages t cmp L) (hnd : (pages.map (fun p => p.id)).Nodup) :
    ∃ A T B, chainLocateSplit cmp r L = some (A, T, B) ∧ L = A ++ T :: B ∧
      locateTarget pages t cmp r = some (some T.id) ∧
      pages.find? (fun p => p.id == T.id) = some T ∧ T ∈ pages ∧ T.indexType = t := by
  obtain ⟨h, rest, hL, hhead⟩ := chainHead_eq hchain
  obtain ⟨⟨A, T, B⟩, hsplit⟩ := chainLocateSplit_isSome cmp r L hchain.ne
  have hdec : L = A ++ T :: B := chainLocateSplit_decomp cmp r L A T B hsplit
  have hTL : T ∈ L := by
    rw [hdec]
    exact List.mem_append_right A (List.mem_cons_self T B)
  have hfindall : ∀ p ∈ L, pages.find? (fun q => q.id == p.id) = some p := by
    intro p hp
    exact find?_eq_of_nodup hnd (hchain.mem_pages hp).1
  have hlen : L.length ≤ pages.length := by
    rw [← hchain.perm.length_eq]
    exact List.length_filter_le _ _
  refine ⟨A, T, B, hsplit, hdec, ?_, hfindall T hTL, (hchain.mem_pages hTL).1,
    (hchain.mem_pages hTL).2⟩
  unfold locateTarget
  rw [hhead]
  rw [hL] at hsplit
  refine locateLoop_eq_chain pages cmp r rest h (pages.length + 1) A T B hsplit
    (by rw [← hL]; exact hchain.links)
    (by rw [← hL]; exact fun p hp => hchain.lastNext p hp)
    (by rw [← hL]; exact hfindall) ?_
  have : L.length = rest.length + 1 := by rw [hL]; rfl
  omega

/-! ## Chain surgery helpers -/

theorem flatRecs_cons (p : PageData) (rest : List PageData) :
    flatRecs (p :: rest) = p.records ++ flatRecs rest := rfl

/-- Filtering a list split around a page of the filtered type. -/
theorem filter_decomp {u v : List PageData} {x : PageData} {t : IndexType}
    (hx : x.indexType = t) :
    (u ++ x :: v).filter (fun p => p.indexType == t) =
      u.filter (fun p => p.indexType == t) ++ x :: v.filter (fun p => p.indexType == t) := by
  rw [List.filter_append, List.filter_cons_of_pos (by simpa using hx)]

/-- Filtering a list split around a page NOT of the filtered type. -/
theorem filter_decomp_ne {u v : List PageData} {x : PageData} {t : IndexType}
    (hx : x.indexType ≠ t) :
    (u ++ x :: v).filter (fun p => p.indexType == t) =
      u.filter (fun p => p.indexType == t) ++ v.filter (fun p => p.indexType == t) := by
  rw [List.filter_append, List.filter_cons_of_neg (by simpa using hx)]

/-- Replacing the distinguished middle element on both sides of a
permutation. -/
theorem perm_replace_mid {u v A B : List PageData} {T T1 : PageData}
    (h : (u ++ T :: v).Perm (A ++ T :: B)) : (u ++ T1 :: v).Perm (A ++ T1 :: B) := by
  have h1 : (u ++ T1 :: v).Perm (T1 :: (u ++ v)) := List.perm_middle
  have h2 : (A ++ T1 :: B).Perm (T1 :: (A ++ B)) := List.perm_middle
  refine h1.trans (List.Perm.trans ?_ h2.symm)
  refine List.Perm.cons T1 ?_
  have h3 : (T :: (u ++ v)).Perm (T :: (A ++ B)) :=
    (List.perm_middle.symm.trans h).trans List.perm_middle
  exact h3.cons_inv

/-- Replacing the middle page by one with identical id and links preserves
the chain links. -/
theorem chain'_replace_mid {A B : List PageData} {T T1 : PageData}
    (hid : T1.id = T.id) (hnext : T1.nextPageId = T.nextPageId)
    (hprev : T1.prevPageId = T.prevPageId)
    (h : List.Chain' PageLink (A ++ T :: B)) : List.Chain' PageLink (A ++ T1 :: B) := by
  rw [List.chain'_append] at h ⊢
  obtain ⟨hA, hTB, hlink⟩ := h
  refine ⟨hA, ?_, ?_⟩
  · rw [List.chain'_cons'] at hTB ⊢
    obtain ⟨hTy, hB⟩ := hTB
    refine ⟨?_, hB⟩
    intro y hy
    obtain ⟨h1, h2⟩ := hTy y hy
    refine ⟨by rw [hnext]; exact h1, by rw [h2, hid]⟩
  · intro x hx y hy
    simp only [List.head?_cons, Option.mem_def, Option.some.injEq] at hy
    subst hy
    obtain ⟨h1, h2⟩ := hlink x hx T (by simp)
    exact ⟨by rw [hid]; exact h1, by rw [hprev]; exact h2⟩

theorem headPrev_replace {A B : List PageData} {T T1 : PageData}
    (hprev : T1.prevPageId = T.prevPageId)
    (h : ∀ x, (A ++ T :: B).head? = some x → x.prevPageId = none) :
    ∀ x, (A ++ T1 :: B).head? = some x → x.prevPageId = none := by
  intro x hx
  cases A with
  | nil =>
    simp only [List.nil_append, List.head?_cons] at hx
    injection hx with hx
    subst hx
    rw [hprev]
    exact h T rfl
  | cons a A2 =>
    simp only [List.cons_append, List.head?_cons] at hx
    injection hx with hx
    subst hx
    exact h a rfl

theorem getLast?_append_cons (A : List PageData) (x : PageData) (B : List PageData) :
    (A ++ x :: B).getLast? = (x :: B).getLast? := by
  rw [List.getLast?_append]
  cases hB : (x :: B).getLast? with
  | none => exact absurd hB (by simp)
  | some y => rfl

/-- Decompose `updateFirstById` around the (found) first page with the
given id. -/
theorem updateFirstById_decomp {pages : List PageData} {T : PageData}
    (hfind : pages.find? (fun p => p.id == T.id) = some T)
    (f : PageData → PageData) :
    ∃ u v, pages = u ++ T :: v ∧
      updateFirstById T.id f pages = u ++ f T :: v := by
  induction pages with
  | nil => simp at hfind
  | cons p rest ih =>
    cases hp : (p.id == T.id) with
    | true =>
      simp only [List.find?, hp] at hfind
      injection hfind with hfind
      subst hfind
      exact ⟨[], rest, rfl, by simp [updateFirstById]⟩
    | false =>
      simp only [List.find?, hp] at hfind
      obtain ⟨u, v, hu, hupd⟩ := ih hfind
      refine ⟨p :: u, v, by rw [hu]; rfl, ?_⟩
      simp only [updateFirstById]
      rw [if_neg (by simp [hp]), hupd]
      rfl

/-- Cross-page bounds at the located insert position: every record before the
target page compares `≤ r`, every record after it compares `> r`. -/
theorem insert_bounds {pages : List PageData} {t : IndexType}
    {cmp : RecordData → RecordData → Int} {L A B : List PageData} {T : PageData}
    (r : RecordData)
    (htrans : ∀ a b c, cmp a b ≤ 0 → cmp b c ≤ 0 → cmp a c ≤ 0)
    (hchain : ChainInv pages t cmp L)
    (hsplit : chainLocateSplit cmp r L = some (A, T, B))
    (hdec : L = A ++ T :: B) :
    (∀ a ∈ flatRecs A, cmp a r ≤ 0) ∧ (∀ b ∈ flatRecs B, cmp b r > 0) := by
  have hso := hchain.sorted
  rw [hdec, flatRecs_append, flatRecs_cons] at hso
  obtain ⟨hpA, hrest, hcrossA⟩ := List.pairwise_append.mp hso
  obtain ⟨hpT, hpB, hcrossTB⟩ := List.pairwise_append.mp hrest
  have hS : (A ≠ [] → ∃ rT rs, T.records = rT :: rs ∧ cmp rT r ≤ 0) ∧
      (B ≠ [] → ∃ q B2 r0 rs, B = q :: B2 ∧ q.records = r0 :: rs ∧ cmp r0 r > 0) := by
    by_cases hlen : 1 < L.length
    · exact chainLocateSplit_bounds cmp r L A T B hsplit (hchain.pagesNE hlen)
    · have hAB : A = [] ∧ B = [] := by
        rw [hdec] at hlen
        simp only [List.length_append, List.length_cons] at hlen
        constructor
        · cases A with
          | nil => rfl
          | cons a A2 => simp only [List.length_cons] at hlen; omega
        · cases B with
          | nil => rfl
          | cons b B2 => simp only [List.length_cons] at hlen; omega
      exact ⟨fun hc => absurd hAB.1 hc, fun hc => absurd hAB.2 hc⟩
  constructor
  · intro a ha
    have hAne : A ≠ [] := by
      intro hA
      subst hA
      simp [flatRecs] at ha
    obtain ⟨rT, rs, hTrec, hle⟩ := hS.1 hAne
    have h1 : cmp a rT ≤ 0 := by
      refine hcrossA a ha rT (List.mem_append_left _ ?_)
      rw [hTrec]
      exact List.mem_cons_self rT rs
    exact htrans a rT r h1 hle
  · intro b hb
    have hBne : B ≠ [] := by
      intro hB
      subst hB
      simp [flatRecs] at hb
    obtain ⟨q, B2, r0, rs, hB, hqrec, hgt⟩ := hS.2 hBne
    rw [hB, flatRecs_cons, hqrec] at hb hpB
    simp only [List.cons_append] at hb hpB
    rcases List.mem_cons.mp hb with rfl | hb2
    · exact hgt
    · have hle0 : cmp r0 b ≤ 0 := (List.pairwise_cons.mp hpB).1 b hb2
      by_contra hc
      have hbr : cmp b r ≤ 0 := by omega
      have := htrans r0 b r hle0 hbr
      omega

/-- Core of the no-split insert: replacing the target page's records by the
sorted insertion preserves the chain invariant, and grows the chain's record
multiset by exactly the new record. -/
theorem chain_insert_nosplit {pages : List PageData} {t : IndexType}
    {cmp : RecordData → RecordData → Int} {L A B : List PageData} {T T1 : PageData}
    (r : RecordData)
    (htrans : ∀ a b c, cmp a b ≤ 0 → cmp b c ≤ 0 → cmp a c ≤ 0)
    (htotal : ∀ a b, cmp a b ≤ 0 ∨ cmp b a ≤ 0)
    (hchain : ChainInv pages t cmp L)
    (hsplit : chainLocateSplit cmp r L = some (A, T, B))
    (hdec : L = A ++ T :: B)
    (hfindT : pages.find? (fun p => p.id == T.id) = some T)
    (hid : T1.id = T.id) (htype : T1.indexType = T.indexType)
    (hnext : T1.nextPageId = T.nextPageId) (hprev : T1.prevPageId = T.prevPageId)
    (hrecP : T1.records.Perm (r :: T.records))
    (hrecS : T1.records.Pairwise (fun a b => cmp a b ≤ 0))
    (hrecCap : T1.records.length ≤ PAGE_CAPACITY) :
    ChainInv (updateFirstById T.id (fun _ => T1) pages) t cmp (A ++ T1 :: B) ∧
    (flatRecs (A ++ T1 :: B)).Perm (r :: flatRecs L) ∧
    (updateFirstById T.id (fun _ => T1) pages).map (fun p => p.id) =
      pages.map (fun p => p.id) ∧
    ∀ t2 : IndexType, t2 ≠ t →
      (updateFirstById T.id (fun _ => T1) pages).filter (fun p => p.indexType == t2) =
        pages.filter (fun p => p.indexType == t2) := by
  obtain ⟨u, v, hu, hupd⟩ := updateFirstById_decomp hfindT (fun _ => T1)
  have hTL : T ∈ L := by
    rw [hdec]
    exact List.mem_append_right A (List.mem_cons_self T B)
  have hTtype : T.indexType = t := (hchain.mem_pages hTL).2
  have hbounds := insert_bounds r htrans hchain hsplit hdec
  have hso := hchain.sorted
  rw [hdec, flatRecs_append, flatRecs_cons] at hso
  obtain ⟨hpA, hrest, hcrossA⟩ := List.pairwise_append.mp hso
  obtain ⟨hpT, hpB, hcrossTB⟩ := List.pairwise_append.mp hrest
  have hT1mem : ∀ x ∈ T1.records, x = r ∨ x ∈ T.records := by
    intro x hx
    exact List.mem_cons.mp (hrecP.mem_iff.mp hx)
  have hsorted2 : (flatRecs (A ++ T1 :: B)).Pairwise (fun a b => cmp a b ≤ 0) := by
    rw [flatRecs_append, flatRecs_cons]
    refine List.pairwise_append.mpr ⟨hpA, ?_, ?_⟩
    · refine List.pairwise_append.mpr ⟨hrecS, hpB, ?_⟩
      intro x hx b hb
      rcases hT1mem x hx with rfl | hxT
      · rcases htotal x b with hh | hh
        · exact hh
        · exfalso
          have := hbounds.2 b hb
          omega
      · exact hcrossTB x hxT b hb
    · intro a ha m hm
      rcases List.mem_append.mp hm with hm | hm
      · rcases hT1mem m hm with rfl | hmT
        · exact hbounds.1 a ha
        · exact hcrossA a ha m (List.mem_append_left _ hmT)
      · exact hcrossA a ha m (List.mem_append_right _ hm)
  have hfilter : pages.filter (fun p => p.indexType == t) =
      u.filter (fun p => p.indexType == t) ++ T :: v.filter (fun p => p.indexType == t) := by
    rw [hu]
    exact filter_decomp hTtype
  have hfilter1 : (updateFirstById T.id (fun _ => T1) pages).filter (fun p => p.indexType == t) =
      u.filter (fun p => p.indexType == t) ++ T1 :: v.filter (fun p => p.indexType == t) := by
    rw [hupd]
    exact filter_decomp (by rw [htype]; exact hTtype)
  have hpermL : (pages.filter (fun p => p.indexType == t)).Perm (A ++ T :: B) := by
    have := hchain.perm
    rwa [hdec] at this
  have hperm2 : ((updateFirstById T.id (fun _ => T1) pages).filter
      (fun p => p.indexType == t)).Perm (A ++ T1 :: B) := by
    rw [hfilter1]
    exact @perm_replace_mid _ _ _ _ T T1 (by rw [← hfilter]; exact hpermL)
  have hT1ne : T1.records ≠ [] := by
    intro hc
    have := hrecP.length_eq
    rw [hc] at this
    simp at this
  have hlen2 : (A ++ T1 :: B).length = L.length := by
    rw [hdec]
    simp
  refine ⟨⟨hperm2, by simp, headPrev_replace hprev (hdec ▸ hchain.headPrev),
    chain'_replace_mid hid hnext hprev (hdec ▸ hchain.links), ?_, hsorted2, ?_, ?_⟩,
    ?_, ?_, ?_⟩
  · intro p hp
    rw [getLast?_append_cons] at hp
    have hold := hchain.lastNext
    rw [hdec] at hold
    cases B with
    | nil =>
      simp only [List.getLast?_singleton] at hp
      injection hp with hp
      subst hp
      rw [hnext]
      exact hold T (by rw [getLast?_append_cons]; rfl)
    | cons b B2 =>
      rw [List.getLast?_cons_cons] at hp
      exact hold p (by rw [getLast?_append_cons, List.getLast?_cons_cons]; exact hp)
  · intro hlen p hp
    rw [hlen2] at hlen
    rcases List.mem_append.mp hp with hpA2 | hpTB
    · exact hchain.pagesNE hlen p (by rw [hdec]; exact List.mem_append_left _ hpA2)
    · rcases List.mem_cons.mp hpTB with rfl | hpB2
      · exact hT1ne
      · exact hchain.pagesNE hlen p
          (by rw [hdec]; exact List.mem_append_right _ (List.mem_cons_of_mem _ hpB2))
  · intro p hp
    rcases List.mem_append.mp hp with hpA2 | hpTB
    · exact hchain.cap p (by rw [hdec]; exact List.mem_append_left _ hpA2)
    · rcases List.mem_cons.mp hpTB with rfl | hpB2
      · exact hrecCap
      · exact hchain.cap p
          (by rw [hdec]; exact List.mem_append_right _ (List.mem_cons_of_mem _ hpB2))
  · rw [flatRecs_append, flatRecs_cons, hdec, flatRecs_append, flatRecs_cons]
    refine List.Perm.trans (List.Perm.append_left (flatRecs A)
      (List.Perm.append_right (flatRecs B) hrecP)) ?_
    rw [List.cons_append]
    exact List.perm_middle
  · rw [hupd, hu]
    simp [hid]
  · intro t2 ht2
    rw [hupd, hu]
    rw [filter_decomp_ne (by rw [htype, hTtype]; exact fun hc => ht2 hc.symm),
      filter_decomp_ne (by rw [hTtype]; exact fun hc => ht2 hc.symm)]

/-- Replacing the distinguished middle page (same index type) commutes with
filtering, up to permutation. -/
theorem filter_perm_replace {pages P2 u v M N : List PageData} {T T1 : PageData}
    {t : IndexType}
    (hu : pages = u ++ T :: v) (hupd : P2 = u ++ T1 :: v)
    (hTt : T.indexType = t) (hT1t : T1.indexType = t)
    (hperm : (pages.filter (fun p => p.indexType == t)).Perm (M ++ T :: N)) :
    (P2.filter (fun p => p.indexType == t)).Perm (M ++ T1 :: N) := by
  rw [hupd, filter_decomp hT1t]
  refine @perm_replace_mid _ _ _ _ T T1 ?_
  rw [← filter_decomp hTt, ← hu]
  exact hperm

/-- Head-prev preservation also when the tail behind the replaced page
changes. -/
theorem headPrev_replace2 {A B B2 : List PageData} {T T1 : PageData}
    (hprev : T1.prevPageId = T.prevPageId)
    (h : ∀ x, (A ++ T :: B).head? = some x → x.prevPageId = none) :
    ∀ x, (A ++ T1 :: B2).head? = some x → x.prevPageId = none := by
  intro x hx
  cases A with
  | nil =>
    simp only [List.nil_append, List.head?_cons] at hx
    injection hx with hx
    subst hx
    rw [hprev]
    exact h T rfl
  | cons a A2 =>
    simp only [List.cons_append, List.head?_cons] at hx
    injection hx with hx
    subst hx
    exact h a rfl

/-- Splitting the last chain page preserves the links. -/
theorem chain'_split_tail {A : List PageData} {T Tk NP : PageData}
    (hkid : Tk.id = T.id) (hkprev : Tk.prevPageId = T.prevPageId)
    (hknext : Tk.nextPageId = some NP.id) (hnpprev : NP.prevPageId = some Tk.id)
    (h : List.Chain' PageLink (A ++ [T])) :
    List.Chain' PageLink (A ++ [Tk, NP]) := by
  rw [List.chain'_append] at h ⊢
  obtain ⟨hA, _, hlink⟩ := h
  refine ⟨hA, ?_, ?_⟩
  · rw [List.chain'_cons]
    exact ⟨⟨hknext, hnpprev⟩, List.chain'_singleton NP⟩
  · intro x hx y hy
    simp only [List.head?_cons, Option.mem_def, Option.some.injEq] at hy
    subst hy
    obtain ⟨h1, h2⟩ := hlink x hx T (by simp)
    exact ⟨by rw [hkid]; exact h1, by rw [hkprev]; exact h2⟩

/-- Splitting a middle chain page preserves the links. -/
theorem chain'_split_mid {A B2 : List PageData} {T Tk NP q q' : PageData}
    (hkid : Tk.id = T.id) (hkprev : Tk.prevPageId = T.prevPageId)
    (hknext : Tk.nextPageId = some NP.id) (hnpprev : NP.prevPageId = some Tk.id)
    (hnpnext : NP.nextPageId = some q'.id) (hq'id : q'.id = q.id)
    (hq'next : q'.nextPageId = q.nextPageId) (hq'prev : q'.prevPageId = some NP.id)
    (h : List.Chain' PageLink (A ++ T :: q :: B2)) :
    List.Chain' PageLink (A ++ Tk :: NP :: q' :: B2) := by
  rw [List.chain'_append] at h ⊢
  obtain ⟨hA, hTB, hlink⟩ := h
  rw [List.chain'_cons] at hTB
  obtain ⟨hTq, hqB⟩ := hTB
  rw [List.chain'_cons'] at hqB
  obtain ⟨hqy, hB2⟩ := hqB
  refine ⟨hA, ?_, ?_⟩
  · rw [List.chain'_cons]
    refine ⟨⟨hknext, hnpprev⟩, ?_⟩
    rw [List.chain'_cons]
    refine ⟨⟨hnpnext, hq'prev⟩, ?_⟩
    rw [List.chain'_cons']
    refine ⟨?_, hB2⟩
    intro y hy
    obtain ⟨h1, h2⟩ := hqy y hy
    exact ⟨by rw [hq'next]; exact h1, by rw [h2, hq'id]⟩
  · intro x hx y hy
    simp only [List.head?_cons, Option.mem_def, Option.some.injEq] at hy
    subst hy
    obtain ⟨h1, h2⟩ := hlink x hx T (by simp)
    exact ⟨by rw [hkid]; exact h1, by rw [hkprev]; exact h2⟩

/-- Core of the split insert when the target page is the LAST chain page:
the chain grows a new tail page and the invariant is preserved. -/
theorem chain_insert_split_tail {pages : List PageData} {t : IndexType}
    {cmp : RecordData → RecordData → Int} {L A : List PageData} {T Tk NP : PageData}
    (r : RecordData)
    (htrans : ∀ a b c, cmp a b ≤ 0 → cmp b c ≤ 0 → cmp a c ≤ 0)
    (hchain : ChainInv pages t cmp L)
    (hsplit : chainLocateSplit cmp r L = some (A, T, []))
    (hdec : L = A ++ [T])
    (hfindT : pages.find? (fun p => p.id == T.id) = some T)
    (hkid : Tk.id = T.id) (hktype : Tk.indexType = T.indexType)
    (hkprev : Tk.prevPageId = T.prevPageId) (hknext : Tk.nextPageId = some NP.id)
    (hnptype : NP.indexType = t) (hnpprev : NP.prevPageId = some T.id)
    (hnpnextT : NP.nextPageId = T.nextPageId)
    (hrecP : (Tk.records ++ NP.records).Perm (r :: T.records))
    (hrecS : (Tk.records ++ NP.records).Pairwise (fun a b => cmp a b ≤ 0))
    (hkcap : Tk.records.length ≤ PAGE_CAPACITY) (hkne : Tk.records ≠ [])
    (hncap : NP.records.length ≤ PAGE_CAPACITY) (hnne : NP.records ≠ []) :
    ChainInv (updateFirstById T.id (fun _ => Tk) pages ++ [NP]) t cmp (A ++ [Tk, NP]) ∧
    (flatRecs (A ++ [Tk, NP])).Perm (r :: flatRecs L) ∧
    (updateFirstById T.id (fun _ => Tk) pages ++ [NP]).map (fun p => p.id) =
      pages.map (fun p => p.id) ++ [NP.id] ∧
    ∀ t2 : IndexType, t2 ≠ t →
      (updateFirstById T.id (fun _ => Tk) pages ++ [NP]).filter (fun p => p.indexType == t2) =
        pages.filter (fun p => p.indexType == t2) := by
  obtain ⟨u, v, hu, hupd⟩ := updateFirstById_decomp hfindT (fun _ => Tk)
  have hTL : T ∈ L := by
    rw [hdec]
    exact List.mem_append_right A (List.mem_cons_self T [])
  have hTtype : T.indexType = t := (hchain.mem_pages hTL).2
  have hktype2 : Tk.indexType = t := by rw [hktype]; exact hTtype
  have hbounds := insert_bounds r htrans hchain hsplit hdec
  have hso := hchain.sorted
  rw [hdec, flatRecs_append] at hso
  simp only [flatRecs, List.append_nil] at hso
  obtain ⟨hpA, hpT, hcrossA⟩ := List.pairwise_append.mp hso
  have hUmem : ∀ x ∈ Tk.records ++ NP.records, x = r ∨ x ∈ T.records := by
    intro x hx
    exact List.mem_cons.mp (hrecP.mem_iff.mp hx)
  have hsorted2 : (flatRecs (A ++ [Tk, NP])).Pairwise (fun a b => cmp a b ≤ 0) := by
    rw [flatRecs_append]
    simp only [flatRecs, List.append_nil]
    refine List.pairwise_append.mpr ⟨hpA, hrecS, ?_⟩
    intro a ha x hx
    rcases hUmem x hx with rfl | hxT
    · exact hbounds.1 a ha
    · exact hcrossA a ha x hxT
  have hTlast : T.nextPageId = none := by
    have hl := hchain.lastNext
    rw [hdec] at hl
    exact hl T (by rw [getLast?_append_cons]; rfl)
  have hpermL : (pages.filter (fun p => p.indexType == t)).Perm (A ++ [T]) := by
    have hp := hchain.perm
    rwa [hdec] at hp
  have hperm2 : ((updateFirstById T.id (fun _ => Tk) pages).filter
      (fun p => p.indexType == t)).Perm (A ++ [Tk]) :=
    filter_perm_replace hu hupd hTtype hktype2 hpermL
  have hpermF : ((updateFirstById T.id (fun _ => Tk) pages ++ [NP]).filter
      (fun p => p.indexType == t)).Perm (A ++ [Tk, NP]) := by
    rw [List.filter_append, List.filter_cons_of_pos (by simpa using hnptype),
      List.filter_nil]
    refine (List.Perm.append_right [NP] hperm2).trans ?_
    rw [List.append_assoc]
    exact List.Perm.refl _
  refine ⟨⟨hpermF, by simp, headPrev_replace2 hkprev (hdec ▸ hchain.headPrev),
    chain'_split_tail hkid hkprev hknext (by rw [hkid]; exact hnpprev)
      (hdec ▸ hchain.links), ?_, hsorted2, ?_, ?_⟩, ?_, ?_, ?_⟩
  · intro p hp
    rw [getLast?_append_cons, List.getLast?_cons_cons] at hp
    simp only [List.getLast?_singleton] at hp
    injection hp with hp
    subst hp
    rw [hnpnextT, hTlast]
  · intro _ p hp
    rcases List.mem_append.mp hp with hpA2 | hpTN
    · have hlen : 1 < L.length := by
        rw [hdec]
        rcases A with _ | ⟨a, A2⟩
        · simp at hpA2
        · simp only [List.cons_append, List.length_cons, List.length_append,
            List.length_nil]
          omega
      exact hchain.pagesNE hlen p (by rw [hdec]; exact List.mem_append_left _ hpA2)
    · rcases List.mem_cons.mp hpTN with rfl | hpN
      · exact hkne
      · rcases List.mem_cons.mp hpN with rfl | hpnil
        · exact hnne
        · simp at hpnil
  · intro p hp
    rcases List.mem_append.mp hp with hpA2 | hpTN
    · exact hchain.cap p (by rw [hdec]; exact List.mem_append_left _ hpA2)
    · rcases List.mem_cons.mp hpTN with rfl | hpN
      · exact hkcap
      · rcases List.mem_cons.mp hpN with rfl | hpnil
        · exact hncap
        · simp at hpnil
  · rw [flatRecs_append, hdec, flatRecs_append]
    simp only [flatRecs, List.append_nil]
    refine (List.Perm.append_left (flatRecs A) hrecP).trans ?_
    exact List.perm_middle
  · rw [hupd, hu]
    simp [hkid]
  · intro t2 ht2
    rw [List.filter_append,
      List.filter_cons_of_neg (by simp only [beq_iff_eq, hnptype]; exact fun hc => ht2 hc.symm),
      List.filter_nil, List.append_nil]
    rw [hupd, hu, filter_decomp_ne (by rw [hktype2]; exact fun hc => ht2 hc.symm),
      filter_decomp_ne (by rw [hTtype]; exact fun hc => ht2 hc.symm)]

/-- Appending a singleton and moving it to the middle. -/
theorem perm_insert_after {α : Type} (X Y : List α) (a : α) :
    ((X ++ Y) ++ [a]).Perm (X ++ a :: Y) := by
  refine (List.perm_append_singleton a _).trans ?_
  exact List.perm_middle.symm

/-- Core of the split insert when the target page has a successor page `q`:
the new page is spliced between them and the invariant is preserved. -/
theorem chain_insert_split_mid {pages : List PageData} {t : IndexType}
    {cmp : RecordData → RecordData → Int} {L A B2 : List PageData} {T Tk NP q : PageData}
    {f : PageData → PageData}
    (r : RecordData)
    (htrans : ∀ a b c, cmp a b ≤ 0 → cmp b c ≤ 0 → cmp a c ≤ 0)
    (htotal : ∀ a b, cmp a b ≤ 0 ∨ cmp b a ≤ 0)
    (hchain : ChainInv pages t cmp L)
    (hnd : (pages.map (fun p => p.id)).Nodup)
    (hsplit : chainLocateSplit cmp r L = some (A, T, q :: B2))
    (hdec : L = A ++ T :: q :: B2)
    (hfindT : pages.find? (fun p => p.id == T.id) = some T)
    (hkid : Tk.id = T.id) (hktype : Tk.indexType = T.indexType)
    (hkprev : Tk.prevPageId = T.prevPageId) (hknext : Tk.nextPageId = some NP.id)
    (hnptype : NP.indexType = t) (hnpprev : NP.prevPageId = some T.id)
    (hnpnextT : NP.nextPageId = T.nextPageId)
    (hfid : (f q).id = q.id) (hftype : (f q).indexType = q.indexType)
    (hfrec : (f q).records = q.records) (hfnext : (f q).nextPageId = q.nextPageId)
    (hfprev : (f q).prevPageId = some NP.id)
    (hrecP : (Tk.records ++ NP.records).Perm (r :: T.records))
    (hrecS : (Tk.records ++ NP.records).Pairwise (fun a b => cmp a b ≤ 0))
    (hkcap : Tk.records.length ≤ PAGE_CAPACITY) (hkne : Tk.records ≠ [])
    (hncap : NP.records.length ≤ PAGE_CAPACITY) (hnne : NP.records ≠ []) :
    ChainInv (updateFirstById q.id f (updateFirstById T.id (fun _ => Tk) pages) ++ [NP])
      t cmp (A ++ Tk :: NP :: f q :: B2) ∧
    (flatRecs (A ++ Tk :: NP :: f q :: B2)).Perm (r :: flatRecs L) ∧
    (updateFirstById q.id f (updateFirstById T.id (fun _ => Tk) pages) ++ [NP]).map
      (fun p => p.id) = pages.map (fun p => p.id) ++ [NP.id] ∧
    ∀ t2 : IndexType, t2 ≠ t →
      (updateFirstById q.id f (updateFirstById T.id (fun _ => Tk) pages) ++ [NP]).filter
        (fun p => p.indexType == t2) = pages.filter (fun p => p.indexType == t2) := by
  obtain ⟨u, v, hu, hupd⟩ := updateFirstById_decomp hfindT (fun _ => Tk)
  have hTL : T ∈ L := by
    rw [hdec]
    exact List.mem_append_right A (List.mem_cons_self T (q :: B2))
  have hqL : q ∈ L := by
    rw [hdec]
    exact List.mem_append_right A (List.mem_cons_of_mem T (List.mem_cons_self q B2))
  have hTtype : T.indexType = t := (hchain.mem_pages hTL).2
  have hqtype : q.indexType = t := (hchain.mem_pages hqL).2
  have hktype2 : Tk.indexType = t := by rw [hktype]; exact hTtype
  have hftype2 : (f q).indexType = t := by rw [hftype]; exact hqtype
  have hLnd := hchain.ids_nodup hnd
  have hqTne : q.id ≠ T.id := by
    intro hEq
    rw [hdec] at hLnd
    simp only [List.map_append, List.map_cons] at hLnd
    have h2 := (List.nodup_append.mp hLnd).2.1
    rw [List.nodup_cons] at h2
    exact h2.1 (by rw [hEq]; exact List.mem_cons_self _ _)
  have hq_pages : q ∈ pages := (hchain.mem_pages hqL).1
  have hqneT : q ≠ T := fun hc => hqTne (by rw [hc])
  have hids2 : (updateFirstById T.id (fun _ => Tk) pages).map (fun p => p.id) =
      pages.map (fun p => p.id) := by
    rw [hupd, hu]
    simp [hkid]
  have hnd2 : ((updateFirstById T.id (fun _ => Tk) pages).map (fun p => p.id)).Nodup := by
    rw [hids2]
    exact hnd
  have hq2 : q ∈ updateFirstById T.id (fun _ => Tk) pages := by
    rw [hupd]
    rw [hu] at hq_pages
    rcases List.mem_append.mp hq_pages with h1 | h2
    · exact List.mem_append_left _ h1
    · rcases List.mem_cons.mp h2 with h3 | h3
      · exact absurd h3 hqneT
      · exact List.mem_append_right _ (List.mem_cons_of_mem _ h3)
  have hfindq : (updateFirstById T.id (fun _ => Tk) pages).find? (fun p => p.id == q.id) =
      some q := find?_eq_of_nodup hnd2 hq2
  obtain ⟨u2, v2, hu2, hupd2⟩ := updateFirstById_decomp hfindq f
  have hTnext : T.nextPageId = some q.id := by
    have hl := hchain.links
    rw [hdec, List.chain'_append] at hl
    have hl2 := hl.2.1
    rw [List.chain'_cons] at hl2
    exact hl2.1.1
  have hnpnextq : NP.nextPageId = some (f q).id := by
    rw [hnpnextT, hTnext, hfid]
  have hbounds := insert_bounds r htrans hchain hsplit hdec
  have hso := hchain.sorted
  rw [hdec, flatRecs_append] at hso
  simp only [flatRecs] at hso
  obtain ⟨hpA, hrest, hcrossA⟩ := List.pairwise_append.mp hso
  obtain ⟨hpT, hpQB, hcrossTQB⟩ := List.pairwise_append.mp hrest
  have hUmem : ∀ x ∈ Tk.records ++ NP.records, x = r ∨ x ∈ T.records := by
    intro x hx
    exact List.mem_cons.mp (hrecP.mem_iff.mp hx)
  have hsorted2 : (flatRecs (A ++ Tk :: NP :: f q :: B2)).Pairwise
      (fun a b => cmp a b ≤ 0) := by
    rw [flatRecs_append]
    simp only [flatRecs, hfrec]
    rw [← List.append_assoc Tk.records NP.records]
    refine List.pairwise_append.mpr ⟨hpA, ?_, ?_⟩
    · refine List.pairwise_append.mpr ⟨hrecS, hpQB, ?_⟩
      intro x hx b hb
      rcases hUmem x hx with rfl | hxT
      · rcases htotal x b with hh | hh
        · exact hh
        · exfalso
          have hgt := hbounds.2 b hb
          omega
      · exact hcrossTQB x hxT b hb
    · intro a ha m hm
      rcases List.mem_append.mp hm with hm | hm
      · rcases hUmem m hm with rfl | hmT
        · exact hbounds.1 a ha
        · exact hcrossA a ha m (List.mem_append_left _ hmT)
      · exact hcrossA a ha m (List.mem_append_right _ hm)
  have hlen : 1 < L.length := by
    rw [hdec]
    simp only [List.length_append, List.length_cons]
    omega
  have hpermL : (pages.filter (fun p => p.indexType == t)).Perm (A ++ T :: q :: B2) := by
    have hp := hchain.perm
    rwa [hdec] at hp
  have hperm2 : ((updateFirstById T.id (fun _ => Tk) pages).filter
      (fun p => p.indexType == t)).Perm (A ++ Tk :: q :: B2) :=
    filter_perm_replace hu hupd hTtype hktype2 hpermL
  have hperm3 : ((updateFirstById q.id f (updateFirstById T.id (fun _ => Tk) pages)).filter
      (fun p => p.indexType == t)).Perm ((A ++ [Tk]) ++ f q :: B2) := by
    refine filter_perm_replace hu2 hupd2 hqtype hftype2 ?_
    rw [← List.append_cons A Tk (q :: B2)]
    exact hperm2
  have hpermF : ((updateFirstById q.id f (updateFirstById T.id (fun _ => Tk) pages) ++
      [NP]).filter (fun p => p.indexType == t)).Perm (A ++ Tk :: NP :: f q :: B2) := by
    rw [List.filter_append, List.filter_cons_of_pos (by simpa using hnptype),
      List.filter_nil]
    refine (List.Perm.append_right [NP] hperm3).trans ?_
    rw [List.append_cons A Tk (NP :: f q :: B2)]
    exact perm_insert_after (A ++ [Tk]) (f q :: B2) NP
  refine ⟨⟨hpermF, by simp, headPrev_replace2 hkprev (hdec ▸ hchain.headPrev),
    chain'_split_mid hkid hkprev hknext (by rw [hkid]; exact hnpprev) hnpnextq hfid
      hfnext hfprev (hdec ▸ hchain.links), ?_, hsorted2, ?_, ?_⟩, ?_, ?_, ?_⟩
  · intro p hp
    rw [getLast?_append_cons, List.getLast?_cons_cons, List.getLast?_cons_cons] at hp
    have hold := hchain.lastNext
    rw [hdec] at hold
    cases B2 with
    | nil =>
      simp only [List.getLast?_singleton] at hp
      injection hp with hp
      subst hp
      rw [hfnext]
      exact hold q (by rw [getLast?_append_cons, List.getLast?_cons_cons]; rfl)
    | cons b B3 =>
      rw [List.getLast?_cons_cons] at hp
      exact hold p (by rw [getLast?_append_cons, List.getLast?_cons_cons,
        List.getLast?_cons_cons]; exact hp)
  · intro _ p hp
    rcases List.mem_append.mp hp with hpA2 | hpR
    · exact hchain.pagesNE hlen p (by rw [hdec]; exact List.mem_append_left _ hpA2)
    · rcases List.mem_cons.mp hpR with rfl | hpR
      · exact hkne
      · rcases List.mem_cons.mp hpR with rfl | hpR
        · exact hnne
        · rcases List.mem_cons.mp hpR with rfl | hpR
          · rw [hfrec]
            exact hchain.pagesNE hlen q hqL
          · exact hchain.pagesNE hlen p (by
              rw [hdec]
              exact List.mem_append_right _
                (List.mem_cons_of_mem _ (List.mem_cons_of_mem _ hpR)))
  · intro p hp
    rcases List.mem_append.mp hp with hpA2 | hpR
    · exact hchain.cap p (by rw [hdec]; exact List.mem_append_left _ hpA2)
    · rcases List.mem_cons.mp hpR with rfl | hpR
      · exact hkcap
      · rcases List.mem_cons.mp hpR with rfl | hpR
        · exact hncap
        · rcases List.mem_cons.mp hpR with rfl | hpR
          · rw [hfrec]
            exact hchain.cap q hqL
          · exact hchain.cap p (by
              rw [hdec]
              exact List.mem_append_right _
                (List.mem_cons_of_mem _ (List.mem_cons_of_mem _ hpR)))
  · rw [flatRecs_append, hdec, flatRecs_append]
    simp only [flatRecs, hfrec]
    rw [← List.append_assoc Tk.records NP.records]
    refine (List.Perm.append_left (flatRecs A)
      (List.Perm.append_right _ hrecP)).trans ?_
    rw [List.cons_append]
    exact List.perm_middle
  · rw [List.map_append, hupd2, ← hids2, hu2]
    simp [hfid]
  · intro t2 ht2
    have hfqne : (f q).indexType ≠ t2 := by
      rw [hftype2]
      exact fun hc => ht2 hc.symm
    have hqne2 : q.indexType ≠ t2 := by
      rw [hqtype]
      exact fun hc => ht2 hc.symm
    have hkne2 : Tk.indexType ≠ t2 := by
      rw [hktype2]
      exact fun hc => ht2 hc.symm
    have hTne2 : T.indexType ≠ t2 := by
      rw [hTtype]
      exact fun hc => ht2 hc.symm
    rw [List.filter_append,
      List.filter_cons_of_neg (by simp only [beq_iff_eq, hnptype]; exact fun hc => ht2 hc.symm),
      List.filter_nil, List.append_nil]
    rw [hupd2, filter_decomp_ne hfqne, ← filter_decomp_ne hqne2, ← hu2, hupd,
      filter_decomp_ne hkne2, ← filter_decomp_ne hTne2, ← hu]

/-- Id bookkeeping when a fresh page id `counter + 1` is appended. -/
theorem ids_append_nodup {P : List PageData} {NPid counter : Int}
    (hnd : (P.map (fun p => p.id)).Nodup)
    (hle : ∀ p ∈ P, p.id ≤ counter)
    {P2 : List PageData}
    (hmap : P2.map (fun p => p.id) = P.map (fun p => p.id) ++ [NPid])
    (hNP : NPid = counter + 1) :
    (P2.map (fun p => p.id)).Nodup ∧ ∀ p ∈ P2, p.id ≤ counter + 1 := by
  constructor
  · rw [hmap, List.nodup_append]
    refine ⟨hnd, List.nodup_singleton _, ?_⟩
    intro x hx hx2
    simp only [List.mem_singleton] at hx2
    obtain ⟨p0, hp0, hEq⟩ := List.mem_map.mp hx
    have := hle p0 hp0
    subst hx2
    omega
  · intro p hp
    have hpid : p.id ∈ P2.map (fun p => p.id) := List.mem_map_of_mem _ hp
    rw [hmap] at hpid
    rcases List.mem_append.mp hpid with h1 | h2
    · obtain ⟨p0, hp0, hEq⟩ := List.mem_map.mp h1
      have := hle p0 hp0
      omega
    · simp only [List.mem_singleton] at h2
      omega

/-- Id bookkeeping when the page ids are unchanged. -/
theorem ids_eq_nodup {P P2 : List PageData} {counter : Int}
    (hnd : (P.map (fun p => p.id)).Nodup)
    (hle : ∀ p ∈ P, p.id ≤ counter)
    (hmap : P2.map (fun p => p.id) = P.map (fun p => p.id)) :
    (P2.map (fun p => p.id)).Nodup ∧ ∀ p ∈ P2, p.id ≤ counter := by
  constructor
  · rw [hmap]
    exact hnd
  · intro p hp
    have hpid : p.id ∈ P2.map (fun p => p.id) := List.mem_map_of_mem _ hp
    rw [hmap] at hpid
    obtain ⟨p0, hp0, hEq⟩ := List.mem_map.mp hpid
    have := hle p0 hp0
    omega

theorem mem_flatRecs {x : RecordData} {p : PageData} : ∀ {L : List PageData},
    p ∈ L → x ∈ p.records → x ∈ flatRecs L := by
  intro L
  induction L with
  | nil => intro h; simp at h
  | cons a rest ih =>
    intro hp hx
    rcases List.mem_cons.mp hp with rfl | hp2
    · exact List.mem_append_left _ hx
    · exact List.mem_append_right _ (ih hp2 hx)

/-- A successful insert of a record that is no primary duplicate: the call
succeeds, the chain invariant is preserved, and the chain gains exactly the
new record. -/
theorem insertIntoIndex_fresh {pages : List PageData} {t : IndexType}
    {cmp : RecordData → RecordData → Int} {L : List PageData}
    (r : RecordData) (counter : Int) (logs : List LogEntry)
    (htrans : ∀ a b c, cmp a b ≤ 0 → cmp b c ≤ 0 → cmp a c ≤ 0)
    (htotal : ∀ a b, cmp a b ≤ 0 ∨ cmp b a ≤ 0)
    (hchain : ChainInv pages t cmp L)
    (hnd : (pages.map (fun p => p.id)).Nodup)
    (hle : ∀ p ∈ pages, p.id ≤ counter)
    (hfresh : t = .PRIMARY → ∀ x ∈ flatRecs L, x.id ≠ r.id) :
    ∃ res : InsertResult, insertIntoIndex pages t r cmp counter logs = some res ∧
      ∃ L2, ChainInv res.pages t cmp L2 ∧
        (flatRecs L2).Perm (r :: flatRecs L) ∧
        (res.pages.map (fun p => p.id)).Nodup ∧
        (∀ p ∈ res.pages, p.id ≤ res.newPageCounter) ∧
        counter ≤ res.newPageCounter ∧
        (∀ t2 : IndexType, t2 ≠ t →
          res.pages.filter (fun p => p.indexType == t2) =
            pages.filter (fun p => p.indexType == t2)) ∧
        (res.logs = logs ∨
          ∃ m1 l1 m2 l2, res.logs = addLog (addLog logs m1 l1) m2 l2) := by
  obtain ⟨A, T, B, hsplit, hdec, hloc, hfindT, hTpages, hTtype⟩ :=
    locateTarget_of_chain r hchain hnd
  have hTL : T ∈ L := by
    rw [hdec]
    exact List.mem_append_right A (List.mem_cons_self T B)
  have hTcap := hchain.cap T hTL
  simp only [PAGE_CAPACITY] at hTcap
  have hdup : (t == IndexType.PRIMARY && T.records.any (fun x => x.id == r.id)) = false := by
    cases ht : t == IndexType.PRIMARY with
    | false => rw [Bool.false_and]
    | true =>
      rw [Bool.true_and, List.any_eq_false]
      intro x hx
      have hx2 : x ∈ flatRecs L := mem_flatRecs hTL hx
      have hne := hfresh (by simpa using ht) x hx2
      simpa using hne
  have hUperm : (jsSort cmp (T.records ++ [r])).Perm (r :: T.records) :=
    (jsSort_perm cmp _).trans (List.perm_append_singleton r T.records)
  have hUsorted := jsSort_pairwise cmp htrans htotal (T.records ++ [r])
  have hUlen : (jsSort cmp (T.records ++ [r])).length = T.records.length + 1 := by
    simp [jsSort_length]
  by_cases hbig : (jsSort cmp (T.records ++ [r])).length > PAGE_CAPACITY
  · -- split branch
    simp only [PAGE_CAPACITY] at hbig
    have hU5 : (jsSort cmp (T.records ++ [r])).length = 5 := by omega
    have hkeep_len : ((jsSort cmp (T.records ++ [r])).take 3).length = 3 := by
      rw [List.length_take, hU5]
      decide
    have hmove_len : ((jsSort cmp (T.records ++ [r])).drop 3).length = 2 := by
      rw [List.length_drop, hU5]
    have hkne : (jsSort cmp (T.records ++ [r])).take 3 ≠ [] := by
      refine List.length_pos.mp ?_
      rw [hkeep_len]
      omega
    have hnne : (jsSort cmp (T.records ++ [r])).drop 3 ≠ [] := by
      refine List.length_pos.mp ?_
      rw [hmove_len]
      omega
    have hkcap : ((jsSort cmp (T.records ++ [r])).take 3).length ≤ PAGE_CAPACITY := by
      rw [hkeep_len]
      decide
    have hncap : ((jsSort cmp (T.records ++ [r])).drop 3).length ≤ PAGE_CAPACITY := by
      rw [hmove_len]
      decide
    have hrecP : ((jsSort cmp (T.records ++ [r])).take 3 ++
        (jsSort cmp (T.records ++ [r])).drop 3).Perm (r :: T.records) := by
      rw [List.take_append_drop]
      exact hUperm
    have hrecS : ((jsSort cmp (T.records ++ [r])).take 3 ++
        (jsSort cmp (T.records ++ [r])).drop 3).Pairwise (fun a b => cmp a b ≤ 0) := by
      rw [List.take_append_drop]
      exact hUsorted
    cases hnextT : T.nextPageId with
    | none =>
      cases B with
      | cons q B2 =>
        exfalso
        have hl := hchain.links
        rw [hdec, List.chain'_append] at hl
        have hl2 := hl.2.1
        rw [List.chain'_cons] at hl2
        rw [hl2.1.1] at hnextT
        exact Option.noConfusion hnextT
      | nil =>
        have hrun : insertIntoIndex pages t r cmp counter logs = some
            ⟨updateFirstById T.id (fun _ => { T with
                records := (jsSort cmp (T.records ++ [r])).take 3
                isDirty := true
                isSplitting := true
                nextPageId := some (counter + 1) }) pages ++
              [{ id := counter + 1, indexType := t,
                 records := (jsSort cmp (T.records ++ [r])).drop 3,
                 nextPageId := T.nextPageId, prevPageId := some T.id,
                 isDirty := true, isSplitting := false, isHighlighted := false }],
             counter + 1,
             addLog (addLog logs (splitStartMsg t T.id) .warning)
               (splitDoneMsg t T.id (counter + 1)) .success⟩ := by
          simp only [insertIntoIndex, hloc, hfindT, hdup, Bool.false_eq_true, if_false,
            hU5, PAGE_CAPACITY, hnextT]
          norm_num
        have hcore := @chain_insert_split_tail pages t cmp L A T
          ({ T with
             records := (jsSort cmp (T.records ++ [r])).take 3
             isDirty := true
             isSplitting := true
             nextPageId := some (counter + 1) })
          ({ id := counter + 1, indexType := t,
             records := (jsSort cmp (T.records ++ [r])).drop 3,
             nextPageId := T.nextPageId, prevPageId := some T.id,
             isDirty := true, isSplitting := false, isHighlighted := false })
          r htrans hchain hsplit hdec hfindT rfl rfl rfl rfl rfl rfl
          (by rw [hnextT]) hrecP hrecS hkcap hkne hncap hnne
        have hpack := ids_append_nodup hnd hle hcore.2.2.1 rfl
        have hcle : counter ≤ counter + 1 := by omega
        exact ⟨_, hrun, _, hcore.1, hcore.2.1, hpack.1, hpack.2, hcle, hcore.2.2.2,
          Or.inr ⟨splitStartMsg t T.id, .warning,
            splitDoneMsg t T.id (counter + 1), .success, rfl⟩⟩
    | some nn =>
      cases B with
      | nil =>
        exfalso
        have hl := hchain.lastNext
        rw [hdec] at hl
        have := hl T (by rw [getLast?_append_cons]; rfl)
        rw [this] at hnextT
        exact Option.noConfusion hnextT
      | cons q B2 =>
        have hTnext : T.nextPageId = some q.id := by
          have hl := hchain.links
          rw [hdec, List.chain'_append] at hl
          have hl2 := hl.2.1
          rw [List.chain'_cons] at hl2
          exact hl2.1.1
        have hnnq : nn = q.id := by
          rw [hnextT] at hTnext
          injection hTnext
        subst hnnq
        have hrun : insertIntoIndex pages t r cmp counter logs = some
            ⟨updateFirstById q.id (fun p => { p with prevPageId := some (counter + 1) })
              (updateFirstById T.id (fun _ => { T with
                records := (jsSort cmp (T.records ++ [r])).take 3
                isDirty := true
                isSplitting := true
                nextPageId := some (counter + 1) }) pages) ++
              [{ id := counter + 1, indexType := t,
                 records := (jsSort cmp (T.records ++ [r])).drop 3,
                 nextPageId := T.nextPageId, prevPageId := some T.id,
                 isDirty := true, isSplitting := false, isHighlighted := false }],
             counter + 1,
             addLog (addLog logs (splitStartMsg t T.id) .warning)
               (splitDoneMsg t T.id (counter + 1)) .success⟩ := by
          simp only [insertIntoIndex, hloc, hfindT, hdup, Bool.false_eq_true, if_false,
            hU5, PAGE_CAPACITY, hnextT]
          norm_num
        have hcore := @chain_insert_split_mid pages t cmp L A B2 T
          ({ T with
             records := (jsSort cmp (T.records ++ [r])).take 3
             isDirty := true
             isSplitting := true
             nextPageId := some (counter + 1) })
          ({ id := counter + 1, indexType := t,
             records := (jsSort cmp (T.records ++ [r])).drop 3,
             nextPageId := T.nextPageId, prevPageId := some T.id,
             isDirty := true, isSplitting := false, isHighlighted := false })
          q (fun p => { p with prevPageId := some (counter + 1) })
          r htrans htotal hchain hnd hsplit hdec hfindT rfl rfl rfl rfl rfl rfl
          (by rw [hnextT]) rfl rfl rfl rfl rfl hrecP hrecS hkcap hkne hncap hnne
        have hpack := ids_append_nodup hnd hle hcore.2.2.1 rfl
        have hcle : counter ≤ counter + 1 := by omega
        exact ⟨_, hrun, _, hcore.1, hcore.2.1, hpack.1, hpack.2, hcle, hcore.2.2.2,
          Or.inr ⟨splitStartMsg t T.id, .warning,
            splitDoneMsg t T.id (counter + 1), .success, rfl⟩⟩
  · -- no-split branch
    have hrun : insertIntoIndex pages t r cmp counter logs = some
        ⟨updateFirstById T.id (fun _ => { T with
            records := jsSort cmp (T.records ++ [r])
            isDirty := true
            isSplitting := false }) pages, counter, logs⟩ := by
      simp only [insertIntoIndex, hloc, hfindT, hdup, Bool.false_eq_true, if_false]
      rw [if_neg hbig]
    have hcore := @chain_insert_nosplit pages t cmp L A B T
      ({ T with
         records := jsSort cmp (T.records ++ [r])
         isDirty := true
         isSplitting := false })
      r htrans htotal hchain hsplit hdec hfindT rfl rfl rfl rfl hUperm hUsorted
      (by simp only [PAGE_CAPACITY] at hbig ⊢; omega)
    have hpack := ids_eq_nodup hnd hle hcore.2.2.1
    exact ⟨_, hrun, _, hcore.1, hcore.2.1, hpack.1, hpack.2, le_refl counter,
      hcore.2.2.2, Or.inl rfl⟩

/-- Inserting an id that already exists in the primary chain: the call returns
the pages and counter unchanged, with exactly the duplicate-key error logged. -/
theorem insertIntoIndex_dup {pages : List PageData} {L : List PageData}
    (r : RecordData) (counter : Int) (logs : List LogEntry)
    (hchain : ChainInv pages .PRIMARY cmpPrimary L)
    (hnd : (pages.map (fun p => p.id)).Nodup)
    (hndflat : ((flatRecs L).map (fun x => x.id)).Nodup)
    (hmem : ∃ x ∈ flatRecs L, x.id = r.id) :
    insertIntoIndex pages .PRIMARY r cmpPrimary counter logs =
      some ⟨pages, counter, addLog logs (dupMsg r.id) .error⟩ := by
  obtain ⟨A, T, B, hsplit, hdec, hloc, hfindT, hTpages, hTtype⟩ :=
    locateTarget_of_chain r hchain hnd
  obtain ⟨x, hx, hxid⟩ := hmem
  have hbounds := insert_bounds r cmpPrimary_le_trans hchain hsplit hdec
  have hxT : x ∈ T.records := by
    rw [hdec, flatRecs_append, flatRecs_cons] at hx
    rcases List.mem_append.mp hx with hxA | hxTB
    · exfalso
      have hAne : A ≠ [] := by
        intro h
        subst h
        simp [flatRecs] at hxA
      have hS : ∃ rT rs, T.records = rT :: rs ∧ cmpPrimary rT r ≤ 0 := by
        by_cases hlen : 1 < L.length
        · exact (chainLocateSplit_bounds cmpPrimary r L A T B hsplit
            (hchain.pagesNE hlen)).1 hAne
        · exfalso
          rw [hdec] at hlen
          rcases A with _ | ⟨a, A2⟩
          · exact hAne rfl
          · simp only [List.cons_append, List.length_cons, List.length_append,
              List.length_cons] at hlen
            omega
      obtain ⟨rT, rs, hTrec, hle0⟩ := hS
      have hso := hchain.sorted
      rw [hdec, flatRecs_append, flatRecs_cons] at hso
      obtain ⟨hpA, hrest, hcrossA⟩ := List.pairwise_append.mp hso
      have hxrT : cmpPrimary x rT ≤ 0 :=
        hcrossA x hxA rT (List.mem_append_left _
          (by rw [hTrec]; exact List.mem_cons_self _ _))
      have hrTid : rT.id = x.id := by
        simp only [cmpPrimary] at hle0 hxrT
        omega
      rw [hdec, flatRecs_append, flatRecs_cons] at hndflat
      simp only [List.map_append] at hndflat
      have hdisj := (List.nodup_append.mp hndflat).2.2
      refine hdisj (List.mem_map_of_mem _ hxA) ?_
      refine List.mem_append_left _ ?_
      rw [← hrTid]
      exact List.mem_map_of_mem _ (by rw [hTrec]; exact List.mem_cons_self _ _)
    · rcases List.mem_append.mp hxTB with h | hxB
      · exact h
      · exfalso
        have hgt := hbounds.2 x hxB
        simp only [cmpPrimary] at hgt
        omega
  have hdup : ((IndexType.PRIMARY == IndexType.PRIMARY) &&
      T.records.any (fun y => y.id == r.id)) = true := by
    rw [Bool.and_eq_true]
    refine ⟨rfl, ?_⟩
    rw [List.any_eq_true]
    exact ⟨x, hxT, by simp [hxid]⟩
  simp only [insertIntoIndex, hloc, hfindT, hdup, if_true]

/-- A chain invariant only depends on the pages through the filtered list. -/
theorem ChainInv.of_filter_eq {pages pages2 : List PageData} {t : IndexType}
    {cmp : RecordData → RecordData → Int} {L : List PageData}
    (h : ChainInv pages t cmp L)
    (heq : pages2.filter (fun p => p.indexType == t) =
      pages.filter (fun p => p.indexType == t)) :
    ChainInv pages2 t cmp L :=
  ⟨by rw [heq]; exact h.perm, h.ne, h.headPrev, h.links, h.lastNext, h.sorted,
    h.pagesNE, h.cap⟩

theorem flatRecs_map_clear : ∀ L : List PageData,
    flatRecs (L.map clearPageFlags) = (flatRecs L).map clearRecordFlags := by
  intro L
  induction L with
  | nil => rfl
  | cons p rest ih =>
    simp only [List.map_cons, flatRecs, List.map_append, ih]
    rfl

theorem filter_map_clear (t : IndexType) : ∀ pages : List PageData,
    (pages.map clearPageFlags).filter (fun p => p.indexType == t) =
      (pages.filter (fun p => p.indexType == t)).map clearPageFlags := by
  intro pages
  induction pages with
  | nil => rfl
  | cons p rest ih =>
    simp only [List.map_cons, List.filter_cons]
    have hceq : ((clearPageFlags p).indexType == t) = (p.indexType == t) := rfl
    rw [hceq, ih]
    cases hp : (p.indexType == t) with
    | true => simp
    | false => simp

/-- Clearing the display flags of every page preserves a chain invariant
(for a comparator blind to the record flags). -/
theorem chainInv_clear {pages : List PageData} {t : IndexType}
    {cmp : RecordData → RecordData → Int} {L : List PageData}
    (hinv : ∀ a b, cmp (clearRecordFlags a) (clearRecordFlags b) = cmp a b)
    (hchain : ChainInv pages t cmp L) :
    ChainInv (pages.map clearPageFlags) t cmp (L.map clearPageFlags) := by
  have hfilter := filter_map_clear t pages
  refine ⟨?_, ?_, ?_, ?_, ?_, ?_, ?_, ?_⟩
  · rw [hfilter]
    exact hchain.perm.map clearPageFlags
  · intro hc
    exact hchain.ne (List.map_eq_nil_iff.mp hc)
  · intro x hx
    rw [List.head?_map] at hx
    obtain ⟨h0, h1, h2⟩ := Option.map_eq_some'.mp hx
    rw [← h2]
    exact hchain.headPrev h0 h1
  · rw [List.chain'_map]
    exact hchain.links.imp (fun a b h => h)
  · intro p hp
    rw [List.getLast?_map] at hp
    obtain ⟨p0, h1, h2⟩ := Option.map_eq_some'.mp hp
    rw [← h2]
    exact hchain.lastNext p0 h1
  · rw [flatRecs_map_clear, List.pairwise_map]
    exact hchain.sorted.imp (fun h => by rw [hinv]; exact h)
  · intro hlen p hp
    rw [List.length_map] at hlen
    obtain ⟨q, hq, rfl⟩ := List.mem_map.mp hp
    intro hc
    have h2 : q.records.map clearRecordFlags = [] := hc
    exact hchain.pagesNE hlen q hq (List.map_eq_nil_iff.mp h2)
  · intro p hp
    obtain ⟨q, hq, rfl⟩ := List.mem_map.mp hp
    have h2 : (q.records.map clearRecordFlags).length ≤ PAGE_CAPACITY := by
      rw [List.length_map]
      exact hchain.cap q hq
    exact h2

/-- Clearing the display flags preserves the engine invariant. -/
theorem pinv_clear {pages : List PageData} {counter : Int} (h : PInv pages counter) :
    PInv (pages.map clearPageFlags) counter := by
  obtain ⟨hnd, hle, ⟨LP, hP, hPnd⟩, ⟨LS, hS⟩⟩ := h
  have hids : (pages.map clearPageFlags).map (fun p => p.id) =
      pages.map (fun p => p.id) := by
    rw [List.map_map]
    rfl
  refine ⟨?_, ?_, ⟨LP.map clearPageFlags, chainInv_clear (fun a b => rfl) hP, ?_⟩,
    ⟨LS.map clearPageFlags, chainInv_clear (fun a b => rfl) hS⟩⟩
  · rw [hids]
    exact hnd
  · intro p hp
    obtain ⟨q, hq, rfl⟩ := List.mem_map.mp hp
    exact hle q hq
  · rw [flatRecs_map_clear, List.map_map]
    have hcomp : ((fun r : RecordData => r.id) ∘ clearRecordFlags) =
        (fun r : RecordData => r.id) := rfl
    rw [hcomp]
    exact hPnd

/-- The initial engine state satisfies the invariant. -/
theorem inv_init : Inv initializeEngine := by
  refine ⟨by decide, by decide,
    ⟨[createPage 1 .PRIMARY], ?_, by decide⟩,
    ⟨[createPage 2 .SECONDARY], ?_⟩⟩
  · refine ⟨by decide, by decide, ?_, List.chain'_singleton _, ?_,
      List.Pairwise.nil, fun h => absurd h (by decide), by decide⟩
    · intro x hx
      simp only [List.head?_cons] at hx
      injection hx with hx
      subst hx
      rfl
    · intro p hp
      simp only [List.getLast?_singleton] at hp
      injection hp with hp
      subst hp
      rfl
  · refine ⟨by decide, by decide, ?_, List.chain'_singleton _, ?_,
      List.Pairwise.nil, fun h => absurd h (by decide), by decide⟩
    · intro x hx
      simp only [List.head?_cons] at hx
      injection hx with hx
      subst hx
      rfl
    · intro p hp
      simp only [List.getLast?_singleton] at hp
      injection hp with hp
      subst hp
      rfl

/-- On an invariant state every insert succeeds and preserves the invariant;
the page counter never decreases. -/
theorem insertRecord_inv {s : EngineState} (id : Int) (value : String) (hinv : Inv s) :
    ∃ s', insertRecord s id value = some s' ∧ Inv s' ∧
      s.pageCounter ≤ s'.pageCounter := by
  obtain ⟨hnd, hle, ⟨LP, hP, hPnd⟩, ⟨LS, hS⟩⟩ := pinv_clear hinv
  by_cases hdup : ∃ x ∈ flatRecs LP, x.id = id
  · have h1 := insertIntoIndex_dup ⟨id, value, true, false⟩ s.pageCounter s.logs
      hP hnd hPnd hdup
    obtain ⟨res2, h2, L2, hC2, hperm2, hnd2, hle2, hmono2, hfilter2, hlogs2⟩ :=
      insertIntoIndex_fresh ⟨id, value, true, false⟩ s.pageCounter
        (addLog s.logs (dupMsg id) .error) cmpSecondary_le_trans cmpSecondary_le_total
        hS hnd hle (fun h => absurd h (by decide))
    refine ⟨⟨res2.pages, addLog res2.logs (txMsg id value) .info, res2.newPageCounter⟩,
      ?_, ?_, hmono2⟩
    · simp only [insertRecord, h1, h2]
    · exact ⟨hnd2, hle2,
        ⟨LP, hP.of_filter_eq (hfilter2 .PRIMARY (by decide)), hPnd⟩, ⟨L2, hC2⟩⟩
  · push_neg at hdup
    obtain ⟨res1, h1, L1, hC1, hperm1, hnd1, hle1, hmono1, hfilter1, hlogs1⟩ :=
      insertIntoIndex_fresh ⟨id, value, true, false⟩ s.pageCounter s.logs
        cmpPrimary_le_trans cmpPrimary_le_total hP hnd hle (fun _ => hdup)
    have hS1 : ChainInv res1.pages .SECONDARY cmpSecondary LS :=
      hS.of_filter_eq (hfilter1 .SECONDARY (by decide))
    obtain ⟨res2, h2, L2, hC2, hperm2, hnd2, hle2, hmono2, hfilter2, hlogs2⟩ :=
      insertIntoIndex_fresh ⟨id, value, true, false⟩ res1.newPageCounter res1.logs
        cmpSecondary_le_trans cmpSecondary_le_total hS1 hnd1 hle1
        (fun h => absurd h (by decide))
    refine ⟨⟨res2.pages, addLog res2.logs (txMsg id value) .info, res2.newPageCounter⟩,
      ?_, ?_, le_trans hmono1 hmono2⟩
    · simp only [insertRecord, h1, h2]
    · refine ⟨hnd2, hle2,
        ⟨L1, hC1.of_filter_eq (hfilter2 .PRIMARY (by decide)), ?_⟩, ⟨L2, hC2⟩⟩
      have hpermIds := hperm1.map (fun r => r.id)
      rw [hpermIds.nodup_iff, List.map_cons, List.nodup_cons]
      refine ⟨?_, hPnd⟩
      intro hmem
      obtain ⟨x, hx, hxid⟩ := List.mem_map.mp hmem
      exact hdup x hx hxid

/-- Every reachable engine state satisfies the invariant. -/
theorem reach_inv {s : EngineState} (h : Reach s) : Inv s := by
  induction h with
  | init => exact inv_init
  | step h1 hstep ih =>
    rename_i s0 id v s'
    obtain ⟨s2, h2, hinv2, _⟩ := insertRecord_inv id v ih
    rw [hstep] at h2
    injection h2 with h2
    rw [h2]
    exact hinv2

/-- The head-selection of `chainPages` finds the chain's head page. -/
theorem filter_find_head {pages : List PageData} {t : IndexType}
    {cmp : RecordData → RecordData → Int} {h : PageData} {rest : List PageData}
    (hchain : ChainInv pages t cmp (h :: rest)) :
    (pages.filter (fun p => p.indexType == t)).find? (fun p => p.prevPageId == none) =
      some h := by
  have hh : h ∈ pages.filter (fun p => p.indexType == t) :=
    hchain.perm.mem_iff.mpr (List.mem_cons_self h rest)
  have hprev : h.prevPageId = none := hchain.headPrev h rfl
  cases hfind : (pages.filter (fun p => p.indexType == t)).find?
      (fun p => p.prevPageId == none) with
  | none =>
    exfalso
    have := List.find?_eq_none.mp hfind h hh
    simp [hprev] at this
  | some x =>
    have hxmem : x ∈ pages.filter (fun p => p.indexType == t) :=
      List.mem_of_find?_eq_some hfind
    have hxprev := List.find?_some hfind
    have hxL : x ∈ h :: rest := hchain.perm.mem_iff.mp hxmem
    have hx2 : (h :: rest).head? = some x :=
      prev_none_eq_head hchain.links hxL (by simpa using hxprev)
    injection hx2 with hx2
    subst hx2
    rfl

/-- The fuel-bounded link walk recovers the abstract chain. -/
theorem chainFrom_eq {pages : List PageData} : ∀ (L2 : List PageData) (c : PageData)
    (fuel : Nat),
    (∀ p ∈ c :: L2, pages.find? (fun q => q.id == p.id) = some p) →
    List.Chain' PageLink (c :: L2) →
    (∀ p, (c :: L2).getLast? = some p → p.nextPageId = none) →
    L2.length + 1 ≤ fuel →
    chainFrom pages (some c.id) fuel = c :: L2 := by
  intro L2
  induction L2 with
  | nil =>
    intro c fuel hfind hchain hlast hfuel
    cases fuel with
    | zero => omega
    | succ f =>
      have hnext : c.nextPageId = none := hlast c (by simp)
      simp only [chainFrom, hfind c (List.mem_cons_self c []), hnext]
      cases f with
      | zero => rfl
      | succ f2 => rfl
  | cons q L3 ih =>
    intro c fuel hfind hchain hlast hfuel
    cases fuel with
    | zero =>
      simp only [List.length_cons] at hfuel
      omega
    | succ f =>
      have hcq : PageLink c q := (List.chain'_cons.mp hchain).1
      simp only [chainFrom, hfind c (List.mem_cons_self c (q :: L3)), hcq.1]
      rw [ih q f (fun p hp => hfind p (List.mem_cons_of_mem _ hp))
        (List.chain'_cons.mp hchain).2
        (fun p hp => hlast p (by rw [List.getLast?_cons_cons]; exact hp))
        (by simp only [List.length_cons] at hfuel ⊢; omega)]

/-- On an invariant state `chainPages` reads off exactly the abstract chain. -/
theorem chainPages_eq {s : EngineState} {t : IndexType}
    {cmp : RecordData → RecordData → Int} {L : List PageData}
    (hchain : ChainInv s.pages t cmp L)
    (hnd : (s.pages.map (fun p => p.id)).Nodup) :
    chainPages s t = L := by
  obtain ⟨h, rest, hL⟩ : ∃ h rest, L = h :: rest := by
    cases L with
    | nil => exact absurd rfl hchain.ne
    | cons a b => exact ⟨a, b, rfl⟩
  subst hL
  simp only [chainPages, filter_find_head hchain]
  refine chainFrom_eq rest h s.pages.length ?_ hchain.links hchain.lastNext ?_
  · intro p hp
    exact find?_eq_of_nodup hnd (hchain.mem_pages hp).1
  · have hlen : (h :: rest).length ≤ s.pages.length := by
      rw [← hchain.perm.length_eq]
      exact List.length_filter_le _ _
    simpa using hlen

/-- `applyInserts` only moves through reachable states. -/
theorem reach_applyInserts : ∀ (ops : List (Int × String)) {s0 s : EngineState},
    Reach s0 → applyInserts s0 ops = some s → Reach s := by
  intro ops
  induction ops with
  | nil =>
    intro s0 s h0 h
    simp only [applyInserts] at h
    injection h with h
    rw [← h]
    exact h0
  | cons op rest ih =>
    intro s0 s h0 h
    obtain ⟨id, v⟩ := op
    cases hins : insertRecord s0 id v with
    | none =>
      simp only [applyInserts, hins] at h
      exact Option.noConfusion h
    | some s1 =>
      simp only [applyInserts, hins] at h
      exact ih (Reach.step h0 hins) h

/-- In a linked chain with a null-terminated tail, every non-null forward
link points at a chain member whose back link matches. -/
theorem chain_next_succ : ∀ (L : List PageData), List.Chain' PageLink L →
    (∀ p, L.getLast? = some p → p.nextPageId = none) →
    ∀ a ∈ L, ∀ j, a.nextPageId = some j →
      ∃ c ∈ L, c.id = j ∧ c.prevPageId = some a.id := by
  intro L
  induction L with
  | nil =>
    intro _ _ a ha
    simp at ha
  | cons x rest ih =>
    intro hchain hlast a ha j hj
    rcases List.mem_cons.mp ha with rfl | ha2
    · cases rest with
      | nil =>
        exfalso
        have := hlast a (by simp)
        rw [this] at hj
        exact Option.noConfusion hj
      | cons y rest2 =>
        have hxy : PageLink a y := (List.chain'_cons.mp hchain).1
        rw [hxy.1] at hj
        injection hj with hj
        exact ⟨y, List.mem_cons_of_mem _ (List.mem_cons_self _ _), hj, hxy.2⟩
    · cases rest with
      | nil => simp at ha2
      | cons y rest2 =>
        obtain ⟨c, hc, hcid, hcprev⟩ := ih (List.chain'_cons.mp hchain).2
          (fun p hp => hlast p (by rw [List.getLast?_cons_cons]; exact hp)) a ha2 j hj
        exact ⟨c, List.mem_cons_of_mem _ hc, hcid, hcprev⟩

/-- The invariant implies mutual consistency of all non-null links. -/
theorem inv_linksConsistent {s : EngineState} (hinv : Inv s) :
    LinksConsistent s.pages := by
  obtain ⟨hnd, hle, ⟨LP, hP, hPnd⟩, ⟨LS, hS⟩⟩ := hinv
  intro a ha b hb hab
  cases hat : a.indexType with
  | PRIMARY =>
    have haL : a ∈ LP := hP.perm.mem_iff.mp (List.mem_filter.mpr ⟨ha, by simp [hat]⟩)
    obtain ⟨c, hcL, hcid, hcprev⟩ := chain_next_succ LP hP.links hP.lastNext a haL b.id hab
    have hcpages : c ∈ s.pages := (hP.mem_pages hcL).1
    have hbc : b = c := eq_of_id_eq hnd hb hcpages hcid.symm
    rw [hbc]
    exact hcprev
  | SECONDARY =>
    have haL : a ∈ LS := hS.perm.mem_iff.mp (List.mem_filter.mpr ⟨ha, by simp [hat]⟩)
    obtain ⟨c, hcL, hcid, hcprev⟩ := chain_next_succ LS hS.links hS.lastNext a haL b.id hab
    have hcpages : c ∈ s.pages := (hS.mem_pages hcL).1
    have hbc : b = c := eq_of_id_eq hnd hb hcpages hcid.symm
    rw [hbc]
    exact hcprev

/-- The invariant makes the primary chain's record ids strictly ascending. -/
theorem inv_primary_ascending {s : EngineState} (hinv : Inv s) :
    (primaryChainIds s).Pairwise (fun a b => a < b) := by
  obtain ⟨hnd, hle, ⟨LP, hP, hPnd⟩, ⟨LS, hS⟩⟩ := hinv
  unfold primaryChainIds
  rw [chainPages_eq hP hnd, List.pairwise_map]
  have h1 : (flatRecs LP).Pairwise (fun a b => cmpPrimary a b ≤ 0) := hP.sorted
  have h2 : (flatRecs LP).Pairwise (fun a b => a.id ≠ b.id) := List.pairwise_map.mp hPnd
  exact (h1.and h2).imp (fun h => by
    obtain ⟨h1, h2⟩ := h
    simp only [cmpPrimary] at h1
    omega)

/-- The invariant makes every PRIMARY page's record ids strictly ascending
(in particular pairwise distinct). -/
theorem inv_primary_page_ascending {s : EngineState} (hinv : Inv s) :
    ∀ p ∈ s.pages, p.indexType = .PRIMARY →
      (p.records.map (fun r => r.id)).Pairwise (fun a b => a < b) := by
  obtain ⟨hnd, hle, ⟨LP, hP, hPnd⟩, ⟨LS, hS⟩⟩ := hinv
  intro p hp ht
  have hpL : p ∈ LP := hP.perm.mem_iff.mp (List.mem_filter.mpr ⟨hp, by simp [ht]⟩)
  obtain ⟨l1, l2, hdec⟩ := List.append_of_mem hpL
  have hsub : p.records.Sublist (flatRecs LP) := by
    rw [hdec, flatRecs_append, flatRecs_cons]
    exact ((List.sublist_append_left p.records (flatRecs l2)).trans
      (List.sublist_append_right (flatRecs l1) _))
  rw [List.pairwise_map]
  have h1 := List.Pairwise.sublist hsub hP.sorted
  have h2 : p.records.Pairwise (fun a b => a.id ≠ b.id) :=
    List.pairwise_map.mp (List.Nodup.sublist (hsub.map _) hPnd)
  exact (h1.and h2).imp (fun h => by
    obtain ⟨h1, h2⟩ := h
    simp only [cmpPrimary] at h1
    omega)

/-- A permutation of the pages permutes the flattened records. -/
theorem flatRecs_perm {P Q : List PageData} (h : P.Perm Q) :
    (flatRecs P).Perm (flatRecs Q) := by
  induction h with
  | nil => exact List.Perm.refl _
  | cons x h ih =>
    simp only [flatRecs]
    exact List.Perm.append_left x.records ih
  | swap x y l =>
    simp only [flatRecs]
    rw [← List.append_assoc, ← List.append_assoc]
    exact List.Perm.append_right _ List.perm_append_comm
  | trans h1 h2 ih1 ih2 => exact ih1.trans ih2

instance : DecidableEq (Int × IndexType × List (Int × String) × Option Int × Option Int) :=
  instDecidableEqProd

theorem pageCore_clear (p : PageData) : pageCore (clearPageFlags p) = pageCore p := by
  simp only [pageCore, clearPageFlags, List.map_map]
  rfl

/-- `coresOf` is blind to the display flags. -/
theorem coresOf_clear (pages : List PageData) (t : IndexType) :
    coresOf (pages.map clearPageFlags) t = coresOf pages t := by
  unfold coresOf
  rw [filter_map_clear, List.map_map]
  refine List.map_congr_left ?_
  intro p _
  exact pageCore_clear p

/-- Membership in a log prefix survives an `addLog`. -/
theorem mem_take_addLog {x : LogEntry} {l : List LogEntry} {n : Nat}
    (hx : x ∈ l.take n) (hn : n ≤ 48) (m : String) (t : LogType) :
    x ∈ (addLog l m t).take (n + 1) := by
  simp only [addLog, List.take_succ_cons]
  refine List.mem_cons_of_mem _ ?_
  rw [List.take_take]
  have : min n 49 = n := by omega
  rw [this]
  exact hx

/-- The full effect of inserting an id that already lives in the primary
index, on an invariant state: the call succeeds, the primary cores are
untouched, the duplicate error is logged, the commit entry heads the log, and
the secondary index gains exactly one `(id, value)` record. -/
theorem insertRecord_dup_run {s : EngineState} (id : Int) (value : String)
    (hinv : Inv s) (hid : InPrimary s id) :
    ∃ s', insertRecord s id value = some s' ∧
      coresOf s'.pages .PRIMARY = coresOf s.pages .PRIMARY ∧
      (⟨dupMsg id, .error⟩ : LogEntry) ∈ s'.logs ∧
      s'.logs.head? = some ⟨txMsg id value, .info⟩ ∧
      ((flatRecs (s'.pages.filter (fun p => p.indexType == .SECONDARY))).map
        (fun r => (r.id, r.value))).Perm
        ((id, value) :: (flatRecs (s.pages.filter (fun p => p.indexType ==
          .SECONDARY))).map (fun r => (r.id, r.value))) := by
  obtain ⟨hnd, hle, ⟨LP, hP, hPnd⟩, ⟨LS, hS⟩⟩ := pinv_clear hinv
  obtain ⟨p, hp, hpt, hpid⟩ := hid
  have hdup : ∃ x ∈ flatRecs LP, x.id = id := by
    have hclear : clearPageFlags p ∈ s.pages.map clearPageFlags :=
      List.mem_map_of_mem _ hp
    have hpL : clearPageFlags p ∈ LP := hP.perm.mem_iff.mp
      (List.mem_filter.mpr ⟨hclear,
        by show (p.indexType == IndexType.PRIMARY) = true; simp [hpt]⟩)
    obtain ⟨x, hx, hxid⟩ := List.mem_map.mp hpid
    exact ⟨clearRecordFlags x,
      mem_flatRecs hpL (List.mem_map_of_mem _ hx), hxid⟩
  have h1 := insertIntoIndex_dup ⟨id, value, true, false⟩ s.pageCounter s.logs
    hP hnd hPnd hdup
  obtain ⟨res2, h2, L2, hC2, hperm2, hnd2, hle2, hmono2, hfilter2, hlogs2⟩ :=
    insertIntoIndex_fresh ⟨id, value, true, false⟩ s.pageCounter
      (addLog s.logs (dupMsg id) .error) cmpSecondary_le_trans cmpSecondary_le_total
      hS hnd hle (fun h => absurd h (by decide))
  refine ⟨⟨res2.pages, addLog res2.logs (txMsg id value) .info, res2.newPageCounter⟩,
    ?_, ?_, ?_, rfl, ?_⟩
  · simp only [insertRecord, h1, h2]
  · show coresOf res2.pages .PRIMARY = coresOf s.pages .PRIMARY
    have hcores : coresOf res2.pages .PRIMARY =
        coresOf (s.pages.map clearPageFlags) .PRIMARY := by
      unfold coresOf
      rw [hfilter2 .PRIMARY (by decide)]
    rw [hcores, coresOf_clear]
  · show (⟨dupMsg id, .error⟩ : LogEntry) ∈ addLog res2.logs (txMsg id value) .info
    have hd0 : (⟨dupMsg id, .error⟩ : LogEntry) ∈
        (addLog s.logs (dupMsg id) .error).take 1 := by
      simp [addLog]
    have hd : ∃ n, n ≤ 3 ∧ (⟨dupMsg id, .error⟩ : LogEntry) ∈ res2.logs.take n := by
      rcases hlogs2 with h | ⟨m1, l1, m2, l2, h⟩
      · exact ⟨1, by omega, by rw [h]; exact hd0⟩
      · refine ⟨3, by omega, ?_⟩
        rw [h]
        exact mem_take_addLog (mem_take_addLog hd0 (by omega) m1 l1) (by omega) m2 l2
    obtain ⟨n, hn, hmem⟩ := hd
    have hmem2 := mem_take_addLog hmem (by omega) (txMsg id value) .info
    exact List.take_subset _ _ hmem2
  · show ((flatRecs (res2.pages.filter (fun p => p.indexType == .SECONDARY))).map
      (fun r => (r.id, r.value))).Perm _
    have ha : (flatRecs (res2.pages.filter (fun p => p.indexType ==
        .SECONDARY))).Perm (flatRecs L2) := flatRecs_perm hC2.perm
    have hb : (flatRecs ((s.pages.map clearPageFlags).filter
        (fun p => p.indexType == .SECONDARY))).Perm (flatRecs LS) :=
      flatRecs_perm hS.perm
    have h4 := (ha.trans hperm2).map (fun r => (r.id, r.value))
    refine h4.trans ?_
    rw [List.map_cons]
    refine List.Perm.cons _ ?_
    have heq : ((flatRecs ((s.pages.map clearPageFlags).filter
        (fun p => p.indexType == .SECONDARY))).map (fun r => (r.id, r.value))) =
        (flatRecs (s.pages.filter (fun p => p.indexType == .SECONDARY))).map
          (fun r => (r.id, r.value)) := by
      rw [filter_map_clear, flatRecs_map_clear, List.map_map]
      rfl
    rw [← heq]
    exact hb.symm.map _

/-! ## C1, C3: chain invariants of reachable states -/

/-- C1: starting from the initial engine, for every completed sequence of
inserts with pairwise-distinct ids, the PRIMARY chain read head-to-tail
yields record ids in strictly ascending order, and all non-null next/prev
links are mutually consistent. -/
theorem C1_primary_order_and_links (ops : List (Int × String)) (s : EngineState)
    (hops : (ops.map Prod.fst).Nodup)
    (hrun : applyInserts initializeEngine ops = some s) :
    (primaryChainIds s).Pairwise (fun a b => a < b) ∧ LinksConsistent s.pages := by
  have hinv := reach_inv (reach_applyInserts ops Reach.init hrun)
  exact ⟨inv_primary_ascending hinv, inv_linksConsistent hinv⟩

/-- The state of the C1 witness: three inserts with distinct ids. -/
def c1WState : EngineState :=
  (applyInserts initializeEngine [(2, "Bob"), (1, "Alice"), (3, "Carol")]).getD
    initializeEngine

theorem C1_primary_order_and_links_witness :
    (([((2 : Int), "Bob"), (1, "Alice"), (3, "Carol")].map Prod.fst).Nodup) ∧
    applyInserts initializeEngine [(2, "Bob"), (1, "Alice"), (3, "Carol")] =
      some c1WState ∧
    ((primaryChainIds c1WState).Pairwise (fun a b => a < b) ∧
      LinksConsistent c1WState.pages) :=
  ⟨by decide, by decide,
    C1_primary_order_and_links [(2, "Bob"), (1, "Alice"), (3, "Carol")] c1WState
      (by decide) (by decide)⟩

/-- C3: starting from the initial engine, after any completed sequence of
inserts (ids not necessarily distinct), no PRIMARY page holds two records
with the same id. -/
theorem C3_no_primary_dup_ids (ops : List (Int × String)) (s : EngineState)
    (hrun : applyInserts initializeEngine ops = some s) :
    ∀ p ∈ s.pages, p.indexType = .PRIMARY →
      (p.records.map (fun r => r.id)).Nodup := by
  have hinv := reach_inv (reach_applyInserts ops Reach.init hrun)
  intro p hp ht
  exact (inv_primary_page_ascending hinv p hp ht).imp (fun h => Int.ne_of_lt h)

/-- The state of the C3 witness: a repeated id among the inserts. -/
def c3WState : EngineState :=
  (applyInserts initializeEngine [(1, "A"), (1, "B"), (2, "C")]).getD
    initializeEngine

theorem C3_no_primary_dup_ids_witness :
    applyInserts initializeEngine [(1, "A"), (1, "B"), (2, "C")] = some c3WState ∧
    ∀ p ∈ c3WState.pages, p.indexType = .PRIMARY →
      (p.records.map (fun r => r.id)).Nodup :=
  ⟨by decide,
    C3_no_primary_dup_ids [(1, "A"), (1, "B"), (2, "C")] c3WState (by decide)⟩

/-! ## C4: the duplicate-key insert -/

/-- A corrupt (unreachable) state: the PRIMARY chain holds `[1, 9]` on page 1
and `[5]` on page 2; locating id 9 peeks the next page's first key `5 ≤ 9`
and walks PAST the page that already holds 9, so the duplicate check (which
inspects only the target page) misses the duplicate. -/
def c4State : EngineState :=
  { pages := [
      { id := 1, indexType := .PRIMARY,
        records := [⟨1, "a", false, false⟩, ⟨9, "i", false, false⟩],
        nextPageId := some 2, prevPageId := none },
      { id := 2, indexType := .PRIMARY,
        records := [⟨5, "e", false, false⟩],
        nextPageId := none, prevPageId := some 1 }],
    logs := [],
    pageCounter := 10 }

/-- The state after the duplicate insert of the C4 counterexample. -/
def c4State' : EngineState := (insertRecord c4State 9 "x").getD initializeEngine

/-- Counterexample to C4 as stated (over EVERY state): on a corrupt state the
duplicate id 9 is inserted a second time into the PRIMARY chain — its pages
change and no error is logged. -/
theorem C4_counterexample :
    InPrimary c4State 9 ∧
    insertRecord c4State 9 "x" = some c4State' ∧
    coresOf c4State'.pages .PRIMARY ≠ coresOf c4State.pages .PRIMARY ∧
    (∀ e ∈ c4State'.logs, e.type ≠ LogType.error) :=
  ⟨by unfold InPrimary; decide, by decide, by decide, by decide⟩

/-- C4 (amended: restricted to reachable states): inserting an id already
present in the PRIMARY index succeeds, leaves the primary pages' semantic
content unchanged, logs the duplicate-key error, still adds `(id, value)` to
the SECONDARY index, and still logs the commit entry last-written. -/
theorem C4_duplicate_insert {s : EngineState} (hre : Reach s) (id : Int)
    (value : String) (hdup : InPrimary s id) :
    ∃ s', insertRecord s id value = some s' ∧
      coresOf s'.pages .PRIMARY = coresOf s.pages .PRIMARY ∧
      (⟨dupMsg id, .error⟩ : LogEntry) ∈ s'.logs ∧
      s'.logs.head? = some ⟨txMsg id value, .info⟩ ∧
      ((flatRecs (s'.pages.filter (fun p => p.indexType == .SECONDARY))).map
        (fun r => (r.id, r.value))).Perm
        ((id, value) :: (flatRecs (s.pages.filter (fun p => p.indexType ==
          .SECONDARY))).map (fun r => (r.id, r.value))) :=
  insertRecord_dup_run id value (reach_inv hre) hdup

/-- The reachable state of the C4 witness. -/
def c4wState : EngineState :=
  (insertRecord initializeEngine 1 "Alice").getD initializeEngine

theorem C4_duplicate_insert_witness :
    insertRecord initializeEngine 1 "Alice" = some c4wState ∧
    InPrimary c4wState 1 ∧
    (∃ s', insertRecord c4wState 1 "Bob" = some s' ∧
      coresOf s'.pages .PRIMARY = coresOf c4wState.pages .PRIMARY ∧
      (⟨dupMsg 1, .error⟩ : LogEntry) ∈ s'.logs ∧
      s'.logs.head? = some ⟨txMsg 1 "Bob", .info⟩ ∧
      ((flatRecs (s'.pages.filter (fun p => p.indexType == .SECONDARY))).map
        (fun r => (r.id, r.value))).Perm
        (((1 : Int), "Bob") :: (flatRecs (c4wState.pages.filter
          (fun p => p.indexType == .SECONDARY))).map (fun r => (r.id, r.value)))) :=
  ⟨by decide, by unfold InPrimary; decide,
    C4_duplicate_insert (Reach.step Reach.init
        (show insertRecord initializeEngine 1 "Alice" = some c4wState by decide))
      1 "Bob" (by unfold InPrimary; decide)⟩

/-! ## C9: the snapshot projection, amended -/

/-- C9 (amended): every projected object carries exactly the page's id,
record ids, links, and a status that is \"FULL\" iff the record count reaches
`PAGE_CAPACITY` (else \"HAS_SPACE\"); the projection ignores all display
flags; and on reachable states the projected `records` of every PRIMARY page
are strictly ascending (SECONDARY pages are value-ordered, so their
projections need not be). -/
theorem C9_projection (s : EngineState) (hre : Reach s) :
    (∀ e ∈ simplePages s, ∃ p ∈ s.pages, e.page_id = p.id ∧
      e.records = p.records.map (fun r => r.id) ∧
      e.next_page = p.nextPageId ∧ e.prev_page = p.prevPageId ∧
      (e.status = "FULL" ↔ PAGE_CAPACITY ≤ p.records.length) ∧
      (e.status = "FULL" ∨ e.status = "HAS_SPACE")) ∧
    simplePages { pages := s.pages.map clearPageFlags, logs := s.logs,
                  pageCounter := s.pageCounter } = simplePages s ∧
    (∀ p ∈ s.pages, p.indexType = .PRIMARY →
      (p.records.map (fun r => r.id)).Pairwise (fun a b => a < b)) := by
  refine ⟨?_, ?_, inv_primary_page_ascending (reach_inv hre)⟩
  · intro e he
    obtain ⟨p, hp, hpe⟩ := List.mem_map.mp he
    refine ⟨p, hp, ?_, ?_, ?_, ?_, ?_, ?_⟩
    · rw [← hpe]
    · rw [← hpe]
    · rw [← hpe]
    · rw [← hpe]
    · rw [← hpe]
      show (if p.records.length ≥ 4 then "FULL" else "HAS_SPACE") = "FULL" ↔
        PAGE_CAPACITY ≤ p.records.length
      by_cases h : p.records.length ≥ 4
      · rw [if_pos h]
        simp only [PAGE_CAPACITY]
        constructor
        · intro _
          exact h
        · intro _
          trivial
      · rw [if_neg h]
        constructor
        · intro hc
          exact absurd hc (by decide)
        · intro hc
          simp only [PAGE_CAPACITY] at hc
          omega
    · rw [← hpe]
      show (if p.records.length ≥ 4 then "FULL" else "HAS_SPACE") = "FULL" ∨
        (if p.records.length ≥ 4 then "FULL" else "HAS_SPACE") = "HAS_SPACE"
      by_cases h : p.records.length ≥ 4
      · left
        rw [if_pos h]
      · right
        rw [if_neg h]
  · simp only [simplePages, List.map_map]
    refine List.map_congr_left ?_
    intro p _
    simp only [Function.comp]
    have hrec : (clearPageFlags p).records.map (fun r => r.id) =
        p.records.map (fun r => r.id) := by
      show (p.records.map clearRecordFlags).map (fun r => r.id) =
        p.records.map (fun r => r.id)
      rw [List.map_map]
      rfl
    have hlen : (clearPageFlags p).records.length = p.records.length := by
      show (p.records.map clearRecordFlags).length = p.records.length
      rw [List.length_map]
    rw [hrec, hlen]
    rfl

theorem C9_projection_witness :
    (∀ e ∈ simplePages initializeEngine, ∃ p ∈ initializeEngine.pages,
      e.page_id = p.id ∧
      e.records = p.records.map (fun r => r.id) ∧
      e.next_page = p.nextPageId ∧ e.prev_page = p.prevPageId ∧
      (e.status = "FULL" ↔ PAGE_CAPACITY ≤ p.records.length) ∧
      (e.status = "FULL" ∨ e.status = "HAS_SPACE")) ∧
    simplePages { pages := initializeEngine.pages.map clearPageFlags,
                  logs := initializeEngine.logs,
                  pageCounter := initializeEngine.pageCounter } =
      simplePages initializeEngine ∧
    (∀ p ∈ initializeEngine.pages, p.indexType = .PRIMARY →
      (p.records.map (fun r => r.id)).Pairwise (fun a b => a < b)) :=
  C9_projection initializeEngine Reach.init

end Innodb
